import Mathlib

/-! # mysql-backup: restore engine, target parsing, storage backends, dump command

A shallow embedding of these parts of the repository:

* `pkg/database/restore.go` : `database.Restore`, the transactional statement replay;
* `pkg/core/parse.go`       : `core.smartParse`;
* `pkg/core/restore.go`     : `core.Restore`, the restore pipeline;
* `pkg/storage/...`         : `Pull` and `Push` of the file, smb and s3 backends;
* `cmd/dump.go`             : the options and the `RunE` of the `dump` command.

Go strings are byte sequences.  They are embedded as lists of characters, one character per
byte (the character whose code is the byte), so that ASCII literals read as in the source.
-/

namespace MysqlBackup

/-- A Go string: its bytes in order, each byte written as the character with that code. -/
abbrev GoString := List Char

/-! ## `bufio.Scanner` with the default split function `ScanLines` -/

namespace bufio

/-- The constant `bufio.MaxScanTokenSize`: the size the scanner's buffer may grow to. -/
def MaxScanTokenSize : Nat := 64 * 1024

/-- Why a scanner stopped before the end of its input. -/
inductive ScanErr where
  | tooLong
  | readErr
deriving DecidableEq, Repr

/-- The helper `dropCR` of `bufio`: drop one terminal carriage return. -/
def dropCR (data : GoString) : GoString :=
  if data.getLast? = some '\r' then data.dropLast else data

/-- An `io.Reader` as the scanner sees it: the bytes it delivers, and whether the read after the
last byte reports an I/O error (`fails = true`) or the end of the file. -/
structure Reader where
  data : GoString
  fails : Bool
deriving DecidableEq, Repr

/-- The tokens that successive calls of `Scanner.Scan` deliver, and the error the scanner stops
with (`none` at the end of the file), for a buffer limit `max`.  `cur` holds the bytes of the
line being read.  A line is delivered when its newline is in the buffer; the scanner gives up
with `ErrTooLong` once `max` bytes without a newline fill the buffer; at the end of the input
(or at a read error) the bytes left over are delivered as a last line. -/
def scanFrom (max : Nat) (fails : Bool) : GoString → GoString → List GoString × Option ScanErr
  | cur, [] =>
    if max ≤ cur.length then ([], some ScanErr.tooLong)
    else ((if cur = [] then [] else [dropCR cur]),
          if fails then some ScanErr.readErr else none)
  | cur, c :: rest =>
    if c = '\n' then
      if max ≤ cur.length then ([], some ScanErr.tooLong)
      else ((dropCR cur) :: (scanFrom max fails [] rest).1, (scanFrom max fails [] rest).2)
    else scanFrom max fails (cur ++ [c]) rest

/-- All lines of a reader, as `for scanner.Scan() { line := scanner.Text() ... }` sees them
with a scanner made by `bufio.NewScanner`, and the value of `scanner.Err()` afterwards. -/
def scan (r : Reader) : List GoString × Option ScanErr :=
  scanFrom MaxScanTokenSize r.fails [] r.data

end bufio

/-! ## `pkg/database/restore.go` -/

namespace database

/-- The type `sql.IsolationLevel` of `database/sql`. -/
inductive IsolationLevel where
  | LevelDefault
  | LevelReadUncommitted
  | LevelReadCommitted
  | LevelWriteCommitted
  | LevelRepeatableRead
  | LevelSnapshot
  | LevelSerializable
  | LevelLinearizable
deriving DecidableEq, Repr

/-- A call made on the database handle or on the open transaction; `beginTxWith` is
`db.BeginTx` with the isolation level of its `sql.TxOptions`. -/
inductive Call where
  | beginTxWith (isolation : IsolationLevel)
  | exec (stmt : GoString)
  | rollback
  | commit
deriving DecidableEq, Repr

/-- The call `db.BeginTx(ctx, &sql.TxOptions{Isolation: sql.LevelSerializable})` of line 21,
the only call of `Restore` that begins a transaction. -/
@[match_pattern, reducible]
def Call.beginTx : Call := Call.beginTxWith IsolationLevel.LevelSerializable

/-- The database collaborator.  Whether a call fails may depend on every call made before it
(the first argument of each field is the list of the calls made so far). -/
structure Conn where
  openFails : Bool
  beginFails : List Call → Bool
  execFails : List Call → GoString → Bool
  commitFails : List Call → Bool

/-- The errors `Restore` returns, by the call that failed. -/
inductive Err where
  | openFailed
  | beginFailed
  | execFailed
  | commitFailed
deriving DecidableEq, Repr

/-- The loop `for scanner.Scan() { ... }` of `Restore` (lines 27-42) over the lines the scanner
delivers: `tr` is the list of calls made so far, `current` the pending statement. -/
def replay (db : Conn) : List Call → GoString → List GoString → List Call × Option Err
  | tr, _, [] => (tr, none)
  | tr, current, line :: rest =>
    if line = [] then replay db tr current rest
    else if line.getLast? ≠ some ';' then replay db tr (current ++ line ++ ['\n']) rest
    else if db.execFails tr (current ++ line ++ ['\n']) then
      (tr ++ [Call.exec (current ++ line ++ ['\n']), Call.rollback], some Err.execFailed)
    else replay db (tr ++ [Call.exec (current ++ line ++ ['\n'])]) [] rest

/-- One iteration of `for _, r := range readers` (lines 21-45): begin a transaction, replay the
lines of the reader, commit. -/
def restoreUnit (db : Conn) (tr : List Call) (r : bufio.Reader) : List Call × Option Err :=
  if db.beginFails tr then (tr ++ [Call.beginTx], some Err.beginFailed)
  else
    match replay db (tr ++ [Call.beginTx]) [] (bufio.scan r).1 with
    | (tr1, some e) => (tr1, some e)
    | (tr1, none) =>
      if db.commitFails tr1 then (tr1 ++ [Call.commit], some Err.commitFailed)
      else (tr1 ++ [Call.commit], none)

/-- The loop `for _, r := range readers` (lines 20-46): the first error returns. -/
def restoreUnits (db : Conn) : List Call → List bufio.Reader → List Call × Option Err
  | tr, [] => (tr, none)
  | tr, r :: rs =>
    match restoreUnit db tr r with
    | (tr1, some e) => (tr1, some e)
    | (tr1, none) => restoreUnits db tr1 rs

/-- The function `database.Restore`: the calls made on the database, in order, and the error
returned (`none` for `nil`). -/
def Restore (db : Conn) (readers : List bufio.Reader) : List Call × Option Err :=
  if db.openFails then ([], some Err.openFailed) else restoreUnits db [] readers

/-- The statements among a list of calls, in order. -/
def execsOf : List Call → List GoString
  | [] => []
  | Call.exec s :: tr => s :: execsOf tr
  | _ :: tr => execsOf tr

/-- A database that accepts every call. -/
def allOk : Conn := ⟨false, fun _ => false, fun _ _ => false, fun _ => false⟩

/-- A database whose `k`-th statement of the run (counting from 0) fails, all else succeeds. -/
def failsAt (k : Nat) : Conn :=
  ⟨false, fun _ => false, fun tr _ => decide ((execsOf tr).length = k), fun _ => false⟩

/-- The reference splitter of the specification: read the lines in order, drop every empty
line, append each non-empty line and a newline to the pending buffer, emit and clear the buffer
exactly when the last character of the line is `;`. -/
def specSplit : GoString → List GoString → List GoString
  | _, [] => []
  | pending, line :: rest =>
    if line = [] then specSplit pending rest
    else if line.getLast? = some ';' then (pending ++ line ++ ['\n']) :: specSplit [] rest
    else specSplit (pending ++ line ++ ['\n']) rest

/-- Executing a list of statements in order on an open transaction, as the specification has
it: the first failure rolls back and ends the run. -/
def specExec (db : Conn) : List Call → List GoString → List Call × Option Err
  | tr, [] => (tr, none)
  | tr, s :: rest =>
    if db.execFails tr s then (tr ++ [Call.exec s, Call.rollback], some Err.execFailed)
    else specExec db (tr ++ [Call.exec s]) rest

end database

/-! ## The functions of the Go package `strings` that the code uses -/

namespace strings

/-- The test `strings.HasPrefix(s, pre)`. -/
def HasPrefix (s pre : GoString) : Bool := pre.isPrefixOf s

/-- The test `strings.HasSuffix(s, suf)`. -/
def HasSuffix (s suf : GoString) : Bool := suf.isSuffixOf s

/-- The function `strings.Cut(s, sep)` for a separator of one byte: the text before the first
`sep` and the text after it, or `none` when `s` has no `sep`. -/
def Cut (sep : Char) : GoString → Option (GoString × GoString)
  | [] => none
  | c :: rest =>
    if c = sep then some ([], rest)
    else
      match Cut sep rest with
      | none => none
      | some (before, after) => some (c :: before, after)

/-- Splitting at the last `sep`, as `i := strings.LastIndex(s, sep)` followed by `s[:i]` and
`s[i+1:]` does; `none` when `s` has no `sep`. -/
def CutLast (sep : Char) (s : GoString) : Option (GoString × GoString) :=
  match Cut sep s.reverse with
  | none => none
  | some (afterRev, beforeRev) => some (beforeRev.reverse, afterRev.reverse)

/-- The index `strings.Index(s, sub)`, `none` for `-1`. -/
def Index (sub : GoString) : GoString → Option Nat
  | [] => if sub = [] then some 0 else none
  | c :: rest =>
    if sub.isPrefixOf (c :: rest) then some 0
    else (Index sub rest).map (fun i => i + 1)

end strings

/-! ## `net/url`: `url.Parse`

The components of a parsed URL, as `url.Parse` fills them.  The fields of `url.URL` that only
record how the input was escaped (`RawPath`, `RawFragment`, `ForceQuery`, `OmitHost`) are left
out; the repository reads none of them. -/

namespace url

/-- The type `url.Userinfo`. -/
structure Userinfo where
  username : GoString
  password : GoString
  passwordSet : Bool
deriving DecidableEq, Repr

/-- The type `url.URL` (`User = none` is the nil pointer). -/
structure URL where
  Scheme : GoString
  Opaque : GoString
  User : Option Userinfo
  Host : GoString
  Path : GoString
  RawQuery : GoString
  Fragment : GoString
deriving DecidableEq, Repr

/-- The modes of `unescape` that `Parse` uses. -/
inductive encoding where
  | encodePath
  | encodeHost
  | encodeZone
  | encodeUserPassword
  | encodeFragment
deriving DecidableEq, Repr

/-- The test `stringContainsCTLByte`: a byte below the space, or the byte `0x7f`. -/
def stringContainsCTLByte (s : GoString) : Bool :=
  s.any (fun b => decide (b.toNat < 32) || decide (b.toNat = 127))

/-- The test `ishex`. -/
def ishex (c : Char) : Bool :=
  (decide ('0' ≤ c) && decide (c ≤ '9')) || (decide ('a' ≤ c) && decide (c ≤ 'f'))
    || (decide ('A' ≤ c) && decide (c ≤ 'F'))

/-- The value `unhex c` of a hexadecimal digit. -/
def unhex (c : Char) : Nat :=
  if '0' ≤ c ∧ c ≤ '9' then c.toNat - '0'.toNat
  else if 'a' ≤ c ∧ c ≤ 'f' then c.toNat - 'a'.toNat + 10
  else if 'A' ≤ c ∧ c ≤ 'F' then c.toNat - 'A'.toNat + 10
  else 0

/-- The test `shouldEscape(c, encodeHost)`: letters, digits, the sub-delimiters, and
`: [ ] < > "`, `- _ . ~` may stand in a host as they are. -/
def shouldEscapeHost (c : Char) : Bool :=
  if c.isAlpha || c.isDigit then false
  else if c ∈ ['!', '$', '&', Char.ofNat 39, '(', ')', '*', '+', ',', ';', '=', ':', '[', ']',
      '<', '>', Char.ofNat 34] then false
  else if c ∈ ['-', '_', '.', '~'] then false
  else true

/-- The function `unescape(s, mode)`: check that every `%` is followed by two hexadecimal
digits (and, in a host or a zone, that the escape and the plain bytes are allowed there), then
replace every `%XX` by the byte `XX`. -/
def unescape (mode : encoding) : GoString → Option GoString
  | [] => some []
  | '%' :: h1 :: h2 :: rest =>
    if ishex h1 && ishex h2 then
      if mode = encoding.encodeHost ∧ unhex h1 < 8 ∧ ¬ (h1 = '2' ∧ h2 = '5') then none
      else if mode = encoding.encodeZone ∧ ¬ (h1 = '2' ∧ h2 = '5')
          ∧ unhex h1 * 16 + unhex h2 ≠ 32
          ∧ shouldEscapeHost (Char.ofNat (unhex h1 * 16 + unhex h2)) = true then none
      else (unescape mode rest).map (fun t => Char.ofNat (unhex h1 * 16 + unhex h2) :: t)
    else none
  | c :: rest =>
    if c = '%' then none
    else if (mode = encoding.encodeHost ∨ mode = encoding.encodeZone) ∧ c.toNat < 128
        ∧ shouldEscapeHost c = true then none
    else (unescape mode rest).map (fun t => c :: t)

/-- The function `getScheme`, from the byte at index `i` on (`todo` is `rawURL[i:]`): the
scheme and the text after its colon; an empty scheme and the whole text when there is none;
`none` for the error `missing protocol scheme`. -/
def getSchemeFrom (rawURL : GoString) : Nat → GoString → Option (GoString × GoString)
  | _, [] => some ([], rawURL)
  | i, c :: todo =>
    if c.isAlpha then getSchemeFrom rawURL (i + 1) todo
    else if c.isDigit || c = '+' || c = '-' || c = '.' then
      if i = 0 then some ([], rawURL) else getSchemeFrom rawURL (i + 1) todo
    else if c = ':' then
      if i = 0 then none else some (rawURL.take i, todo)
    else some ([], rawURL)

/-- The function `getScheme`. -/
def getScheme (rawURL : GoString) : Option (GoString × GoString) :=
  getSchemeFrom rawURL 0 rawURL

/-- The test `validOptionalPort`: empty, or a colon followed by digits only. -/
def validOptionalPort : GoString → Bool
  | [] => true
  | c :: digits => decide (c = ':') && digits.all (fun b => b.isDigit)

/-- The test `validUserinfo`. -/
def validUserinfo (s : GoString) : Bool :=
  s.all (fun r => r.isAlpha || r.isDigit
    || decide (r ∈ ['-', '.', '_', ':', '~', '!', '$', '&', Char.ofNat 39, '(', ')', '*', '+',
        ',', ';', '=', '%', '@']))

/-- The function `parseHost`. -/
def parseHost (host : GoString) : Option GoString :=
  if strings.HasPrefix host ['['] then
    match strings.CutLast ']' host with
    | none => none
    | some (inBrackets, colonPort) =>
      if ¬ validOptionalPort colonPort then none
      else
        match strings.Index ['%', '2', '5'] inBrackets with
        | some zone =>
          match unescape encoding.encodeHost (host.take zone),
              unescape encoding.encodeZone (inBrackets.drop zone),
              unescape encoding.encodeHost (host.drop inBrackets.length) with
          | some host1, some host2, some host3 => some (host1 ++ host2 ++ host3)
          | _, _, _ => none
        | none => unescape encoding.encodeHost host
  else
    match strings.CutLast ':' host with
    | some (_, port) =>
      if ¬ validOptionalPort (':' :: port) then none else unescape encoding.encodeHost host
    | none => unescape encoding.encodeHost host

/-- The function `parseAuthority`: the user information before the last `@` and the host
after it. -/
def parseAuthority (authority : GoString) : Option (Option Userinfo × GoString) :=
  match strings.CutLast '@' authority with
  | none => (parseHost authority).map (fun host => (none, host))
  | some (userinfo, hostpart) =>
    match parseHost hostpart with
    | none => none
    | some host =>
      if ¬ validUserinfo userinfo then none
      else
        match strings.Cut ':' userinfo with
        | none =>
          (unescape encoding.encodeUserPassword userinfo).map
            (fun u => (some ⟨u, [], false⟩, host))
        | some (username, password) =>
          match unescape encoding.encodeUserPassword username,
              unescape encoding.encodeUserPassword password with
          | some u, some p => some (some ⟨u, p, true⟩, host)
          | _, _ => none

/-- The function `parse(rawURL, viaRequest)` for `viaRequest = false`. -/
def parse (rawURL : GoString) : Option URL :=
  if stringContainsCTLByte rawURL then none
  else if rawURL = ['*'] then some ⟨[], [], none, [], ['*'], [], []⟩
  else
    match getScheme rawURL with
    | none => none
    | some (scheme0, rest0) =>
      let scheme := scheme0.map Char.toLower
      let rest := ((strings.Cut '?' rest0).map (fun p => p.1)).getD rest0
      let rawQuery := ((strings.Cut '?' rest0).map (fun p => p.2)).getD []
      if ¬ strings.HasPrefix rest ['/'] ∧ scheme ≠ [] then
        some ⟨scheme, rest, none, [], [], rawQuery, []⟩
      else if ¬ strings.HasPrefix rest ['/']
          ∧ ':' ∈ ((strings.Cut '/' rest).map (fun p => p.1)).getD rest then none
      else if (scheme ≠ [] ∨ ¬ strings.HasPrefix rest ['/', '/', '/'])
          ∧ strings.HasPrefix rest ['/', '/'] then
        let authority0 := rest.drop 2
        let authority := ((strings.Cut '/' authority0).map (fun p => p.1)).getD authority0
        let path := ((strings.Cut '/' authority0).map (fun p => '/' :: p.2)).getD []
        match parseAuthority authority, unescape encoding.encodePath path with
        | some (user, host), some p => some ⟨scheme, [], user, host, p, rawQuery, []⟩
        | _, _ => none
      else
        (unescape encoding.encodePath rest).map
          (fun p => ⟨scheme, [], none, [], p, rawQuery, []⟩)

/-- The function `url.Parse`: `none` stands for an error. -/
def Parse (rawURL : GoString) : Option URL :=
  match strings.Cut '#' rawURL with
  | none => parse rawURL
  | some (u, frag) =>
    match parse u with
    | none => none
    | some url =>
      if frag = [] then some url
      else (unescape encoding.encodeFragment frag).map (fun f => { url with Fragment := f })

end url

/-! ## `pkg/core/parse.go` -/

namespace core

/-- The function `smartParse`: parse a url, but convert a leading `/` into `file:///`. -/
def smartParse (raw : GoString) : Option url.URL :=
  if strings.HasPrefix raw "/".toList then url.Parse ("file://".toList ++ raw)
  else url.Parse raw

end core

/-! ## The local filesystem (`os`) -/

namespace os

/-- What a path names: a regular file with its content, or a directory. -/
inductive Node where
  | file (content : GoString)
  | dir
deriving DecidableEq, Repr

/-- The filesystem: the paths that exist, each with what it names.  A path is taken as it is
written and there are no links: a file is known under one path, its cleaned absolute path, so
a statement about two paths holds of the files when both paths are given in that form. -/
abbrev FS := List (GoString × Node)

/-- The node a path names, if the path exists. -/
def FS.get (fs : FS) (p : GoString) : Option Node :=
  (fs.find? (fun e => e.1 = p)).map (fun e => e.2)

/-- Whether a path exists. -/
def FS.exists (fs : FS) (p : GoString) : Bool := (fs.get p).isSome

/-- The filesystem with `p` naming `n` from now on. -/
def FS.put (fs : FS) (p : GoString) (n : Node) : FS :=
  (p, n) :: fs.filter (fun e => e.1 ≠ p)

/-- The call `os.Remove(p)`. -/
def FS.remove (fs : FS) (p : GoString) : FS := fs.filter (fun e => e.1 ≠ p)

/-- The call `os.RemoveAll(p)`: `p` and everything below it. -/
def FS.removeAll (fs : FS) (p : GoString) : FS :=
  fs.filter (fun e => e.1 ≠ p ∧ ¬ (p ++ ['/']).isPrefixOf e.1)

/-- The name of `p` inside the directory `dir`, when `p` is directly inside it. -/
def childName (dir p : GoString) : Option GoString :=
  if (dir ++ ['/']).isPrefixOf p ∧ p.drop (dir.length + 1) ≠ [] ∧ '/' ∉ p.drop (dir.length + 1)
  then some (p.drop (dir.length + 1)) else none

/-- The order of file names in a directory listing: byte by byte. -/
def nameLe : GoString → GoString → Bool
  | [], _ => true
  | _ :: _, [] => false
  | a :: s, b :: t => decide (a.toNat < b.toNat) || (decide (a = b) && nameLe s t)

/-- Insertion of one entry into a listing sorted by name. -/
def insertEntry (e : GoString × Node) : List (GoString × Node) → List (GoString × Node)
  | [] => [e]
  | x :: rest => if nameLe e.1 x.1 then e :: x :: rest else x :: insertEntry e rest

/-- The call `os.ReadDir(dir)`: the entries directly inside `dir`, sorted by file name. -/
def ReadDir (fs : FS) (dir : GoString) : List (GoString × Node) :=
  (fs.filterMap (fun e => (childName dir e.1).map (fun name => (name, e.2)))).foldr
    insertEntry []

end os

/-! ## The collaborators of the restore pipeline -/

/-- The type `credentials.Creds`. -/
structure Creds where
  AWSEndpoint : GoString
  SMBCredentials : GoString
deriving DecidableEq, Repr

/-- The storage backends of `pkg/storage`. -/
inductive Backend where
  | file
  | smb
  | s3
deriving DecidableEq, Repr

/-- A call that leaves the process, other than a call on the database or the filesystem. -/
inductive Event where
  | runScripts (dir target : GoString)
  | pull (backend : Backend) (u : url.URL) (target : GoString)
  | netDial (address : GoString)
  | smbLogin (user password : GoString)
  | smbMount (share : GoString)
  | smbOpen (path : GoString)
  | smbCreate (path : GoString)
  | smbWrite (path content : GoString)
  | awsSession (endpoint : Option GoString)
  | s3Download (bucket key : GoString)
  | s3Upload (bucket key content : GoString)
deriving DecidableEq, Repr

/-- Everything outside the code under study that decides how a run goes: the hook runner
`runScripts`, the compressor and `archive.Untar` (packages of the repository that are not among
the sources), the network, the database, and the failures of the operating system. -/
structure Env where
  /-- The function `runScripts(dir, env)`, with the value of `DB_RESTORE_TARGET`: the scripts may
  change the filesystem; `true` is an error. -/
  runScripts : GoString → GoString → os.FS → os.FS × Bool
  /-- The call `os.Open(p)` fails although `p` exists. -/
  openFails : GoString → Bool
  /-- The call `os.Create(p)` fails (a missing parent directory, no permission). -/
  createFails : GoString → Bool
  /-- Reading the file at `p` ends in an I/O error. -/
  readFails : GoString → Bool
  /-- The directory `os.MkdirTemp("", "restore")` makes. -/
  tmpdir : GoString
  mkdirTempFails : Bool
  readDirFails : Bool
  /-- The method `compressor.Uncompress`, on the bytes of its input. -/
  uncompress : GoString → Option GoString
  /-- The function `archive.Untar`, on the bytes of its input: the entries it writes, by their
  path inside the target directory, and whether it fails. -/
  untar : GoString → List (GoString × os.Node) × Bool
  dialFails : GoString → Bool
  smbLoginFails : GoString → GoString → Bool
  smbMountFails : GoString → Bool
  /-- The content of a file of a share, if it can be opened. -/
  smbOpen : GoString → GoString → Option GoString
  /-- Creating a file of a share fails. -/
  smbCreateFails : GoString → GoString → Bool
  awsSessionFails : Bool
  /-- The object of a bucket under a key, seen through a session with the given custom
  endpoint (`none` for the default endpoint). -/
  s3Download : Option GoString → GoString → GoString → Option GoString
  /-- Uploading to a bucket under a key fails. -/
  s3UploadFails : Option GoString → GoString → GoString → Bool
  db : database.Conn

/-- The state of the world around a run: the filesystem, the calls made so far to the hooks and
to the network, and the calls made so far on the database. -/
structure World where
  fs : os.FS
  log : List Event
  db : List database.Call
deriving DecidableEq, Repr

namespace os

/-- The call `os.Open(p)`: the node opened, `none` for an error. -/
def Open (env : Env) (fs : FS) (p : GoString) : Option Node :=
  if env.openFails p then none else fs.get p

/-- The call `os.Create(p)`: the filesystem with `p` an empty regular file, `none` for an
error (`p` is a directory, or `createFails`). -/
def Create (env : Env) (fs : FS) (p : GoString) : Option FS :=
  if env.createFails p ∨ fs.get p = some Node.dir then none
  else some (fs.put p (Node.file []))

end os

namespace strings

/-- The function `strings.SplitN(s, sep, 2)` for a separator of one byte: `s` alone when it
has no `sep`, else the text before the first `sep` and the text after it. -/
def SplitN (s : GoString) (sep : Char) : List GoString :=
  match Cut sep s with
  | none => [s]
  | some (before, after) => [before, after]

/-- The function `strings.ReplaceAll(s, old, new)` for single bytes. -/
def ReplaceAll (s : GoString) (old new : Char) : GoString :=
  s.map (fun c => if c = old then new else c)

end strings

namespace filepath

/-- The function `filepath.Base` (with `/` as the separator): the last element of the path,
after the trailing slashes are dropped; `.` for the empty path, `/` for a path of slashes. -/
def Base (path : GoString) : GoString :=
  if path = [] then ['.']
  else if ((path.reverse.dropWhile (fun c => c = '/')).takeWhile (fun c => c ≠ '/')) = [] then
    ['/']
  else ((path.reverse.dropWhile (fun c => c = '/')).takeWhile (fun c => c ≠ '/')).reverse

end filepath

namespace url

/-- The helper `splitHostPort` of `net/url`, its first result: the host without a valid port
and without the square brackets of an IPv6 literal. -/
def splitHostPort (hostPort : GoString) : GoString :=
  let host :=
    match strings.CutLast ':' hostPort with
    | some (before, port) => if validOptionalPort (':' :: port) then before else hostPort
    | none => hostPort
  if strings.HasPrefix host ['['] ∧ strings.HasSuffix host [']'] then host.tail.dropLast
  else host

/-- The method `(*URL).Hostname`. -/
def URL.Hostname (u : URL) : GoString := splitHostPort u.Host

end url

/-! ## `pkg/storage/file/file.go` -/

namespace file

/-- The function `copyFile`: open `fromPath`, create `toPath`, copy.  The result is the number
of bytes copied, `none` for an error.  A directory opens but cannot be read, and the file
created before a failed copy stays. -/
def copyFile (env : Env) (fromPath toPath : GoString) (w : World) : World × Option Nat :=
  match os.Open env w.fs fromPath with
  | none => (w, none)
  | some _ =>
    match os.Create env w.fs toPath with
    | none => (w, none)
    | some fs1 =>
      match fs1.get fromPath with
      | some (os.Node.file content) =>
        if env.readFails fromPath then ({ w with fs := fs1 }, none)
        else ({ w with fs := fs1.put toPath (os.Node.file content) }, some content.length)
      | _ => ({ w with fs := fs1 }, none)

/-- The method `(*File).Pull`. -/
def Pull (env : Env) (_creds : Creds) (u : url.URL) (target : GoString) (w : World) :
    World × Option Nat :=
  copyFile env u.Path target w

end file

/-! ## `pkg/storage/smb/smb.go` -/

namespace smb

/-- The constant `smb2.PathSeparator` of the SMB client library. -/
def PathSeparator : Char := '\\'

/-- The function `parseSMBPath`: parse an smb path into its constituent parts. -/
def parseSMBPath (path : GoString) : GoString × GoString :=
  if (strings.SplitN path '/').length ≤ 1 then (path, [])
  else ((strings.SplitN path '/').headD [], '/' :: (strings.SplitN path '/').getD 1 [])

/-- The user name and the password `smbCommand` logs in with (lines 37-52). -/
def credentialsOf (creds : Creds) (u : url.URL) : GoString × GoString :=
  let parts := strings.SplitN creds.SMBCredentials '%'
  let username := if creds.SMBCredentials ≠ [] then parts.headD [] else []
  let password := if creds.SMBCredentials ≠ [] ∧ parts.length = 2 then parts.getD 1 [] else []
  match u.User with
  | some user => if username = [] then (user.username, user.password) else (username, password)
  | none => (username, password)

/-- The function `smbCommand`. -/
def smbCommand (env : Env) (push : Bool) (creds : Creds) (u : url.URL)
    (remoteFilename filename : GoString) (w : World) : World × Option Nat :=
  let hostname := u.Hostname
  let share := (parseSMBPath u.Path).1
  let sharepath := (parseSMBPath u.Path).2
  let username := (credentialsOf creds u).1
  let password := (credentialsOf creds u).2
  let w1 : World := { w with log := w.log ++ [Event.netDial hostname] }
  if env.dialFails hostname then (w1, none)
  else
    let w2 : World := { w1 with log := w1.log ++ [Event.smbLogin username password] }
    if env.smbLoginFails username password then (w2, none)
    else
      let w3 : World := { w2 with log := w2.log ++ [Event.smbMount share] }
      if env.smbMountFails share then (w3, none)
      else if push then
        match os.Open env w3.fs filename with
        | none => (w3, none)
        | some src =>
          let remote := sharepath ++ [PathSeparator]
            ++ filepath.Base (strings.ReplaceAll remoteFilename ':' '-')
          let w4 : World := { w3 with log := w3.log ++ [Event.smbCreate remote] }
          if env.smbCreateFails share remote then (w4, none)
          else
            match src with
            | os.Node.file content =>
              if env.readFails filename then (w4, none)
              else ({ w4 with log := w4.log ++ [Event.smbWrite remote content] },
                    some content.length)
            | os.Node.dir => (w4, none)
      else
        match os.Create env w3.fs filename with
        | none => (w3, none)
        | some fs1 =>
          let w4 : World := { w3 with fs := fs1, log := w3.log ++ [Event.smbOpen sharepath] }
          match env.smbOpen share sharepath with
          | none => (w4, none)
          | some content =>
            ({ w4 with fs := fs1.put filename (os.Node.file content) }, some content.length)

/-- The method `(*SMB).Pull`. -/
def Pull (env : Env) (creds : Creds) (u : url.URL) (target : GoString) (w : World) :
    World × Option Nat :=
  smbCommand env false creds u [] target w

end smb

/-! ## `pkg/storage/s3/s3.go` -/

namespace s3

/-- The endpoint of the session options (lines 29-34 and 68-73): the custom endpoint is set
when `creds.AWSEndpoint` is not empty. -/
def sessionEndpoint (creds : Creds) : Option GoString :=
  if creds.AWSEndpoint ≠ [] then some creds.AWSEndpoint else none

/-- The method `(*S3).Pull`. -/
def Pull (env : Env) (creds : Creds) (u : url.URL) (target : GoString) (w : World) :
    World × Option Nat :=
  let bucket := u.Hostname
  let path := u.Path
  let w1 : World := { w with log := w.log ++ [Event.awsSession (sessionEndpoint creds)] }
  if env.awsSessionFails then (w1, none)
  else
    match os.Create env w1.fs target with
    | none => (w1, none)
    | some fs1 =>
      let w2 : World := { w1 with fs := fs1, log := w1.log ++ [Event.s3Download bucket path] }
      match env.s3Download (sessionEndpoint creds) bucket path with
      | none => (w2, none)
      | some content =>
        ({ w2 with fs := fs1.put target (os.Node.file content) }, some content.length)

end s3

/-! ## `pkg/storage/storage.go` -/

namespace storage

/-- The call `store.Pull(creds, u, target)` on the interface `storage.Storage`. -/
def Pull (env : Env) (store : Backend) (creds : Creds) (u : url.URL) (target : GoString)
    (w : World) : World × Option Nat :=
  match store with
  | Backend.file => file.Pull env creds u target { w with log := w.log ++ [Event.pull store u target] }
  | Backend.smb => smb.Pull env creds u target { w with log := w.log ++ [Event.pull store u target] }
  | Backend.s3 => s3.Pull env creds u target { w with log := w.log ++ [Event.pull store u target] }

end storage

/-! ## `pkg/core/restore.go` -/

namespace core

/-- The constant `preRestoreDir`. -/
def preRestoreDir : GoString := "/scripts.d/pre-restore".toList

/-- The constant `postRestoreDir`. -/
def postRestoreDir : GoString := "/scripts.d/post-restore".toList

/-- The constant `tmpRestoreFile`. -/
def tmpRestoreFile : GoString := "/tmp/restorefile".toList

/-- The errors `Restore` returns, one for each `return fmt.Errorf(...)` of the function. -/
inductive Err where
  | preRestore
  | invalidURL
  | unknownProtocol (scheme : GoString)
  | pull
  | mkdirTemp
  | openTmp
  | uncompress
  | untar
  | readDir
  | database (e : database.Err)
  | postRestore
deriving DecidableEq, Repr

/-- The call `runScripts(dir, env)` with `DB_RESTORE_TARGET = target`; `true` is an error. -/
def runScripts (env : Env) (dir target : GoString) (w : World) : World × Bool :=
  ({ w with fs := (env.runScripts dir target w.fs).1,
            log := w.log ++ [Event.runScripts dir target] },
    (env.runScripts dir target w.fs).2)

/-- The function `preRestore`: run pre-restore scripts, if they exist. -/
def preRestore (env : Env) (target : GoString) (w : World) : World × Bool :=
  runScripts env preRestoreDir target w

/-- The function `postRestore`. -/
def postRestore (env : Env) (target : GoString) (w : World) : World × Bool :=
  runScripts env postRestoreDir target w

/-- The `switch u.Scheme` of `Restore` (lines 44-56): the backend, `none` for the default
case. -/
def storeOf (scheme : GoString) : Option Backend :=
  if scheme = "file".toList then some Backend.file
  else if scheme = "smb".toList then some Backend.smb
  else if scheme = "s3".toList then some Backend.s3
  else none

/-- The loop over the extracted entries (lines 90-102): directories are ignored, an entry that
does not open is passed over, every other entry gives a reader. -/
def openReaders (env : Env) (fs : os.FS) (tmpdir : GoString) :
    List (GoString × os.Node) → List bufio.Reader
  | [] => []
  | f :: files =>
    match f.2 with
    | os.Node.dir => openReaders env fs tmpdir files
    | os.Node.file _ =>
      match os.Open env fs (tmpdir ++ '/' :: f.1) with
      | some (os.Node.file content) =>
        ⟨content, env.readFails (tmpdir ++ '/' :: f.1)⟩ :: openReaders env fs tmpdir files
      | some os.Node.dir => ⟨[], true⟩ :: openReaders env fs tmpdir files
      | none => openReaders env fs tmpdir files

/-- The filesystem after `archive.Untar` wrote the entries below `dir`. -/
def writeEntries (dir : GoString) (fs : os.FS) (entries : List (GoString × os.Node)) : os.FS :=
  entries.foldl (fun acc e => acc.put (dir ++ '/' :: e.1) e.2) fs

/-- Lines 69-111 of `Restore`, between `defer os.RemoveAll(tmpdir)` and the return: open the
downloaded file and remove it, uncompress, untar into `tmpdir`, replay the extracted files,
run the post-restore hooks. -/
def restoreFromTmp (env : Env) (target : GoString) (w : World) : World × Option Err :=
  match os.Open env w.fs tmpRestoreFile with
  | none => (w, some Err.openTmp)
  | some f =>
    let w1 : World := { w with fs := w.fs.remove tmpRestoreFile }
    match (match f with
        | os.Node.file content => env.uncompress content
        | os.Node.dir => none) with
    | none => (w1, some Err.uncompress)
    | some plain =>
      let w2 : World := { w1 with fs := writeEntries env.tmpdir w1.fs (env.untar plain).1 }
      if (env.untar plain).2 then (w2, some Err.untar)
      else if env.readDirFails then (w2, some Err.readDir)
      else
        let readers := openReaders env w2.fs env.tmpdir (os.ReadDir w2.fs env.tmpdir)
        let w3 : World := { w2 with db := w2.db ++ (database.Restore env.db readers).1 }
        match (database.Restore env.db readers).2 with
        | some e => (w3, some (Err.database e))
        | none =>
          match postRestore env target w3 with
          | (w4, true) => (w4, some Err.postRestore)
          | (w4, false) => (w4, none)

/-- Lines 63-111 of `Restore`, after a successful pull: make the temporary directory, do the
rest, and remove the directory on the way out (`defer os.RemoveAll(tmpdir)`). -/
def restoreDownloaded (env : Env) (target : GoString) (w : World) : World × Option Err :=
  if env.mkdirTempFails then (w, some Err.mkdirTemp)
  else
    let w1 : World := { w with fs := w.fs.put env.tmpdir os.Node.dir }
    ({ (restoreFromTmp env target w1).1 with
        fs := (restoreFromTmp env target w1).1.fs.removeAll env.tmpdir },
      (restoreFromTmp env target w1).2)

/-- The function `core.Restore`: restore a specific backup into the database.  The result is
the world when the function returns and the error returned (`none` for `nil`). -/
def Restore (env : Env) (target : GoString) (creds : Creds) (w : World) : World × Option Err :=
  match preRestore env target w with
  | (w1, true) => (w1, some Err.preRestore)
  | (w1, false) =>
    match smartParse target with
    | none => (w1, some Err.invalidURL)
    | some u =>
      match storeOf u.Scheme with
      | none => (w1, some (Err.unknownProtocol u.Scheme))
      | some store =>
        match storage.Pull env store creds u tmpRestoreFile w1 with
        | (w2, none) => (w2, some Err.pull)
        | (w2, some _) => restoreDownloaded env target w2

/-- An environment in which nothing fails: no hook scripts, plain (identity) compression, an
archive of the one file `dump.sql` holding the bytes given, a database that accepts every call,
no remote objects. -/
def quietEnv : Env where
  runScripts := fun _ _ fs => (fs, false)
  openFails := fun _ => false
  createFails := fun _ => false
  readFails := fun _ => false
  tmpdir := "/tmp/restore1".toList
  mkdirTempFails := false
  readDirFails := false
  uncompress := fun b => some b
  untar := fun b => ([("dump.sql".toList, os.Node.file b)], false)
  dialFails := fun _ => false
  smbLoginFails := fun _ _ => false
  smbMountFails := fun _ => false
  smbOpen := fun _ _ => none
  smbCreateFails := fun _ _ => false
  awsSessionFails := false
  s3Download := fun _ _ _ => none
  s3UploadFails := fun _ _ _ => false
  db := database.allOk

/-- A world with the backup `/backups/db.tgz` and the directory `/backups`. -/
def sampleWorld : World :=
  ⟨[("/backups".toList, os.Node.dir),
    ("/backups/db.tgz".toList, os.Node.file "INSERT INTO t VALUES (1);\n".toList)], [], []⟩

end core

/-! ## The Go packages `path` and `path/filepath` (Unix) -/

namespace path

/-- The elements of a path: the texts between its slashes (`a//b` has the elements `a`, the
empty one, and `b`). -/
def elements : GoString → List GoString
  | [] => [[]]
  | c :: rest =>
    if c = '/' then [] :: elements rest
    else
      match elements rest with
      | [] => [[c]]
      | e :: es => (c :: e) :: es

/-- The loop of `path.Clean` over the elements still to read: `out` holds the elements written
so far, the last one first.  Empty elements and `.` are dropped; `..` removes the element
before it when there is one to remove, is kept at the start of a path that is not rooted, and is
dropped at the root. -/
def cleanElements (rooted : Bool) : List GoString → List GoString → List GoString
  | out, [] => out.reverse
  | out, e :: rest =>
    if e = [] ∨ e = ['.'] then cleanElements rooted out rest
    else if e = ['.', '.'] then
      match out with
      | top :: below =>
        if top ≠ ['.', '.'] then cleanElements rooted below rest
        else if rooted then cleanElements rooted out rest
        else cleanElements rooted (e :: out) rest
      | [] =>
        if rooted then cleanElements rooted out rest
        else cleanElements rooted (e :: out) rest
    else cleanElements rooted (e :: out) rest

/-- The elements joined by single slashes. -/
def joinElements : List GoString → GoString
  | [] => []
  | [e] => e
  | e :: es => e ++ '/' :: joinElements es

/-- The function `path.Clean`: the shortest path name equivalent to `path` by purely lexical
processing. -/
def Clean (path : GoString) : GoString :=
  if path = [] then ['.']
  else if strings.HasPrefix path ['/'] then '/' :: joinElements (cleanElements true [] (elements path))
  else if cleanElements false [] (elements path) = [] then ['.']
  else joinElements (cleanElements false [] (elements path))

/-- The function `path.Join`: the elements joined by slashes, from the first non-empty one on,
and cleaned; the empty string when every element is empty. -/
def Join : List GoString → GoString
  | [] => []
  | e :: es => if e = [] then Join es else Clean (joinElements (e :: es))

end path

namespace filepath

/-- The function `filepath.Join`, which on Unix is `path.Join`. -/
def Join (elem : List GoString) : GoString := path.Join elem

end filepath

namespace file

/-- The method `(*File).Push`. -/
def Push (env : Env) (_creds : Creds) (u : url.URL) (target source : GoString) (w : World) :
    World × Option Nat :=
  copyFile env source (filepath.Join [u.Path, target]) w

end file

namespace smb

/-- The method `(*SMB).Push`. -/
def Push (env : Env) (creds : Creds) (u : url.URL) (target source : GoString) (w : World) :
    World × Option Nat :=
  smbCommand env true creds u target source w

end smb

namespace s3

/-- The method `(*S3).Push`: on success the result is the value of `return 0, nil`. -/
def Push (env : Env) (creds : Creds) (u : url.URL) (target source : GoString) (w : World) :
    World × Option Nat :=
  let bucket := u.Hostname
  let key := u.Path
  let w1 : World := { w with log := w.log ++ [Event.awsSession (sessionEndpoint creds)] }
  if env.awsSessionFails then (w1, none)
  else
    match os.Open env w1.fs source with
    | some (os.Node.file content) =>
      if env.readFails source then (w1, none)
      else
        let w2 : World :=
          { w1 with log := w1.log ++ [Event.s3Upload bucket (path.Join [key, target]) content] }
        if env.s3UploadFails (sessionEndpoint creds) bucket (path.Join [key, target]) then
          (w2, none)
        else (w2, some 0)
    | _ => (w1, none)

end s3

namespace storage

/-- The call `store.Push(creds, u, target, source)` on the interface `storage.Storage`. -/
def Push (env : Env) (store : Backend) (creds : Creds) (u : url.URL) (target source : GoString)
    (w : World) : World × Option Nat :=
  match store with
  | Backend.file => file.Push env creds u target source w
  | Backend.smb => smb.Push env creds u target source w
  | Backend.s3 => s3.Push env creds u target source w

end storage

/-! ## The configuration library `viper`, as `cmd` uses it -/

namespace viper

/-- The value of a flag or of a configuration key. -/
inductive Value where
  | bool (b : Bool)
  | int (i : Int)
  | str (s : GoString)
  | strs (l : List GoString)
deriving DecidableEq, Repr

/-- A command-line flag bound to the configuration under its own name (`bindFlags`): its value
(the default, or what the command line gave) and whether the command line set it. -/
structure Flag where
  name : GoString
  value : Value
  changed : Bool
deriving DecidableEq, Repr

/-- A `viper.Viper` after `SetEnvPrefix`, `SetEnvKeyReplacer("-", "_")` and `AutomaticEnv`, with
the flags of the command and the environment of the process.  `atoi` stands for the number
parsing of the library on a string (0 for an error), `readAsCSV` for the parsing of a
string-slice flag set from a string (`none` for an error). -/
structure Viper where
  envPrefix : GoString
  pflags : List Flag
  environ : List (GoString × GoString)
  atoi : GoString → Int
  readAsCSV : GoString → Option (List GoString)

/-- The name of the environment variable behind a key: the prefix, an underscore and the key,
in upper case, with every `-` replaced by `_`. -/
def envKey (v : Viper) (key : GoString) : GoString :=
  strings.ReplaceAll ((v.envPrefix ++ '_' :: key).map Char.toUpper) '-' '_'

/-- The value of an environment variable, when it is set and not empty. -/
def getEnv (v : Viper) (key : GoString) : Option GoString :=
  match v.environ.find? (fun e => e.1 = envKey v key) with
  | some e => if e.2 = [] then none else some e.2
  | none => none

/-- The value of a flag that the command line did not set and whose environment variable holds
`s`: `bindFlags` sets the flag from `s` (a string-slice flag parses it as CSV); when that
fails the key keeps the string. -/
def fromEnv (v : Viper) (f : Flag) (s : GoString) : Value :=
  match f.value with
  | Value.strs _ =>
    match v.readAsCSV s with
    | some l => Value.strs l
    | none => Value.str s
  | _ => Value.str s

/-- The lookup of a key after `bindFlags(cmd, v)` bound every flag of the command under the
name of the flag: the value of the flag of that name when the command line set it, else the
environment variable of the key, else the default of the flag of that name; a key that is not
the name of a flag has its environment variable only. -/
def find (v : Viper) (key : GoString) : Option Value :=
  match v.pflags.find? (fun f => f.name = key.map Char.toLower) with
  | some f =>
    if f.changed then some f.value
    else
      match getEnv v (key.map Char.toLower) with
      | some s => some (fromEnv v f s)
      | none => some f.value
  | none => (getEnv v (key.map Char.toLower)).map Value.str

/-- The function `strconv.ParseBool`, `false` for an error. -/
def ParseBool (s : GoString) : Bool :=
  decide (s ∈ ["1".toList, "t".toList, "T".toList, "TRUE".toList, "true".toList, "True".toList])

/-- The method `GetBool`. -/
def Viper.GetBool (v : Viper) (key : GoString) : Bool :=
  match find v key with
  | some (Value.bool b) => b
  | some (Value.str s) => ParseBool s
  | some (Value.int i) => decide (i ≠ 0)
  | _ => false

/-- The method `GetString` (a number is not rendered: no string key of `cmd` holds one). -/
def Viper.GetString (v : Viper) (key : GoString) : GoString :=
  match find v key with
  | some (Value.str s) => s
  | some (Value.bool b) => if b then "true".toList else "false".toList
  | _ => []

/-- The method `GetInt`. -/
def Viper.GetInt (v : Viper) (key : GoString) : Int :=
  match find v key with
  | some (Value.int i) => i
  | some (Value.str s) => v.atoi s
  | some (Value.bool b) => if b then 1 else 0
  | _ => 0

/-- The function `strings.Fields` on ASCII white space, with `cur` the field being read. -/
def fieldsFrom : GoString → GoString → List GoString
  | cur, [] => if cur = [] then [] else [cur]
  | cur, c :: rest =>
    if c ∈ [' ', '\t', '\n', Char.ofNat 11, Char.ofNat 12, '\r'] then
      if cur = [] then fieldsFrom [] rest else cur :: fieldsFrom [] rest
    else fieldsFrom (cur ++ [c]) rest

/-- The method `GetStringSlice`. -/
def Viper.GetStringSlice (v : Viper) (key : GoString) : List GoString :=
  match find v key with
  | some (Value.strs l) => l
  | some (Value.str s) => fieldsFrom [] s
  | _ => []

end viper

/-! ## `pkg/core/dumpoptions.go` and the scheduler -/

namespace database

/-- The type `database.Connection`, with the fields `cmd/root.go` fills. -/
structure Connection where
  User : GoString
  Pass : GoString
  Host : GoString
  Port : Int
deriving DecidableEq, Repr

end database

namespace core

/-- The type `DumpOptions`; the compressor is named by its algorithm (`none` for `nil`). -/
structure DumpOptions where
  Targets : List GoString
  Safechars : Bool
  BySchema : Bool
  KeepPermissions : Bool
  DBNames : List GoString
  DBConn : database.Connection
  Creds : Creds
  Compressor : Option GoString
  Exclude : List GoString
  PreBackupScripts : GoString
  PostBackupScripts : GoString
deriving DecidableEq, Repr

/-- The type `core.TimerOptions`, with the fields `cmd/dump.go` fills. -/
structure TimerOptions where
  Once : Bool
  Cron : GoString
  Begin : GoString
  Frequency : Int
deriving DecidableEq, Repr

/-- The schedule policies of the specification (section 3, SchedulePolicy). -/
inductive SchedulePolicy where
  | Once
  | Cron (expression : GoString)
  | Interval (beginTime : GoString) (frequencyMinutes : Int)
deriving DecidableEq, Repr

/-- How a call has ended as far as it is observed: it returned an error or `nil`, or it is
still running. -/
inductive Outcome where
  | returned (err : Option GoString)
  | running
deriving DecidableEq, Repr

/-- Modelled from the spec: the policy resolution of `core.TimerDump` (section 4.1), whose
source is not among the files.  If `once` is set every other scheduling input is ignored; else
a cron expression, when one is set, decides and `begin` and `frequency` are ignored; else the
first run comes from `begin` and the runs repeat every `frequency` minutes. -/
def policyOf (timerOpts : TimerOptions) : SchedulePolicy :=
  if timerOpts.Once then SchedulePolicy.Once
  else if timerOpts.Cron ≠ [] then SchedulePolicy.Cron timerOpts.Cron
  else SchedulePolicy.Interval timerOpts.Begin timerOpts.Frequency

/-- Modelled from the spec: `core.TimerDump` (section 4.1), whose source is not among the
files.  Under `Once` exactly one cycle runs, synchronously, and its result is returned to the
caller.  Under a recurring policy one cycle runs for every trigger that fires (`triggers` gives
how many fire, for each policy, while the call is observed), a failed cycle is logged and does
not end the loop, and the call does not return.  `cycle opts k` is the error of the `k`-th run
of the backup cycle (`none` when it succeeds).  The result is the number of cycles run and
how the call ended. -/
def TimerDump (cycle : DumpOptions → Nat → Option GoString) (triggers : SchedulePolicy → Nat)
    (opts : DumpOptions) (timerOpts : TimerOptions) : Nat × Outcome :=
  match policyOf timerOpts with
  | SchedulePolicy.Once => (1, Outcome.returned (cycle opts 0))
  | policy => (triggers policy, Outcome.running)

end core

/-! ## `cmd/dump.go` -/

namespace cmd

/-- How the `RunE` of a command ended: the process exited with a code, or the function
returned an error or `nil`, or it is still running. -/
inductive Result where
  | exit (code : Nat)
  | returned (err : Option GoString)
  | running
deriving DecidableEq, Repr

/-- The value `dumpOpts` of `dumpCmd` (lines 39-51); `dbconn`, `creds` and `compressor` are
the package variables that the root command fills. -/
def dumpOptions (v : viper.Viper) (dbconn : database.Connection) (creds : Creds)
    (compressor : Option GoString) : core.DumpOptions where
  Targets := v.GetStringSlice "target".toList
  Safechars := v.GetBool "safechars".toList
  BySchema := v.GetBool "byschema".toList
  KeepPermissions := v.GetBool "keep-permissions".toList
  DBNames := v.GetStringSlice "include".toList
  DBConn := dbconn
  Creds := creds
  Compressor := compressor
  Exclude := v.GetStringSlice "exclude".toList
  PreBackupScripts := v.GetString "pre-backup-scripts".toList
  PostBackupScripts := v.GetString "post-backup-scripts".toList

/-- The value `timerOpts` of `dumpCmd` (lines 52-57). -/
def timerOptions (v : viper.Viper) : core.TimerOptions where
  Once := v.GetBool "once".toList
  Cron := v.GetString "cron".toList
  Begin := v.GetString "begin".toList
  Frequency := v.GetInt "frequency".toList

/-- The `RunE` of `dumpCmd` (lines 32-64), over the function `core.TimerDump`: the number of
backup cycles run and how the command ended. -/
def dumpCmdRunE (TimerDump : core.DumpOptions → core.TimerOptions → Nat × core.Outcome)
    (v : viper.Viper) (dbconn : database.Connection) (creds : Creds)
    (compressor : Option GoString) : Nat × Result :=
  if (v.GetStringSlice "target".toList).length = 0 then (0, Result.exit 1)
  else
    match TimerDump (dumpOptions v dbconn creds compressor) (timerOptions v) with
    | (n, core.Outcome.returned (some err)) => (n, Result.returned (some err))
    | (n, core.Outcome.returned none) => (n, Result.returned none)
    | (n, core.Outcome.running) => (n, Result.running)

/-- The value `creds` that the root command builds (`cmd/root.go`, lines 61-64) from the
values of `aws-endpoint-url`, `smb-user` and `smb-pass`. -/
def rootCreds (awsEndpointURL smbUser smbPass : GoString) : Creds :=
  ⟨awsEndpointURL, smbUser ++ '%' :: smbPass⟩

/-- The flags of the `dump` command with their defaults (lines 72-122), none of them set. -/
def dumpFlags : List viper.Flag :=
  [⟨"target".toList, viper.Value.strs [], false⟩,
   ⟨"include".toList, viper.Value.strs [], false⟩,
   ⟨"exclude".toList, viper.Value.strs [], false⟩,
   ⟨"single-database".toList, viper.Value.bool false, false⟩,
   ⟨"frequency".toList, viper.Value.int 1440, false⟩,
   ⟨"begin".toList, viper.Value.str "+0".toList, false⟩,
   ⟨"cron".toList, viper.Value.str [], false⟩,
   ⟨"once".toList, viper.Value.bool false, false⟩,
   ⟨"safechars".toList, viper.Value.bool false, false⟩,
   ⟨"compression".toList, viper.Value.str "gzip".toList, false⟩,
   ⟨"by-schema".toList, viper.Value.bool false, false⟩,
   ⟨"keep-permissions".toList, viper.Value.bool true, false⟩,
   ⟨"filename-pattern".toList,
     viper.Value.str "db_backup_\x7b\x7b .now \x7d\x7d.\x7b\x7b .compression \x7d\x7d".toList, false⟩,
   ⟨"pre-backup-scripts".toList, viper.Value.str [], false⟩,
   ⟨"post-backup-scripts".toList, viper.Value.str [], false⟩]

/-- The flags after the command line set the flag `name` to `value`. -/
def setFlag (flags : List viper.Flag) (name : GoString) (value : viper.Value) :
    List viper.Flag :=
  flags.map (fun f => if f.name = name then ⟨f.name, value, true⟩ else f)

/-- The configuration of the `dump` command (lines 67-70) for a command line and an
environment.  The parsing of a number and of a comma-separated list read from the environment
is left out (a number reads as 0, a list as its one string): this configuration is for the
boolean and string keys and for the values that the command line sets. -/
def dumpViper (flags : List viper.Flag) (environ : List (GoString × GoString)) : viper.Viper :=
  ⟨"db_dump".toList, flags, environ, fun _ => 0, fun s => some [s]⟩

end cmd

namespace smb

/-- An environment in which nothing fails and every file of every share holds `DATA`. -/
def smbEnv : Env :=
  { core.quietEnv with smbOpen := fun _ _ => some "DATA".toList }

end smb

namespace core

/-- A world whose only file is the artifact `/tmp/db.tgz`, holding `DATA`. -/
def artifactWorld : World :=
  ⟨[("/tmp/db.tgz".toList, os.Node.file "DATA".toList)], [], []⟩

end core

/-! ## Reading the calls on the database as transactions -/

namespace database

/-- The calls of one unit that is replayed to its end without a failure: `BEGIN`, the
statements of the reference splitter on the lines of the reader, `COMMIT`. -/
def unitCalls (r : bufio.Reader) : List Call :=
  Call.beginTx :: (specSplit [] (bufio.scan r).1).map Call.exec ++ [Call.commit]

/-- Where a connection stands after a list of calls: no transaction open, a transaction open,
the run ended by a rollback, or a call made out of place. -/
inductive TxState where
  | idle
  | inTx
  | rolledBack
  | invalid
deriving DecidableEq, Repr

/-- The effect of one call: a transaction begins only when none is open, statements, `COMMIT`
and `ROLLBACK` belong to the open transaction, and nothing follows a rollback. -/
def txStep : TxState → Call → TxState
  | TxState.idle, Call.beginTxWith _ => TxState.inTx
  | TxState.inTx, Call.exec _ => TxState.inTx
  | TxState.inTx, Call.commit => TxState.idle
  | TxState.inTx, Call.rollback => TxState.rolledBack
  | _, _ => TxState.invalid

/-- Where the connection stands after the calls `tr`, from no transaction open. -/
def txState (tr : List Call) : TxState := tr.foldl txStep TxState.idle

end database

namespace core

/-- Whether an entry of the listing gives a reader in the loop of lines 90-102: it is not a
directory and it opens. -/
def replayed (env : Env) (fs : os.FS) (tmpdir : GoString) (f : GoString × os.Node) : Bool :=
  decide (f.2 ≠ os.Node.dir) && (os.Open env fs (tmpdir ++ '/' :: f.1)).isSome

/-- The reader that a replayed entry gives: the content of the file opened. -/
def readerOf (env : Env) (fs : os.FS) (tmpdir : GoString) (f : GoString × os.Node) :
    bufio.Reader :=
  match os.Open env fs (tmpdir ++ '/' :: f.1) with
  | some (os.Node.file content) => ⟨content, env.readFails (tmpdir ++ '/' :: f.1)⟩
  | _ => ⟨[], true⟩

/-- An environment whose archive holds the directory `d` and the files `a.sql` and `b.sql`, of
which `a.sql` cannot be opened once it is extracted; nothing else fails. -/
def twoFilesEnv : Env :=
  { quietEnv with
    untar := fun _ =>
      ([("b.sql".toList, os.Node.file "B;\n".toList), ("d".toList, os.Node.dir),
        ("a.sql".toList, os.Node.file "A;\n".toList)], false)
    openFails := fun p => decide (p = "/tmp/restore1/a.sql".toList) }

/-- The environment of `twoFilesEnv` with every file opening. -/
def threeEntriesEnv : Env :=
  { twoFilesEnv with openFails := fun _ => false }

end core

/-! ## The pending statement of the replay loop -/

namespace database

/-- The variable `current` of `Restore` (line 26) after the loop of lines 27-42 went through
the lines without a failed execution, from the value `current` it had before them: an empty
line leaves it, a line that does not end in `;` is appended with a newline, a line that ends
in `;` clears it (line 41). -/
def pending : GoString → List GoString → GoString
  | current, [] => current
  | current, line :: rest =>
    if line = [] then pending current rest
    else if line.getLast? ≠ some ';' then pending (current ++ line ++ ['\n']) rest
    else pending [] rest

end database

/-! ## The lines of a stream, as the specification reads them -/

namespace database

/-- The lines of a text as the specification reads a stream line by line, written from its
words and not from the scanner: a line ends at a newline and does not hold it, and the bytes
after the last newline are a last line when there are any. -/
def specRawLines : GoString → List GoString
  | [] => []
  | c :: rest =>
    if c = '\n' then [] :: specRawLines rest
    else
      match specRawLines rest with
      | [] => [[c]]
      | l :: ls => (c :: l) :: ls

/-- A line without the carriage return that may stand before its newline. -/
def specStripCR (l : GoString) : GoString :=
  if l.getLast? = some '\r' then l.dropLast else l

/-- The lines that the reference splitter of the specification reads: the lines of the text,
each without the carriage return of its line end. -/
def specLines (s : GoString) : List GoString := (specRawLines s).map specStripCR

end database

namespace core

/-- A world with the artifact `/tmp/db.tgz`, holding `DATA`, and the empty target directory
`/backups`. -/
def pushWorld : World :=
  ⟨[("/tmp".toList, os.Node.dir), ("/tmp/db.tgz".toList, os.Node.file "DATA".toList),
    ("/backups".toList, os.Node.dir)], [], []⟩

end core

/-! # Theorems -/

/-! ## Theorems: the line scanner -/

namespace bufio

theorem dropCR_of_getLast (l : GoString) (c : Char) (h : l.getLast? = some c) (hc : c ≠ '\r') :
    dropCR l = l := by
  simp [dropCR, h, hc]

theorem scanFrom_line (max : Nat) (f : Bool) (rest : GoString) (l : GoString) :
    ∀ cur, '\n' ∉ l →
      scanFrom max f cur (l ++ '\n' :: rest)
        = if max ≤ (cur ++ l).length then ([], some ScanErr.tooLong)
          else (dropCR (cur ++ l) :: (scanFrom max f [] rest).1, (scanFrom max f [] rest).2) := by
  induction l with
  | nil => intro cur _; simp [scanFrom]
  | cons c l ih =>
    intro cur h
    have hc : c ≠ '\n' := fun e => h (by simp [e])
    have hl : '\n' ∉ l := fun e => h (List.mem_cons_of_mem _ e)
    simp [scanFrom, hc, ih (cur ++ [c]) hl]

theorem scan_terminated (fails : Bool) (ls : List GoString)
    (h : ∀ l ∈ ls, '\n' ∉ l ∧ l.length < MaxScanTokenSize) :
    scan ⟨(ls.map (fun l => l ++ ['\n'])).flatten, fails⟩
      = (ls.map dropCR, if fails then some ScanErr.readErr else none) := by
  unfold scan
  simp only
  induction ls with
  | nil => simp [scanFrom, MaxScanTokenSize]
  | cons l ls ih =>
    have h1 := h l (List.mem_cons_self _ _)
    have h2 := ih (fun x hx => h x (List.mem_cons_of_mem _ hx))
    have h3 : ¬ MaxScanTokenSize ≤ l.length := by omega
    simp only [List.map_cons, List.flatten_cons, List.append_assoc, List.singleton_append]
    rw [scanFrom_line _ _ _ _ _ h1.1, h2]
    simp [h3]

end bufio

/-! ## Theorems: `database.Restore` -/

namespace database

theorem replay_eq_specExec (db : Conn) (ls : List GoString) :
    ∀ tr cur, replay db tr cur ls = specExec db tr (specSplit cur ls) := by
  induction ls with
  | nil => intro tr cur; simp [replay, specSplit, specExec]
  | cons l ls ih =>
    intro tr cur
    by_cases hl : l = []
    · simp [replay, specSplit, hl, ih]
    · by_cases hs : l.getLast? = some ';'
      · simp [replay, specSplit, specExec, hl, hs, ih]
      · simp [replay, specSplit, hl, hs, ih]

theorem specExec_allOk (db : Conn) (he : ∀ h s, db.execFails h s = false) (ss : List GoString) :
    ∀ tr, specExec db tr ss = (tr ++ ss.map Call.exec, none) := by
  induction ss with
  | nil => intro tr; simp [specExec]
  | cons s ss ih => intro tr; simp [specExec, he, ih]

theorem specExec_firstFailure (db : Conn) (s : GoString) (post : List GoString)
    (pre : List GoString) :
    ∀ tr,
      (∀ p1 s1 q1, pre = p1 ++ s1 :: q1 → db.execFails (tr ++ p1.map Call.exec) s1 = false) →
      db.execFails (tr ++ pre.map Call.exec) s = true →
      specExec db tr (pre ++ s :: post)
        = (tr ++ pre.map Call.exec ++ [Call.exec s, Call.rollback], some Err.execFailed) := by
  induction pre with
  | nil => intro tr _ hf; simp at hf; simp [specExec, hf]
  | cons p pre ih =>
    intro tr hok hf
    have h0 : db.execFails tr p = false := by
      have := hok [] p pre rfl
      simpa using this
    have h1 := ih (tr ++ [Call.exec p])
      (fun p1 s1 q1 h => by
        have := hok (p :: p1) s1 q1 (by rw [h]; rfl)
        simpa using this)
      (by simpa using hf)
    simp [specExec, h0, h1]

theorem specSplit_shape (ls : List GoString) :
    ∀ pending s, s ∈ specSplit pending ls →
      ∃ block l,
        (s = pending ++ (block.map (fun x => x ++ ['\n'])).flatten ++ (l ++ ['\n'])
          ∨ s = (block.map (fun x => x ++ ['\n'])).flatten ++ (l ++ ['\n']))
        ∧ l.getLast? = some ';'
        ∧ (∀ x ∈ block, x ≠ [] ∧ x.getLast? ≠ some ';')
        ∧ (∀ x ∈ block ++ [l], x ∈ ls) := by
  induction ls with
  | nil => intro pending s h; simp [specSplit] at h
  | cons l0 ls ih =>
    intro pending s h
    by_cases hl : l0 = []
    · simp only [specSplit, hl, if_true] at h
      obtain ⟨block, l, h1, h2, h3, h4⟩ := ih pending s h
      exact ⟨block, l, h1, h2, h3, fun x hx => List.mem_cons_of_mem _ (h4 x hx)⟩
    · by_cases hs : l0.getLast? = some ';'
      · simp only [specSplit, hl, hs, if_true, if_false, List.mem_cons] at h
        rcases h with h | h
        · exact ⟨[], l0, Or.inl (by simp [h]), hs, by simp, by simp⟩
        · obtain ⟨block, l, h1, h2, h3, h4⟩ := ih [] s h
          refine ⟨block, l, Or.inr ?_, h2, h3, fun x hx => List.mem_cons_of_mem _ (h4 x hx)⟩
          rcases h1 with h1 | h1 <;> simpa using h1
      · simp only [specSplit, hl, hs, if_false] at h
        obtain ⟨block, l, h1, h2, h3, h4⟩ := ih _ s h
        rcases h1 with h1 | h1
        · refine ⟨l0 :: block, l, Or.inl (by simp [h1]), h2, ?_, ?_⟩
          · intro x hx
            rcases List.mem_cons.1 hx with rfl | hx
            · exact ⟨hl, hs⟩
            · exact h3 x hx
          · intro x hx
            simp only [List.cons_append, List.mem_cons] at hx
            rcases hx with rfl | hx
            · exact List.mem_cons_self _ _
            · exact List.mem_cons_of_mem _ (h4 x hx)
        · exact ⟨block, l, Or.inr h1, h2, h3, fun x hx => List.mem_cons_of_mem _ (h4 x hx)⟩

theorem execsOf_append (a b : List Call) : execsOf (a ++ b) = execsOf a ++ execsOf b := by
  induction a with
  | nil => rfl
  | cons c a ih => cases c <;> simp [execsOf, ih]

theorem execsOf_map_exec (ss : List GoString) : execsOf (ss.map Call.exec) = ss := by
  induction ss with
  | nil => rfl
  | cons s ss ih => simp [execsOf, ih]

/-- The statements no line of which ends early: every emitted statement is made of whole
non-empty lines, and only the last of them ends in `;`. -/
theorem specSplit_statement (ls : List GoString) (s : GoString) (h : s ∈ specSplit [] ls) :
    ∃ block l,
      s = (block.map (fun x => x ++ ['\n'])).flatten ++ (l ++ ['\n'])
      ∧ l.getLast? = some ';'
      ∧ (∀ x ∈ block, x ≠ [] ∧ x.getLast? ≠ some ';')
      ∧ (∀ x ∈ block ++ [l], x ∈ ls) := by
  obtain ⟨block, l, h1, h2, h3, h4⟩ := specSplit_shape ls [] s h
  refine ⟨block, l, ?_, h2, h3, h4⟩
  rcases h1 with h1 | h1 <;> simpa using h1

theorem specExec_execs (db : Conn) (ss : List GoString) :
    ∀ tr, (∃ k, execsOf (specExec db tr ss).1 = execsOf tr ++ ss.take k)
      ∧ ((specExec db tr ss).2 = none → (specExec db tr ss).1 = tr ++ ss.map Call.exec) := by
  induction ss with
  | nil => intro tr; exact ⟨⟨0, by simp [specExec]⟩, fun _ => by simp [specExec]⟩
  | cons s ss ih =>
    intro tr
    by_cases hf : db.execFails tr s
    · refine ⟨⟨1, ?_⟩, fun h => ?_⟩
      · simp [specExec, hf, execsOf_append, execsOf]
      · simp [specExec, hf] at h
    · obtain ⟨⟨k, hk⟩, h2⟩ := ih (tr ++ [Call.exec s])
      simp only [specExec, hf, Bool.false_eq_true, if_false]
      refine ⟨⟨k + 1, ?_⟩, fun h => ?_⟩
      · rw [hk]; simp [execsOf_append, execsOf]
      · rw [h2 h]; simp

theorem restoreUnit_of_beginFails (db : Conn) (tr : List Call) (r : bufio.Reader)
    (hb : db.beginFails tr = true) :
    restoreUnit db tr r = (tr ++ [Call.beginTx], some Err.beginFailed) := by
  simp [restoreUnit, hb]

theorem restoreUnit_of_replay_err (db : Conn) (tr tr1 : List Call) (r : bufio.Reader) (e : Err)
    (hb : db.beginFails tr = false)
    (hr : replay db (tr ++ [Call.beginTx]) [] (bufio.scan r).1 = (tr1, some e)) :
    restoreUnit db tr r = (tr1, some e) := by
  simp [restoreUnit, hb, hr]

theorem restoreUnit_of_replay_ok (db : Conn) (tr tr1 : List Call) (r : bufio.Reader)
    (hb : db.beginFails tr = false)
    (hr : replay db (tr ++ [Call.beginTx]) [] (bufio.scan r).1 = (tr1, none)) :
    restoreUnit db tr r
      = (tr1 ++ [Call.commit], if db.commitFails tr1 then some Err.commitFailed else none) := by
  simp only [restoreUnit, hb, hr, Bool.false_eq_true, if_false]
  split <;> rfl

theorem restoreUnits_cons_err (db : Conn) (tr tr1 : List Call) (r : bufio.Reader)
    (rs : List bufio.Reader) (e : Err) (h : restoreUnit db tr r = (tr1, some e)) :
    restoreUnits db tr (r :: rs) = (tr1, some e) := by
  simp [restoreUnits, h]

theorem restoreUnits_cons_ok (db : Conn) (tr tr1 : List Call) (r : bufio.Reader)
    (rs : List bufio.Reader) (h : restoreUnit db tr r = (tr1, none)) :
    restoreUnits db tr (r :: rs) = restoreUnits db tr1 rs := by
  simp [restoreUnits, h]

theorem scan_long_line (n : Nat) (c : Char) (tail rest : GoString) (fails : Bool)
    (hc : c ≠ '\n') (ht : '\n' ∉ tail) (hn : bufio.MaxScanTokenSize ≤ n + tail.length) :
    bufio.scanFrom bufio.MaxScanTokenSize fails [] ((List.replicate n c ++ tail) ++ '\n' :: rest)
      = ([], some bufio.ScanErr.tooLong) := by
  have hmem : '\n' ∉ List.replicate n c ++ tail := by
    intro h
    rcases List.mem_append.1 h with h | h
    · exact hc (List.eq_of_mem_replicate h).symm
    · exact ht h
  rw [bufio.scanFrom_line _ _ _ _ _ hmem]
  simp [hn]

theorem map_dropCR_of_semicolon (ls : List GoString) (h : ∀ l ∈ ls, l.getLast? = some ';') :
    ls.map bufio.dropCR = ls := by
  induction ls with
  | nil => rfl
  | cons l ls ih =>
    have h1 := bufio.dropCR_of_getLast l ';' (h l (List.mem_cons_self _ _)) (by decide)
    have h2 := ih (fun x hx => h x (List.mem_cons_of_mem _ hx))
    simp [h1, h2]

theorem specSplit_of_semicolon (ls : List GoString) (h : ∀ l ∈ ls, l.getLast? = some ';') :
    specSplit [] ls = ls.map (fun l => l ++ ['\n']) := by
  induction ls with
  | nil => rfl
  | cons l ls ih =>
    have h1 := h l (List.mem_cons_self _ _)
    have h2 := ih (fun x hx => h x (List.mem_cons_of_mem _ hx))
    have h3 : l ≠ [] := by
      intro e
      simp [e] at h1
    simp [specSplit, h1, h2, h3]

theorem restoreUnit_execs (db : Conn) (tr : List Call) (r : bufio.Reader) :
    ∃ k, execsOf (restoreUnit db tr r).1
      = execsOf tr ++ (specSplit [] (bufio.scan r).1).take k := by
  by_cases hb : db.beginFails tr
  · refine ⟨0, ?_⟩
    simp [restoreUnit, hb, execsOf_append, execsOf]
  · obtain ⟨⟨k, hk⟩, _⟩ := specExec_execs db (specSplit [] (bufio.scan r).1)
      (tr ++ [Call.beginTx])
    refine ⟨k, ?_⟩
    simp only [restoreUnit, hb, Bool.false_eq_true, if_false, replay_eq_specExec]
    rcases hx : specExec db (tr ++ [Call.beginTx]) (specSplit [] (bufio.scan r).1)
      with ⟨tr1, _ | e⟩
    · rw [hx] at hk
      simp only at hk
      simp only
      split <;> simp [execsOf_append, execsOf, hk]
    · rw [hx] at hk
      simp only at hk
      simp [execsOf_append, execsOf, hk]

theorem restoreUnit_execs_ok (db : Conn) (tr : List Call) (r : bufio.Reader)
    (hb : db.beginFails tr = false) (he : ∀ h s, db.execFails h s = false) :
    (restoreUnit db tr r).1
        = tr ++ Call.beginTx :: (specSplit [] (bufio.scan r).1).map Call.exec ++ [Call.commit]
    ∧ (db.commitFails
          (tr ++ Call.beginTx :: (specSplit [] (bufio.scan r).1).map Call.exec) = false →
        (restoreUnit db tr r).2 = none) := by
  simp only [restoreUnit, hb, Bool.false_eq_true, if_false, replay_eq_specExec,
    specExec_allOk db he]
  constructor
  · split <;> simp
  · intro hc
    simp [hc]

theorem restoreUnit_ok_calls (db : Conn) (tr : List Call) (r : bufio.Reader)
    (h : (restoreUnit db tr r).2 = none) :
    (restoreUnit db tr r).1
      = tr ++ Call.beginTx :: (specSplit [] (bufio.scan r).1).map Call.exec ++ [Call.commit] := by
  revert h
  by_cases hb : db.beginFails tr
  · simp [restoreUnit, hb]
  · obtain ⟨_, h2⟩ := specExec_execs db (specSplit [] (bufio.scan r).1)
      (tr ++ [Call.beginTx])
    simp only [restoreUnit, hb, Bool.false_eq_true, if_false, replay_eq_specExec]
    rcases hx : specExec db (tr ++ [Call.beginTx]) (specSplit [] (bufio.scan r).1)
      with ⟨tr1, _ | e⟩
    · rw [hx] at h2
      simp only [forall_const] at h2
      simp only
      split
      · simp
      · intro _
        simp [h2]
    · simp

theorem specStripCR_eq_dropCR : specStripCR = bufio.dropCR := by
  funext l
  rfl

theorem specRawLines_append_newline (rest : GoString) :
    ∀ cur, '\n' ∉ cur → specRawLines (cur ++ '\n' :: rest) = cur :: specRawLines rest := by
  intro cur
  induction cur with
  | nil => intro _; simp [specRawLines]
  | cons c cur ih =>
    intro h
    have hc : c ≠ '\n' := fun e => h (by simp [e])
    have hl : '\n' ∉ cur := fun e => h (List.mem_cons_of_mem _ e)
    simp [specRawLines, hc, ih hl]

theorem specRawLines_of_no_newline :
    ∀ cur, '\n' ∉ cur → specRawLines cur = if cur = [] then [] else [cur] := by
  intro cur
  induction cur with
  | nil => intro _; rfl
  | cons c cur ih =>
    intro h
    have hc : c ≠ '\n' := fun e => h (by simp [e])
    have hl : '\n' ∉ cur := fun e => h (List.mem_cons_of_mem _ e)
    by_cases he : cur = []
    · simp [specRawLines, hc, he]
    · simp [specRawLines, hc, ih hl, he]

/-- On a text whose lines are all shorter than the limit, the scanner delivers the lines of
the text, each without its carriage return, and stops with no error but that of the reader. -/
theorem scanFrom_eq_specRawLines (max : Nat) (hmax : 0 < max) (f : Bool) (data : GoString) :
    ∀ cur, '\n' ∉ cur → (∀ l ∈ specRawLines (cur ++ data), l.length < max) →
      bufio.scanFrom max f cur data
        = ((specRawLines (cur ++ data)).map bufio.dropCR,
            if f then some bufio.ScanErr.readErr else none) := by
  induction data with
  | nil =>
    intro cur hcur hlen
    rw [List.append_nil] at hlen ⊢
    rw [specRawLines_of_no_newline cur hcur] at hlen ⊢
    by_cases he : cur = []
    · subst he
      have h0 : ¬ max ≤ 0 := by omega
      simp [bufio.scanFrom, h0]
    · have hl : cur.length < max := by
        rw [if_neg he] at hlen
        exact hlen cur (by simp)
      have h0 : ¬ max ≤ cur.length := by omega
      simp [bufio.scanFrom, h0, he]
  | cons c rest ih =>
    intro cur hcur hlen
    by_cases hc : c = '\n'
    · subst hc
      rw [specRawLines_append_newline rest cur hcur] at hlen ⊢
      have hl : cur.length < max := hlen cur (by simp)
      have h0 : ¬ max ≤ cur.length := by omega
      have ih0 := ih [] (by simp) (fun l hl2 => hlen l (by simpa using Or.inr hl2))
      simp only [List.nil_append] at ih0
      simp [bufio.scanFrom, h0, ih0]
    · have hcur2 : '\n' ∉ cur ++ [c] := by
        intro hm
        rcases List.mem_append.1 hm with hm | hm
        · exact hcur hm
        · simp at hm
          exact hc hm.symm
      have e : (cur ++ [c]) ++ rest = cur ++ c :: rest := by simp
      have ih1 := ih (cur ++ [c]) hcur2 (by rw [e]; exact hlen)
      rw [e] at ih1
      simp [bufio.scanFrom, hc, ih1]

theorem scan_eq_specLines (r : bufio.Reader)
    (hshort : ∀ l ∈ specRawLines r.data, l.length < bufio.MaxScanTokenSize) :
    bufio.scan r
      = (specLines r.data, if r.fails then some bufio.ScanErr.readErr else none) := by
  unfold bufio.scan specLines
  rw [specStripCR_eq_dropCR]
  exact scanFrom_eq_specRawLines bufio.MaxScanTokenSize (by decide) r.fails r.data []
    (by simp) (by simpa using hshort)

theorem specLines_past_long_line (n : Nat) :
    specSplit []
        (specLines (['a', ';', '\n'] ++
          ((List.replicate n 'x' ++ [';']) ++ '\n' :: ['b', ';', '\n'])))
      = [['a', ';', '\n'], (List.replicate n 'x' ++ [';']) ++ ['\n'], ['b', ';', '\n']] := by
  have hx : '\n' ∉ List.replicate n 'x' ++ [';'] := by
    intro h
    rcases List.mem_append.1 h with h | h
    · exact absurd (List.eq_of_mem_replicate h) (by decide)
    · simp at h
  have e1 : ['a', ';', '\n'] ++ ((List.replicate n 'x' ++ [';']) ++ '\n' :: ['b', ';', '\n'])
      = ['a', ';'] ++ '\n' :: ((List.replicate n 'x' ++ [';']) ++ '\n' :: ['b', ';', '\n']) :=
    rfl
  have hraw : specRawLines (['a', ';', '\n'] ++
      ((List.replicate n 'x' ++ [';']) ++ '\n' :: ['b', ';', '\n']))
      = [['a', ';'], List.replicate n 'x' ++ [';'], ['b', ';']] := by
    rw [e1, specRawLines_append_newline _ _ (by decide),
      specRawLines_append_newline _ _ hx]
    rfl
  have hsemi : ∀ l ∈ [['a', ';'], List.replicate n 'x' ++ [';'], ['b', ';']],
      l.getLast? = some ';' := by
    intro l hl
    simp only [List.mem_cons, List.mem_singleton, List.not_mem_nil, or_false] at hl
    rcases hl with h | h | h <;> subst h <;> simp
  unfold specLines
  rw [hraw, specStripCR_eq_dropCR, map_dropCR_of_semicolon _ hsemi,
    specSplit_of_semicolon _ hsemi]
  simp

theorem Restore_past_long_line (n : Nat) (hn : bufio.MaxScanTokenSize ≤ n + 1) :
    Restore allOk [⟨['a', ';', '\n'] ++
        ((List.replicate n 'x' ++ [';']) ++ '\n' :: ['b', ';', '\n']), false⟩]
      = ([Call.beginTx, Call.exec ['a', ';', '\n'], Call.commit], none) := by
  have hs : bufio.scan ⟨['a', ';', '\n'] ++
      ((List.replicate n 'x' ++ [';']) ++ '\n' :: ['b', ';', '\n']), false⟩
      = ([['a', ';']], some bufio.ScanErr.tooLong) := by
    unfold bufio.scan
    have h1 := bufio.scanFrom_line bufio.MaxScanTokenSize false
      ((List.replicate n 'x' ++ [';']) ++ '\n' :: ['b', ';', '\n']) ['a', ';'] []
      (by decide)
    have h2 := scan_long_line n 'x' [';'] ['b', ';', '\n'] false (by decide) (by decide) hn
    rw [h2] at h1
    exact h1
  have hr : replay allOk ([] ++ [Call.beginTx]) [] (bufio.scan ⟨['a', ';', '\n'] ++
      ((List.replicate n 'x' ++ [';']) ++ '\n' :: ['b', ';', '\n']), false⟩).1
      = ([Call.beginTx, Call.exec ['a', ';', '\n']], none) := by
    rw [hs]; rfl
  have hu := restoreUnit_of_replay_ok allOk [] _ _ rfl hr
  unfold Restore
  rw [if_neg (by simp [allOk]), restoreUnits_cons_ok allOk _ _ _ _ hu]
  rfl

/-- C1 (as amended): for every input stream whose lines are each shorter than 65536 bytes, the
token limit of the line scanner, the replay loop of `database.Restore` executes exactly the
statements of the reference splitter on the lines of the stream, for every unit and every
behaviour of the database.  The lines the loop reads are the lines of the stream (a line ends
at a newline, it holds neither the newline nor the carriage return before it, and the bytes
after the last newline are a last line); the loop makes exactly the calls of executing the
statements of `specSplit` on these lines in order up to the first failure, so the statements a
unit executes are the first `k` statements of `specSplit`, in order, for some `k`; whenever
the unit ends without an error, and whenever the transaction begins and no execution fails,
its calls are `BEGIN`, all the statements of `specSplit` in order, `COMMIT`; and every
statement of `specSplit` consists of whole non-empty lines of which only the last one ends in
`;`, so a `;` that is not the last character of its line never ends a statement. -/
theorem Restore_executes_specSplit (db : Conn) (tr : List Call) (r : bufio.Reader)
    (hshort : ∀ l ∈ specRawLines r.data, l.length < bufio.MaxScanTokenSize) :
    (bufio.scan r).1 = specLines r.data
    ∧ (∀ tr0 cur, replay db tr0 cur (bufio.scan r).1
        = specExec db tr0 (specSplit cur (specLines r.data)))
    ∧ (∃ k, execsOf (restoreUnit db tr r).1
        = execsOf tr ++ (specSplit [] (specLines r.data)).take k)
    ∧ ((restoreUnit db tr r).2 = none →
        (restoreUnit db tr r).1
          = tr ++ Call.beginTx :: (specSplit [] (specLines r.data)).map Call.exec
              ++ [Call.commit])
    ∧ (db.beginFails tr = false → (∀ h s, db.execFails h s = false) →
        (restoreUnit db tr r).1
          = tr ++ Call.beginTx :: (specSplit [] (specLines r.data)).map Call.exec
              ++ [Call.commit])
    ∧ (∀ s ∈ specSplit [] (specLines r.data), ∃ block l,
        s = (block.map (fun x => x ++ ['\n'])).flatten ++ (l ++ ['\n'])
        ∧ l.getLast? = some ';'
        ∧ (∀ x ∈ block, x ≠ [] ∧ x.getLast? ≠ some ';')
        ∧ (∀ x ∈ block ++ [l], x ∈ specLines r.data)) := by
  have hscan : (bufio.scan r).1 = specLines r.data := by
    rw [scan_eq_specLines r hshort]
  rw [← hscan]
  exact ⟨rfl, fun tr0 cur => replay_eq_specExec db _ tr0 cur, restoreUnit_execs db tr r,
    restoreUnit_ok_calls db tr r, fun hb he => (restoreUnit_execs_ok db tr r hb he).1,
    fun s hs => specSplit_statement _ s hs⟩

/-- C1, at a concrete stream: carriage returns are dropped, the blank line is skipped, the `;`
inside `b;x` does not end the statement, and the text after the last `;` is not executed. -/
theorem Restore_executes_specSplit_witness :
    (∀ l ∈ specRawLines "a;\r\n\nb;x\nc;\nd".toList, l.length < bufio.MaxScanTokenSize)
    ∧ specLines "a;\r\n\nb;x\nc;\nd".toList
      = ["a;".toList, [], "b;x".toList, "c;".toList, "d".toList]
    ∧ (restoreUnit allOk [] ⟨"a;\r\n\nb;x\nc;\nd".toList, false⟩).2 = none
    ∧ (restoreUnit allOk [] ⟨"a;\r\n\nb;x\nc;\nd".toList, false⟩).1
        = [Call.beginTx, Call.exec "a;\n".toList, Call.exec "b;x\nc;\n".toList, Call.commit] :=
  ⟨by decide, by decide, by decide,
    ((Restore_executes_specSplit allOk [] ⟨"a;\r\n\nb;x\nc;\nd".toList, false⟩
      (by decide)).2.2.2.1 (by decide)).trans (by decide)⟩

/-- C1 as stated fails: the stream holds the line `a;`, a line of 65537 bytes that ends in `;`
and the line `b;`.  The reference splitter gives three statements on the lines of the stream;
every call on the database succeeds, yet the unit executes the first statement only, commits
and returns no error: the scanner stops at the long line and the loop ends there. -/
theorem Restore_skips_statements_after_long_line :
    specSplit []
        (specLines (['a', ';', '\n'] ++
          ((List.replicate 65536 'x' ++ [';']) ++ '\n' :: ['b', ';', '\n'])))
      = [['a', ';', '\n'], (List.replicate 65536 'x' ++ [';']) ++ ['\n'], ['b', ';', '\n']]
    ∧ Restore allOk [⟨['a', ';', '\n'] ++
        ((List.replicate 65536 'x' ++ [';']) ++ '\n' :: ['b', ';', '\n']), false⟩]
      = ([Call.beginTx, Call.exec ['a', ';', '\n'], Call.commit], none) :=
  ⟨specLines_past_long_line 65536, Restore_past_long_line 65536 (by decide)⟩

end database

namespace database

/-- C2 (as amended): for every stream made of `n ≥ 0` non-empty lines that each end in `;`
and are each shorter than the scanner's token limit of 65536 bytes, when the connection opens,
the transaction begins and every execution succeeds, the replay of that one unit begins exactly
one transaction, executes exactly the `n` lines (each with its newline) in stream order, and
then commits; `Restore` returns `nil` exactly when the commit succeeds. -/
theorem Restore_terminated_lines (db : Conn) (ls : List GoString) (fails : Bool)
    (hls : ∀ l ∈ ls, l ≠ [] ∧ '\n' ∉ l ∧ l.getLast? = some ';'
      ∧ l.length < bufio.MaxScanTokenSize)
    (ho : db.openFails = false) (hb : db.beginFails [] = false)
    (he : ∀ h s, db.execFails h s = false) :
    (Restore db [⟨(ls.map (fun l => l ++ ['\n'])).flatten, fails⟩]).1
        = Call.beginTx :: ls.map (fun l => Call.exec (l ++ ['\n'])) ++ [Call.commit]
    ∧ ((Restore db [⟨(ls.map (fun l => l ++ ['\n'])).flatten, fails⟩]).2 = none
        ↔ db.commitFails (Call.beginTx :: ls.map (fun l => Call.exec (l ++ ['\n']))) = false) := by
  have hscan := bufio.scan_terminated fails ls (fun l hl => ⟨(hls l hl).2.1, (hls l hl).2.2.2⟩)
  have hsemi : ∀ l ∈ ls, l.getLast? = some ';' := fun l hl => (hls l hl).2.2.1
  rw [map_dropCR_of_semicolon ls hsemi] at hscan
  have hmap : (ls.map (fun l => l ++ ['\n'])).map Call.exec
      = ls.map (fun l => Call.exec (l ++ ['\n'])) := by
    simp [List.map_map, Function.comp_def]
  have hr : replay db ([] ++ [Call.beginTx]) [] (bufio.scan
      ⟨(ls.map (fun l => l ++ ['\n'])).flatten, fails⟩).1
      = ([Call.beginTx] ++ ls.map (fun l => Call.exec (l ++ ['\n'])), none) := by
    rw [hscan, replay_eq_specExec, specSplit_of_semicolon ls hsemi, specExec_allOk db he, hmap]
    rfl
  have hu := restoreUnit_of_replay_ok db [] _ _ hb hr
  have hR : Restore db [⟨(ls.map (fun l => l ++ ['\n'])).flatten, fails⟩]
      = (Call.beginTx :: ls.map (fun l => Call.exec (l ++ ['\n'])) ++ [Call.commit],
          if db.commitFails (Call.beginTx :: ls.map (fun l => Call.exec (l ++ ['\n'])))
          then some Err.commitFailed else none) := by
    unfold Restore
    rw [if_neg (by simp [ho])]
    by_cases hc : db.commitFails (Call.beginTx :: ls.map (fun l => Call.exec (l ++ ['\n'])))
    · have hu1 : restoreUnit db [] ⟨(ls.map (fun l => l ++ ['\n'])).flatten, fails⟩
          = (Call.beginTx :: ls.map (fun l => Call.exec (l ++ ['\n'])) ++ [Call.commit],
              some Err.commitFailed) := by
        rw [hu]; simp [hc]
      rw [restoreUnits_cons_err db _ _ _ _ _ hu1]; simp [hc]
    · have hu1 : restoreUnit db [] ⟨(ls.map (fun l => l ++ ['\n'])).flatten, fails⟩
          = (Call.beginTx :: ls.map (fun l => Call.exec (l ++ ['\n'])) ++ [Call.commit],
              none) := by
        rw [hu]; simp [hc]
      rw [restoreUnits_cons_ok db _ _ _ _ hu1]; simp [hc, restoreUnits]
  rw [hR]
  refine ⟨rfl, ?_⟩
  by_cases hc : db.commitFails (Call.beginTx :: ls.map (fun l => Call.exec (l ++ ['\n'])))
  · simp [hc]
  · simp [hc]

/-- C2, at the input of the specification: two statements, in order, in one transaction,
followed by a commit. -/
theorem Restore_terminated_lines_witness :
    (∀ l ∈ ["INSERT INTO t VALUES (1);".toList, "INSERT INTO t VALUES (2);".toList],
        l ≠ [] ∧ '\n' ∉ l ∧ l.getLast? = some ';' ∧ l.length < bufio.MaxScanTokenSize)
    ∧ allOk.openFails = false ∧ allOk.beginFails [] = false
    ∧ (∀ h s, allOk.execFails h s = false)
    ∧ (Restore allOk
        [⟨"INSERT INTO t VALUES (1);\nINSERT INTO t VALUES (2);\n".toList, false⟩]).1
      = [Call.beginTx, Call.exec "INSERT INTO t VALUES (1);\n".toList,
          Call.exec "INSERT INTO t VALUES (2);\n".toList, Call.commit] :=
  ⟨by decide, rfl, rfl, fun _ _ => rfl,
    (Restore_terminated_lines allOk
      ["INSERT INTO t VALUES (1);".toList, "INSERT INTO t VALUES (2);".toList] false
      (by decide) rfl rfl (fun _ _ => rfl)).1⟩

theorem Restore_long_line (n : Nat) (hn : bufio.MaxScanTokenSize ≤ n + 1) :
    Restore allOk [⟨(List.replicate n 'x' ++ [';']) ++ ['\n'], false⟩]
      = ([Call.beginTx, Call.commit], none) := by
  have hs : bufio.scan ⟨(List.replicate n 'x' ++ [';']) ++ ['\n'], false⟩
      = ([], some bufio.ScanErr.tooLong) :=
    scan_long_line n 'x' [';'] [] false (by decide) (by decide) hn
  have hr : replay allOk ([] ++ [Call.beginTx]) []
      (bufio.scan ⟨(List.replicate n 'x' ++ [';']) ++ ['\n'], false⟩).1
      = ([Call.beginTx], none) := by
    rw [hs]; rfl
  have hu := restoreUnit_of_replay_ok allOk [] _ _ rfl hr
  unfold Restore
  rw [if_neg (by simp [allOk]), restoreUnits_cons_ok allOk _ _ _ _ hu]
  rfl

theorem replicate_semicolon (n : Nat) :
    List.replicate n 'x' ++ [';'] ≠ []
      ∧ '\n' ∉ List.replicate n 'x' ++ [';']
      ∧ (List.replicate n 'x' ++ [';']).getLast? = some ';' := by
  refine ⟨by simp, ?_, by simp⟩
  intro h
  rcases List.mem_append.1 h with h | h
  · exact absurd (List.eq_of_mem_replicate h) (by decide)
  · simp at h

/-- C2 as stated fails: a stream of one non-empty line that ends in `;`, 65536 bytes long.
Every call on the database succeeds, yet no statement is executed: the scanner stops with
`ErrTooLong` before it delivers the line, and the empty transaction is committed. -/
theorem Restore_long_line_not_executed :
    (List.replicate 65535 'x' ++ [';'] ≠ []
      ∧ '\n' ∉ List.replicate 65535 'x' ++ [';']
      ∧ (List.replicate 65535 'x' ++ [';']).getLast? = some ';')
    ∧ Restore allOk [⟨(List.replicate 65535 'x' ++ [';']) ++ ['\n'], false⟩]
        = ([Call.beginTx, Call.commit], none) :=
  ⟨replicate_semicolon 65535, Restore_long_line 65535 (by decide)⟩

end database

namespace database

theorem restoreUnits_append (db : Conn) (dn : List bufio.Reader) :
    ∀ tr0 tr rs, restoreUnits db tr0 dn = (tr, none) →
      restoreUnits db tr0 (dn ++ rs) = restoreUnits db tr rs := by
  induction dn with
  | nil =>
    intro tr0 tr rs h
    simp only [restoreUnits, Prod.mk.injEq, and_true] at h
    simp [h]
  | cons r dn ih =>
    intro tr0 tr rs h
    rcases hu : restoreUnit db tr0 r with ⟨tr1, _ | e⟩
    · rw [restoreUnits_cons_ok db _ _ _ _ hu] at h
      rw [List.cons_append, restoreUnits_cons_ok db _ _ _ _ hu]
      exact ih tr1 tr rs h
    · rw [restoreUnits_cons_err db _ _ _ _ _ hu] at h
      simp at h

/-- C3: for every restore unit in which the execution of some statement fails (the unit `r`,
replayed after the units `dn` succeeded; `s` is the first statement of `r` whose execution
fails, `pre` the statements before it and `post` those after it), the calls of the unit are
`BEGIN`, the statements of `pre`, then `s`, then `ROLLBACK`, and nothing more: the transaction
is rolled back right at the failing statement, no statement of `post` and no later unit is
executed, the transaction is never committed, and `Restore` returns an error. -/
theorem Restore_rolls_back_at_first_failure (db : Conn) (dn rs : List bufio.Reader)
    (r : bufio.Reader) (tr : List Call) (pre post : List GoString) (s : GoString)
    (ho : db.openFails = false)
    (hdn : restoreUnits db [] dn = (tr, none))
    (hb : db.beginFails tr = false)
    (hsplit : specSplit [] (bufio.scan r).1 = pre ++ s :: post)
    (hok : ∀ p1 s1 q1, pre = p1 ++ s1 :: q1 →
      db.execFails (tr ++ [Call.beginTx] ++ p1.map Call.exec) s1 = false)
    (hfail : db.execFails (tr ++ [Call.beginTx] ++ pre.map Call.exec) s = true) :
    Restore db (dn ++ r :: rs)
        = (tr ++ [Call.beginTx] ++ pre.map Call.exec ++ [Call.exec s, Call.rollback],
            some Err.execFailed)
    ∧ Call.commit ∉ [Call.beginTx] ++ pre.map Call.exec ++ [Call.exec s, Call.rollback]
    ∧ execsOf ([Call.beginTx] ++ pre.map Call.exec ++ [Call.exec s, Call.rollback])
        = pre ++ [s] := by
  have hr : replay db (tr ++ [Call.beginTx]) [] (bufio.scan r).1
      = (tr ++ [Call.beginTx] ++ pre.map Call.exec ++ [Call.exec s, Call.rollback],
          some Err.execFailed) := by
    rw [replay_eq_specExec, hsplit]
    exact specExec_firstFailure db s post pre _ hok hfail
  have hu := restoreUnit_of_replay_err db tr _ r _ hb hr
  refine ⟨?_, ?_, ?_⟩
  · unfold Restore
    rw [if_neg (by simp [ho]), restoreUnits_append db dn [] tr _ hdn]
    exact restoreUnits_cons_err db _ _ _ _ _ hu
  · simp
  · simp [execsOf_append, execsOf, execsOf_map_exec]

/-- C3, when the second statement of a unit fails: the first statement is executed, the second
fails, the transaction is rolled back, and neither the third statement nor the second unit is
reached. -/
theorem Restore_rolls_back_at_first_failure_witness :
    Restore (failsAt 1) ([] ++ ⟨"a;\nb;\nc;\n".toList, false⟩ :: [⟨"d;\n".toList, false⟩])
      = ([] ++ [Call.beginTx] ++ ["a;\n".toList].map Call.exec
          ++ [Call.exec "b;\n".toList, Call.rollback], some Err.execFailed) :=
  (Restore_rolls_back_at_first_failure (failsAt 1) [] [⟨"d;\n".toList, false⟩]
    ⟨"a;\nb;\nc;\n".toList, false⟩ [] ["a;\n".toList] ["c;\n".toList] "b;\n".toList
    rfl rfl rfl (by decide)
    (fun p1 s1 q1 h => by
      cases p1 with
      | nil => rfl
      | cons p p1 => simp at h)
    (by decide)).1

end database

namespace database

theorem specExec_counts (db : Conn) (ss : List GoString) :
    ∀ tr, ((specExec db tr ss).1.count Call.beginTx = tr.count Call.beginTx
      ∧ (specExec db tr ss).1.count Call.commit = tr.count Call.commit)
      ∧ tr <+: (specExec db tr ss).1 := by
  induction ss with
  | nil => intro tr; simp [specExec]
  | cons s ss ih =>
    intro tr
    by_cases hf : db.execFails tr s
    · simp [specExec, hf, List.count_append, List.count_cons]
    · obtain ⟨⟨h1, h2⟩, h3⟩ := ih (tr ++ [Call.exec s])
      simp only [specExec, hf, Bool.false_eq_true, if_false]
      refine ⟨⟨?_, ?_⟩, ?_⟩
      · rw [h1]; simp [List.count_append, List.count_cons]
      · rw [h2]; simp [List.count_append, List.count_cons]
      · exact (List.prefix_append tr _).trans h3

theorem restoreUnit_counts (db : Conn) (tr : List Call) (r : bufio.Reader) :
    (restoreUnit db tr r).1.count Call.beginTx = tr.count Call.beginTx + 1
    ∧ ((restoreUnit db tr r).2 = none →
        (restoreUnit db tr r).1.count Call.commit = tr.count Call.commit + 1)
    ∧ tr <+: (restoreUnit db tr r).1 := by
  by_cases hb : db.beginFails tr
  · rw [restoreUnit_of_beginFails db tr r hb]
    simp [List.count_append, List.count_cons]
  · have hb1 : db.beginFails tr = false := by simpa using hb
    obtain ⟨⟨h1, h2⟩, h3⟩ := specExec_counts db (specSplit [] (bufio.scan r).1)
      (tr ++ [Call.beginTx])
    rw [← replay_eq_specExec] at h1 h2 h3
    have h4 : tr <+: (replay db (tr ++ [Call.beginTx]) [] (bufio.scan r).1).1 :=
      (List.prefix_append tr _).trans h3
    rcases hr : replay db (tr ++ [Call.beginTx]) [] (bufio.scan r).1 with ⟨tr1, _ | e⟩
    · rw [hr] at h1 h2 h4
      rw [restoreUnit_of_replay_ok db tr tr1 r hb1 hr]
      simp only at h1 h2 h4
      refine ⟨?_, ?_, ?_⟩
      · simp [List.count_append, List.count_cons, h1]
      · intro _
        simp [List.count_append, List.count_cons, h2]
      · exact h4.trans (List.prefix_append tr1 _)
    · rw [hr] at h1 h2 h4
      rw [restoreUnit_of_replay_err db tr tr1 r e hb1 hr]
      simp only at h1 h2 h4
      refine ⟨?_, ?_, h4⟩
      · simp [List.count_append, List.count_cons, h1]
      · intro h; simp at h

theorem restoreUnits_ok_counts (db : Conn) (rs : List bufio.Reader) :
    ∀ tr0 tr, restoreUnits db tr0 rs = (tr, none) →
      tr.count Call.beginTx = tr0.count Call.beginTx + rs.length
      ∧ tr.count Call.commit = tr0.count Call.commit + rs.length
      ∧ tr0 <+: tr := by
  induction rs with
  | nil =>
    intro tr0 tr h
    simp only [restoreUnits, Prod.mk.injEq, and_true] at h
    simp [h]
  | cons r rs ih =>
    intro tr0 tr h
    obtain ⟨c1, c2, c3⟩ := restoreUnit_counts db tr0 r
    rcases hu : restoreUnit db tr0 r with ⟨tr1, _ | e⟩
    · rw [restoreUnits_cons_ok db _ _ _ _ hu] at h
      rw [hu] at c1 c2 c3
      obtain ⟨i1, i2, i3⟩ := ih tr1 tr h
      simp only at c1 c2 c3
      refine ⟨?_, ?_, c3.trans i3⟩
      · rw [i1, c1, List.length_cons]; omega
      · rw [i2, c2 trivial, List.length_cons]; omega
    · rw [restoreUnits_cons_err db _ _ _ _ _ hu] at h
      simp at h

/-- C4 (as amended): for every ordered list of restore units, each unit is replayed in a
transaction of its own, and the units before a failing one stay committed; but when the replay
of a unit fails (at `BEGIN`, at a statement or at `COMMIT`), `Restore` returns that error at
once: the calls made are those up to the failure whatever the later units `rs` are, `BeginTx`
was called exactly once for each unit up to and including the failing one, and never for a
later unit. -/
theorem Restore_stops_at_failed_unit (db : Conn) (dn rs : List bufio.Reader) (r : bufio.Reader)
    (tr tr1 : List Call) (e : Err)
    (ho : db.openFails = false)
    (hdn : restoreUnits db [] dn = (tr, none))
    (hf : restoreUnit db tr r = (tr1, some e)) :
    Restore db (dn ++ r :: rs) = (tr1, some e)
    ∧ tr1.count Call.beginTx = dn.length + 1
    ∧ tr.count Call.commit = dn.length
    ∧ tr <+: tr1 := by
  obtain ⟨c1, _, c3⟩ := restoreUnit_counts db tr r
  obtain ⟨i1, i2, _⟩ := restoreUnits_ok_counts db dn [] tr hdn
  rw [hf] at c1 c3
  simp only at c1 c3
  refine ⟨?_, ?_, ?_, c3⟩
  · unfold Restore
    rw [if_neg (by simp [ho]), restoreUnits_append db dn [] tr _ hdn]
    exact restoreUnits_cons_err db _ _ _ _ _ hf
  · rw [c1, i1]; simp
  · rw [i2]; simp

/-- C4, at a run of three units of which the second fails: the first unit stays committed, the
third unit is never begun. -/
theorem Restore_stops_at_failed_unit_witness :
    Restore (failsAt 1)
        ([⟨"a;\n".toList, false⟩] ++ ⟨"b;\n".toList, false⟩ :: [⟨"c;\n".toList, false⟩])
      = ([Call.beginTx, Call.exec "a;\n".toList, Call.commit,
          Call.beginTx, Call.exec "b;\n".toList, Call.rollback], some Err.execFailed) :=
  (Restore_stops_at_failed_unit (failsAt 1) [⟨"a;\n".toList, false⟩] [⟨"c;\n".toList, false⟩]
    ⟨"b;\n".toList, false⟩ [Call.beginTx, Call.exec "a;\n".toList, Call.commit]
    [Call.beginTx, Call.exec "a;\n".toList, Call.commit,
      Call.beginTx, Call.exec "b;\n".toList, Call.rollback]
    Err.execFailed rfl (by decide) (by decide)).1

/-- C4 as stated fails: the only statement of the first of two units fails; the second unit
begins no transaction and its statement is never executed. -/
theorem Restore_later_unit_not_replayed :
    Restore (failsAt 0) [⟨"a;\n".toList, false⟩, ⟨"b;\n".toList, false⟩]
        = ([Call.beginTx, Call.exec "a;\n".toList, Call.rollback], some Err.execFailed)
    ∧ (Restore (failsAt 0) [⟨"a;\n".toList, false⟩, ⟨"b;\n".toList, false⟩]).1.count
        Call.beginTx = 1
    ∧ Call.exec "b;\n".toList
        ∉ (Restore (failsAt 0) [⟨"a;\n".toList, false⟩, ⟨"b;\n".toList, false⟩]).1 := by
  decide

/-- C5, the code at the failing inputs: after one good statement the stream has a line of
65537 bytes, or the reader fails in the middle of a line.  The scanner stops with an error,
`Restore` does not look at it, commits the transaction and returns `nil`, although the rest of
the stream was never read or executed. -/
theorem Restore_commits_after_scan_error :
    (bufio.scan ⟨['a', ';', '\n'] ++
        ((List.replicate 65536 'x' ++ [';']) ++ '\n' :: ['b', ';', '\n']), false⟩).2
        = some bufio.ScanErr.tooLong
    ∧ Restore allOk [⟨['a', ';', '\n'] ++
        ((List.replicate 65536 'x' ++ [';']) ++ '\n' :: ['b', ';', '\n']), false⟩]
        = ([Call.beginTx, Call.exec ['a', ';', '\n'], Call.commit], none)
    ∧ (bufio.scan ⟨"a;\nb".toList, true⟩).2 = some bufio.ScanErr.readErr
    ∧ Restore allOk [⟨"a;\nb".toList, true⟩]
        = ([Call.beginTx, Call.exec "a;\n".toList, Call.commit], none) := by
  have hs : bufio.scan ⟨['a', ';', '\n'] ++
      ((List.replicate 65536 'x' ++ [';']) ++ '\n' :: ['b', ';', '\n']), false⟩
      = ([['a', ';']], some bufio.ScanErr.tooLong) := by
    unfold bufio.scan
    have h1 := bufio.scanFrom_line bufio.MaxScanTokenSize false
      ((List.replicate 65536 'x' ++ [';']) ++ '\n' :: ['b', ';', '\n']) ['a', ';'] []
      (by decide)
    have h2 := scan_long_line 65536 'x' [';'] ['b', ';', '\n'] false (by decide) (by decide)
      (by decide)
    rw [h2] at h1
    exact h1
  refine ⟨by rw [hs], ?_, by decide, by decide⟩
  have hr : replay allOk ([] ++ [Call.beginTx]) [] (bufio.scan ⟨['a', ';', '\n'] ++
      ((List.replicate 65536 'x' ++ [';']) ++ '\n' :: ['b', ';', '\n']), false⟩).1
      = ([Call.beginTx, Call.exec ['a', ';', '\n']], none) := by
    rw [hs]; rfl
  have hu := restoreUnit_of_replay_ok allOk [] _ _ rfl hr
  unfold Restore
  rw [if_neg (by simp [allOk]), restoreUnits_cons_ok allOk _ _ _ _ hu]
  rfl

end database

/-! ## Theorems: `url.Parse` and `core.smartParse` -/

namespace strings

theorem Cut_eq_none (sep : Char) (s : GoString) (h : sep ∉ s) : Cut sep s = none := by
  induction s with
  | nil => rfl
  | cons c s ih =>
    have hc : c ≠ sep := fun e => h (by simp [e])
    have hs : sep ∉ s := fun e => h (List.mem_cons_of_mem _ e)
    simp [Cut, hc, ih hs]

theorem HasPrefix_slash (s : GoString) :
    HasPrefix s ['/'] = true ↔ ∃ t, s = '/' :: t := by
  cases s with
  | nil => simp [HasPrefix, List.isPrefixOf]
  | cons c t =>
    simp only [HasPrefix, List.isPrefixOf, Bool.and_true, beq_iff_eq, List.cons.injEq,
      exists_eq_right']
    exact eq_comm

end strings

namespace url

theorem unescape_path_of_no_percent (s : GoString) (h : '%' ∉ s) :
    unescape encoding.encodePath s = some s := by
  induction s with
  | nil => rfl
  | cons c s ih =>
    have hc : c ≠ '%' := fun e => h (by simp [e])
    have hs : '%' ∉ s := fun e => h (List.mem_cons_of_mem _ e)
    rw [unescape]
    · simp [hc, ih hs]
    · intros
      simp_all

theorem parse_file_scheme (raw : GoString) (hq : '?' ∉ raw) (hp : '%' ∉ raw)
    (hctl : stringContainsCTLByte ('/' :: raw) = false) :
    parse ("file://".toList ++ '/' :: raw)
      = some ⟨"file".toList, [], none, [], '/' :: raw, [], []⟩ := by
  have h1 : stringContainsCTLByte ("file://".toList ++ '/' :: raw) = false := by
    simp only [stringContainsCTLByte, List.any_append] at hctl ⊢
    rw [hctl]
    decide
  have h2 : getScheme ("file://".toList ++ '/' :: raw) = some ("file".toList, '/' :: '/' :: '/' :: raw) := by
    rfl
  have h3 : strings.Cut '?' ('/' :: '/' :: '/' :: raw) = none :=
    strings.Cut_eq_none _ _ (by simp [hq])
  have h5 : ("file://".toList ++ '/' :: raw) ≠ ['*'] := by
    simp
  unfold parse
  rw [h1]
  simp only [Bool.false_eq_true, if_false, h5, h2, h3]
  simp [strings.HasPrefix, strings.Cut, unescape_path_of_no_percent raw hp, parseAuthority,
    parseHost, strings.CutLast, unescape]

end url

namespace url

theorem Cut_hash_file (x : GoString) :
    strings.Cut '#' ("file://".toList ++ x)
      = (strings.Cut '#' x).map (fun p => ("file://".toList ++ p.1, p.2)) := by
  show strings.Cut '#' ('f' :: 'i' :: 'l' :: 'e' :: ':' :: '/' :: '/' :: x) = _
  simp only [strings.Cut]
  cases strings.Cut '#' x with
  | none => simp
  | some p => simp

theorem parse_file_Scheme (x : GoString) (u : URL) (h : parse ("file://".toList ++ x) = some u) :
    u.Scheme = "file".toList := by
  have h2 : getScheme ("file://".toList ++ x) = some ("file".toList, '/' :: '/' :: x) := rfl
  have h5 : ("file://".toList ++ x) ≠ ['*'] := by simp
  unfold parse at h
  rw [h2] at h
  simp only [h5, if_false] at h
  split at h
  · simp at h
  · split at h
    · simp only [Option.some.injEq] at h
      rw [← h]
      rfl
    · split at h
      · simp at h
      · split at h
        · split at h
          · simp only [Option.some.injEq] at h
            rw [← h]
            rfl
          · simp at h
        · simp only [Option.map_eq_some'] at h
          obtain ⟨p, _, hp⟩ := h
          rw [← hp]
          rfl

end url

namespace url

theorem Cut_question_slashes (t : GoString) :
    strings.Cut '?' ('/' :: '/' :: '/' :: t)
      = (strings.Cut '?' t).map (fun p => ('/' :: '/' :: '/' :: p.1, p.2)) := by
  simp only [strings.Cut]
  cases strings.Cut '?' t with
  | none => simp
  | some p => simp

theorem parse_file_slash (t : GoString) (u : URL)
    (h : parse ("file://".toList ++ '/' :: t) = some u) :
    u.Scheme = "file".toList ∧ u.Host = [] ∧ u.User = none := by
  have h2 : getScheme ("file://".toList ++ '/' :: t)
      = some ("file".toList, '/' :: '/' :: '/' :: t) := rfl
  have h5 : ("file://".toList ++ '/' :: t) ≠ ['*'] := by simp
  unfold parse at h
  rw [h2] at h
  simp only [h5, if_false] at h
  split at h
  · simp at h
  · simp only [Cut_question_slashes] at h
    cases hc : strings.Cut '?' t with
    | none =>
      rw [hc] at h
      simp [strings.HasPrefix, strings.Cut, parseAuthority, parseHost, strings.CutLast,
        unescape] at h
      cases hx : unescape encoding.encodePath t with
      | none => rw [hx] at h; simp at h
      | some q =>
        rw [hx] at h
        simp at h
        rw [← h]
        exact ⟨rfl, rfl, rfl⟩
    | some p =>
      rw [hc] at h
      simp [strings.HasPrefix, strings.Cut, parseAuthority, parseHost, strings.CutLast,
        unescape] at h
      cases hx : unescape encoding.encodePath p.1 with
      | none => rw [hx] at h; simp at h
      | some q =>
        rw [hx] at h
        simp at h
        rw [← h]
        exact ⟨rfl, rfl, rfl⟩

end url

namespace core

theorem smartParse_slash (raw : GoString) (u : url.URL)
    (hs : strings.HasPrefix raw "/".toList = true) (h : smartParse raw = some u) :
    u.Scheme = "file".toList ∧ u.Host = [] ∧ u.User = none := by
  obtain ⟨t, rfl⟩ := (strings.HasPrefix_slash raw).1 hs
  unfold smartParse at h
  rw [if_pos hs] at h
  unfold url.Parse at h
  rw [url.Cut_hash_file] at h
  cases hc : strings.Cut '#' ('/' :: t) with
  | none =>
    rw [hc] at h
    exact url.parse_file_slash t u h
  | some p =>
    rw [hc] at h
    simp only [Option.map_some'] at h
    have hp1 : ∃ t1, p.1 = '/' :: t1 := by
      simp only [strings.Cut] at hc
      rw [if_neg (by decide)] at hc
      cases hc1 : strings.Cut '#' t with
      | none => rw [hc1] at hc; simp at hc
      | some q =>
        rw [hc1] at hc
        simp only [Option.some.injEq] at hc
        exact ⟨q.1, by rw [← hc]⟩
    obtain ⟨t1, ht1⟩ := hp1
    rw [ht1] at h
    cases hp : url.parse ("file://".toList ++ '/' :: t1) with
    | none => rw [hp] at h; simp at h
    | some v =>
      rw [hp] at h
      have hv := url.parse_file_slash t1 v hp
      simp only at h
      split at h
      · simp only [Option.some.injEq] at h
        rw [← h]; exact hv
      · simp only [Option.map_eq_some'] at h
        obtain ⟨f, _, hf⟩ := h
        rw [← hf]; exact hv

/-- C6: for every target string `raw` that begins with `/`, `smartParse raw` is the parse of
`"file://" + raw`: whenever it parses, the scheme is `file`, the host is empty and there is no
user; and when `raw` has no `?`, `#`, `%` and no control byte it does parse, with the path
`raw` and nothing else.  Hence `/backups/` and `file:///backups/` parse to the same URL.  For
every string that does not begin with `/`, `smartParse raw` is the plain `url.Parse raw`. -/
theorem smartParse_file_scheme (raw : GoString) :
    (strings.HasPrefix raw "/".toList = true →
      smartParse raw = url.Parse ("file://".toList ++ raw)
      ∧ (∀ u, smartParse raw = some u →
          u.Scheme = "file".toList ∧ u.Host = [] ∧ u.User = none)
      ∧ ('?' ∉ raw → '#' ∉ raw → '%' ∉ raw → url.stringContainsCTLByte raw = false →
          smartParse raw = some ⟨"file".toList, [], none, [], raw, [], []⟩))
    ∧ (strings.HasPrefix raw "/".toList = false → smartParse raw = url.Parse raw)
    ∧ smartParse "/backups/".toList = smartParse "file:///backups/".toList
    ∧ smartParse "/backups/".toList
        = some ⟨"file".toList, [], none, [], "/backups/".toList, [], []⟩ := by
  refine ⟨fun h => ⟨by unfold smartParse; rw [if_pos h],
      fun u hu => smartParse_slash raw u h hu, fun hq hh hp hctl => ?_⟩,
    fun h => by unfold smartParse; rw [if_neg (by rw [h]; exact Bool.false_ne_true)],
    by decide, by decide⟩
  obtain ⟨t, rfl⟩ := (strings.HasPrefix_slash raw).1 h
  have hcut : strings.Cut '#' ("file://".toList ++ '/' :: t) = none :=
    strings.Cut_eq_none _ _ (by
      intro hm
      rcases List.mem_append.1 hm with hm | hm
      · revert hm; decide
      · exact hh hm)
  have hq1 : '?' ∉ t := fun e => hq (List.mem_cons_of_mem _ e)
  have hp1 : '%' ∉ t := fun e => hp (List.mem_cons_of_mem _ e)
  unfold smartParse
  rw [if_pos h]
  simp only [url.Parse, hcut]
  exact url.parse_file_scheme t hq1 hp1 hctl

/-- C6, at a path with a blank and a colon in it. -/
theorem smartParse_file_scheme_witness :
    strings.HasPrefix "/back ups/db:1.tgz".toList "/".toList = true
    ∧ smartParse "/back ups/db:1.tgz".toList
        = some ⟨"file".toList, [], none, [], "/back ups/db:1.tgz".toList, [], []⟩ :=
  ⟨by decide,
    ((smartParse_file_scheme "/back ups/db:1.tgz".toList).1 (by decide)).2.2
      (by decide) (by decide) (by decide) (by decide)⟩

end core

/-! ## Theorems: `core.Restore` -/


namespace core

theorem storeOf_eq_none (s : GoString) :
    storeOf s = none ↔ s ≠ "file".toList ∧ s ≠ "smb".toList ∧ s ≠ "s3".toList := by
  unfold storeOf
  by_cases h1 : s = "file".toList
  · subst h1; decide
  · by_cases h2 : s = "smb".toList
    · subst h2; decide
    · by_cases h3 : s = "s3".toList
      · subst h3; decide
      · rw [if_neg h1, if_neg h2, if_neg h3]
        exact ⟨fun _ => ⟨h1, h2, h3⟩, fun _ => rfl⟩

theorem storeOf_eq_some (s : GoString) :
    (storeOf s = some Backend.file ↔ s = "file".toList)
    ∧ (storeOf s = some Backend.smb ↔ s = "smb".toList)
    ∧ (storeOf s = some Backend.s3 ↔ s = "s3".toList) := by
  unfold storeOf
  by_cases h1 : s = "file".toList
  · subst h1; decide
  · by_cases h2 : s = "smb".toList
    · subst h2; decide
    · by_cases h3 : s = "s3".toList
      · subst h3; decide
      · rw [if_neg h1, if_neg h2, if_neg h3]
        refine ⟨⟨?_, fun h => absurd h h1⟩, ⟨?_, fun h => absurd h h2⟩,
          ⟨?_, fun h => absurd h h3⟩⟩ <;> intro h <;> cases h

theorem Restore_of_preRestore_ok (env : Env) (target : GoString) (creds : Creds) (w : World)
    (u : url.URL) (hpre : (preRestore env target w).2 = false)
    (hu : smartParse target = some u) :
    Restore env target creds w
      = match storeOf u.Scheme with
        | none => ((preRestore env target w).1, some (Err.unknownProtocol u.Scheme))
        | some store =>
          match storage.Pull env store creds u tmpRestoreFile (preRestore env target w).1 with
          | (w2, none) => (w2, some Err.pull)
          | (w2, some _) => restoreDownloaded env target w2 := by
  rcases hw : preRestore env target w with ⟨w1, b⟩
  rw [hw] at hpre
  simp only at hpre
  subst hpre
  simp only [Restore, hw, hu]

/-- C7 (as amended): for every restore target that parses as a URL (the pre-restore hooks
having succeeded), `Restore` resolves exactly one backend from the scheme of the parsed URL and
calls its `Pull`: the file backend when the scheme is `file`, which every target that begins
with `/` has, the SMB backend when it is `smb`, the object-storage backend when it is `s3`;
every other scheme, the absent (empty) one included, is a configuration error. -/
theorem Restore_resolves_backend (env : Env) (target : GoString) (creds : Creds) (w : World)
    (u : url.URL) (hpre : (preRestore env target w).2 = false)
    (hu : smartParse target = some u) :
    (∀ store, storeOf u.Scheme = some store →
        Restore env target creds w
          = match storage.Pull env store creds u tmpRestoreFile (preRestore env target w).1 with
            | (w2, none) => (w2, some Err.pull)
            | (w2, some _) => restoreDownloaded env target w2)
    ∧ (storeOf u.Scheme = some Backend.file ↔ u.Scheme = "file".toList)
    ∧ (storeOf u.Scheme = some Backend.smb ↔ u.Scheme = "smb".toList)
    ∧ (storeOf u.Scheme = some Backend.s3 ↔ u.Scheme = "s3".toList)
    ∧ (strings.HasPrefix target "/".toList = true → storeOf u.Scheme = some Backend.file)
    ∧ (u.Scheme ≠ "file".toList ∧ u.Scheme ≠ "smb".toList ∧ u.Scheme ≠ "s3".toList →
        Restore env target creds w
          = ((preRestore env target w).1, some (Err.unknownProtocol u.Scheme))) := by
  obtain ⟨s1, s2, s3⟩ := storeOf_eq_some u.Scheme
  refine ⟨fun store hs => ?_, s1, s2, s3, fun hp => ?_, fun hn => ?_⟩
  · rw [Restore_of_preRestore_ok env target creds w u hpre hu, hs]
  · exact s1.2 (smartParse_slash target u hp hu).1
  · rw [Restore_of_preRestore_ok env target creds w u hpre hu,
      (storeOf_eq_none u.Scheme).2 hn]

/-- C7, at the target `/backups/db.tgz`: the file backend pulls it and the restore goes
through. -/
theorem Restore_resolves_backend_witness :
    (preRestore quietEnv "/backups/db.tgz".toList sampleWorld).2 = false
    ∧ smartParse "/backups/db.tgz".toList
        = some ⟨"file".toList, [], none, [], "/backups/db.tgz".toList, [], []⟩
    ∧ storeOf "file".toList = some Backend.file :=
  ⟨rfl, by decide,
    (Restore_resolves_backend quietEnv "/backups/db.tgz".toList ⟨[], []⟩ sampleWorld
      ⟨"file".toList, [], none, [], "/backups/db.tgz".toList, [], []⟩ rfl (by decide)).2.2.2.2.1
      (by decide)⟩

/-- C7 as stated fails: the target `backups/db.tgz` parses as a URL whose scheme is absent,
and `Restore` returns the error `unknown url protocol` instead of using the file backend: no
`Pull` is made. -/
theorem Restore_absent_scheme_is_error :
    smartParse "backups/db.tgz".toList
        = some ⟨[], [], none, [], "backups/db.tgz".toList, [], []⟩
    ∧ Restore quietEnv "backups/db.tgz".toList ⟨[], []⟩ sampleWorld
        = (⟨sampleWorld.fs, [Event.runScripts preRestoreDir "backups/db.tgz".toList], []⟩,
            some (Err.unknownProtocol [])) := by
  decide

end core

namespace core

/-- C8: for every restore target whose scheme is not one of `file`, `smb`, `s3`, `Restore`
returns an error and the world it leaves is the one the pre-restore hooks left: the only call
out of the process is the run of the pre-restore hooks, no backend `Pull` is invoked, the
filesystem is what the hook scripts made of it (neither the temporary download file nor the
extraction directory is created), and no call is made on the database. -/
theorem Restore_unknown_scheme_no_backend_work (env : Env) (target : GoString) (creds : Creds)
    (w : World) (u : url.URL) (hu : smartParse target = some u)
    (hs : u.Scheme ≠ "file".toList ∧ u.Scheme ≠ "smb".toList ∧ u.Scheme ≠ "s3".toList) :
    (Restore env target creds w).2 ≠ none
    ∧ ((preRestore env target w).2 = false →
        (Restore env target creds w).2 = some (Err.unknownProtocol u.Scheme))
    ∧ (Restore env target creds w).1.log = w.log ++ [Event.runScripts preRestoreDir target]
    ∧ (Restore env target creds w).1.fs = (env.runScripts preRestoreDir target w.fs).1
    ∧ (Restore env target creds w).1.db = w.db := by
  have hn := (storeOf_eq_none u.Scheme).2 hs
  cases hb : (preRestore env target w).2 with
  | false =>
    rw [Restore_of_preRestore_ok env target creds w u hb hu, hn]
    exact ⟨by simp, fun _ => rfl, rfl, rfl, rfl⟩
  | true =>
    have hR : Restore env target creds w = ((preRestore env target w).1, some Err.preRestore) := by
      rcases hw : preRestore env target w with ⟨w1, b⟩
      rw [hw] at hb
      simp only at hb
      subst hb
      simp only [Restore, hw]
    rw [hR]
    exact ⟨by simp, fun h => by simp at h, rfl, rfl, rfl⟩

/-- C8, at the target `ftp://bucket/db.tgz`. -/
theorem Restore_unknown_scheme_no_backend_work_witness :
    smartParse "ftp://bucket/db.tgz".toList
        = some ⟨"ftp".toList, [], none, "bucket".toList, "/db.tgz".toList, [], []⟩
    ∧ (Restore quietEnv "ftp://bucket/db.tgz".toList ⟨[], []⟩ sampleWorld).1.log
        = sampleWorld.log ++ [Event.runScripts preRestoreDir "ftp://bucket/db.tgz".toList] :=
  ⟨by decide,
    (Restore_unknown_scheme_no_backend_work quietEnv "ftp://bucket/db.tgz".toList ⟨[], []⟩
      sampleWorld ⟨"ftp".toList, [], none, "bucket".toList, "/db.tgz".toList, [], []⟩
      (by decide) (by decide)).2.2.1⟩

/-- C9: for every restore target, when the pre-restore hooks fail, `Restore` returns the
pre-restore error and stops there: the only call out of the process is that run of the hooks
(no pull, no post-restore hooks), the filesystem is as the hook scripts left it, and no call is
made on the database. -/
theorem Restore_stops_after_failed_preRestore (env : Env) (target : GoString) (creds : Creds)
    (w : World) (hfail : (env.runScripts preRestoreDir target w.fs).2 = true) :
    Restore env target creds w
      = (⟨(env.runScripts preRestoreDir target w.fs).1,
          w.log ++ [Event.runScripts preRestoreDir target], w.db⟩, some Err.preRestore) := by
  have hw : preRestore env target w
      = (⟨(env.runScripts preRestoreDir target w.fs).1,
          w.log ++ [Event.runScripts preRestoreDir target], w.db⟩, true) := by
    simp only [preRestore, runScripts, hfail]
  simp only [Restore, hw]

/-- C9, with hook scripts that fail, for a target that would otherwise restore. -/
theorem Restore_stops_after_failed_preRestore_witness :
    Restore { quietEnv with runScripts := fun _ _ fs => (fs, true) } "/backups/db.tgz".toList
        ⟨[], []⟩ sampleWorld
      = (⟨sampleWorld.fs, [Event.runScripts preRestoreDir "/backups/db.tgz".toList], []⟩,
          some Err.preRestore) :=
  Restore_stops_after_failed_preRestore
    { quietEnv with runScripts := fun _ _ fs => (fs, true) } "/backups/db.tgz".toList ⟨[], []⟩
    sampleWorld rfl

/-- C10, the code at the failing inputs.  In a world without `/tmp/restorefile`: the object of
an `s3` target cannot be downloaded, or the file target is a directory, and `Restore` returns
the pull error with `/tmp/restorefile` left behind (the backend creates the file before it
copies); the pull succeeds and `os.MkdirTemp` fails, and `Restore` returns with the whole
download left at `/tmp/restorefile`.  When the run goes through, both the file and the
directory are gone. -/
theorem Restore_leaves_tmpRestoreFile :
    sampleWorld.fs.exists tmpRestoreFile = false
    ∧ (Restore quietEnv "s3://bucket/db.tgz".toList ⟨[], []⟩ sampleWorld).2 = some Err.pull
    ∧ (Restore quietEnv "s3://bucket/db.tgz".toList ⟨[], []⟩ sampleWorld).1.fs.get
        tmpRestoreFile = some (os.Node.file [])
    ∧ (Restore quietEnv "/backups".toList ⟨[], []⟩ sampleWorld).2 = some Err.pull
    ∧ (Restore quietEnv "/backups".toList ⟨[], []⟩ sampleWorld).1.fs.get
        tmpRestoreFile = some (os.Node.file [])
    ∧ (Restore { quietEnv with mkdirTempFails := true } "/backups/db.tgz".toList ⟨[], []⟩
        sampleWorld).2 = some Err.mkdirTemp
    ∧ (Restore { quietEnv with mkdirTempFails := true } "/backups/db.tgz".toList ⟨[], []⟩
        sampleWorld).1.fs.get tmpRestoreFile
        = some (os.Node.file "INSERT INTO t VALUES (1);\n".toList)
    ∧ Restore quietEnv "/backups/db.tgz".toList ⟨[], []⟩ sampleWorld
        = (⟨sampleWorld.fs,
            [Event.runScripts preRestoreDir "/backups/db.tgz".toList,
              Event.pull Backend.file
                ⟨"file".toList, [], none, [], "/backups/db.tgz".toList, [], []⟩ tmpRestoreFile,
              Event.runScripts postRestoreDir "/backups/db.tgz".toList],
            [database.Call.beginTx, database.Call.exec "INSERT INTO t VALUES (1);\n".toList,
              database.Call.commit]⟩, none) := by
  decide

end core

/-! ## Theorems: the SMB backend -/

namespace strings

theorem Cut_append_sep (sep : Char) (a b : GoString) (h : sep ∉ a) :
    Cut sep (a ++ sep :: b) = some (a, b) := by
  induction a with
  | nil => simp [Cut]
  | cons c a ih =>
    have hc : c ≠ sep := fun e => h (by simp [e])
    have ha : sep ∉ a := fun e => h (List.mem_cons_of_mem _ e)
    simp [Cut, hc, ih ha]

theorem SplitN_append_sep (sep : Char) (a b : GoString) (h : sep ∉ a) :
    SplitN (a ++ sep :: b) sep = [a, b] := by
  simp [SplitN, Cut_append_sep sep a b h]

theorem SplitN_of_not_mem (sep : Char) (a : GoString) (h : sep ∉ a) :
    SplitN a sep = [a] := by
  simp [SplitN, Cut_eq_none sep a h]

end strings

namespace smb

theorem credentialsOf_config (creds : Creds) (u : url.URL) (user pass : GoString)
    (hu : '%' ∉ user)
    (hc : creds.SMBCredentials = user ++ '%' :: pass
      ∨ (creds.SMBCredentials = user ∧ pass = [])) :
    credentialsOf creds u
      = match u.User with
        | some x => if user = [] then (x.username, x.password) else (user, pass)
        | none => (user, pass) := by
  rcases hc with hc | ⟨hc, hp⟩
  · have hne : user ++ '%' :: pass ≠ [] := by simp
    simp only [credentialsOf, hc, strings.SplitN_append_sep '%' user pass hu]
    cases u.User <;> simp
  · subst hp
    by_cases hne : user = []
    · subst hne
      simp only [credentialsOf, hc]
      cases u.User <;> simp
    · simp only [credentialsOf, hc, strings.SplitN_of_not_mem '%' user hu]
      cases u.User <;> simp [hne]

theorem smbCommand_log (env : Env) (push : Bool) (creds : Creds) (u : url.URL)
    (remoteFilename filename : GoString) (w : World)
    (hd : env.dialFails u.Hostname = false) :
    ∃ rest, (smbCommand env push creds u remoteFilename filename w).1.log
      = w.log ++ Event.netDial u.Hostname
        :: Event.smbLogin (credentialsOf creds u).1 (credentialsOf creds u).2 :: rest := by
  simp only [smbCommand, hd, Bool.false_eq_true, if_false]
  repeat' split
  all_goals
    apply Exists.intro
    simp only [List.append_assoc, List.cons_append, List.nil_append, List.singleton_append]
    rfl

end smb

namespace strings

theorem ReplaceAll_not_mem (s : GoString) (old new : Char) (h : new ≠ old) :
    old ∉ ReplaceAll s old new := by
  intro hm
  simp only [ReplaceAll, List.mem_map] at hm
  obtain ⟨c, _, hc⟩ := hm
  by_cases e : c = old
  · rw [if_pos e] at hc
    exact h hc
  · rw [if_neg e] at hc
    exact e hc

end strings

namespace filepath

theorem Base_cases (p : GoString) :
    Base p = ['.'] ∨ Base p = ['/']
    ∨ (Base p ≠ [] ∧ '/' ∉ Base p ∧ ∀ c ∈ Base p, c ∈ p) := by
  unfold Base
  by_cases h1 : p = []
  · left; simp [h1]
  · rw [if_neg h1]
    by_cases h2 : ((p.reverse.dropWhile (fun c => c = '/')).takeWhile (fun c => c ≠ '/')) = []
    · right; left; rw [if_pos h2]
    · right; right
      rw [if_neg h2]
      refine ⟨by simpa using h2, ?_, ?_⟩
      · intro hm
        have := List.mem_takeWhile_imp (List.mem_reverse.1 hm)
        simp at this
      · intro c hc
        have h3 := (List.takeWhile_sublist _).subset (List.mem_reverse.1 hc)
        have h4 := (List.dropWhile_sublist _).subset h3
        exact List.mem_reverse.1 h4

theorem Base_of_plain (t : GoString) (h1 : t ≠ []) (h2 : '/' ∉ t) : Base t = t := by
  have hr : '/' ∉ t.reverse := fun h => h2 (List.mem_reverse.1 h)
  have hd : t.reverse.dropWhile (fun c => c = '/') = t.reverse := by
    cases hrev : t.reverse with
    | nil => rfl
    | cons a l =>
      have ha : a ≠ '/' := by
        intro e
        apply hr
        rw [hrev, e]
        exact List.mem_cons_self _ _
      simp [List.dropWhile, ha]
  have ht : t.reverse.takeWhile (fun c => c ≠ '/') = t.reverse := by
    rw [List.takeWhile_eq_self_iff]
    intro x hx
    have : x ≠ '/' := fun e => hr (e ▸ hx)
    simpa using this
  unfold Base
  rw [if_neg h1, hd, ht, if_neg (by simpa using h1)]
  simp

theorem Base_idem (p : GoString) : Base (Base p) = Base p := by
  rcases Base_cases p with h | h | ⟨h1, h2, _⟩
  · rw [h]; decide
  · rw [h]; decide
  · exact Base_of_plain _ h1 h2

end filepath

namespace smb

/-- The order in which `smbCommand` chooses the user name and the password of the NTLM login,
for every credential configuration and every smb URL.  The configuration is split at its
first `%` into a user name and a password (the whole of it is the user name, and the password
is empty, when it has no `%`).  When that user name is not empty, the login uses the configured
user name and password, whatever the URL holds; otherwise, when the URL has user information,
the login uses the user name and password of the URL; otherwise the user name is empty and the
password is the configured one (empty when the configuration is empty). -/
theorem smbCommand_credentials (creds : Creds) (u : url.URL) (user pass : GoString)
    (hu : '%' ∉ user)
    (hc : creds.SMBCredentials = user ++ '%' :: pass
      ∨ (creds.SMBCredentials = user ∧ pass = [])) :
    (user ≠ [] → credentialsOf creds u = (user, pass))
    ∧ (user = [] → ∀ x, u.User = some x → credentialsOf creds u = (x.username, x.password))
    ∧ (user = [] → u.User = none → credentialsOf creds u = ([], pass))
    ∧ (∀ env push remoteFilename filename w, env.dialFails u.Hostname = false →
        ∃ rest, (smbCommand env push creds u remoteFilename filename w).1.log
          = w.log ++ Event.netDial u.Hostname
            :: Event.smbLogin (credentialsOf creds u).1 (credentialsOf creds u).2 :: rest) := by
  have h := credentialsOf_config creds u user pass hu hc
  refine ⟨fun hne => ?_, fun he x hx => ?_, fun he hx => ?_,
    fun env push r f w hd => smbCommand_log env push creds u r f w hd⟩
  · rw [h]
    cases u.User <;> simp [hne]
  · rw [h, hx]
    simp [he]
  · rw [h, hx]
    simp [he]

/-- The order of `smbCommand_credentials` with the configuration `alice%secret` and the URL
`smb://bob:pw@host/share/db.tgz`: the login is `alice` with `secret`. -/
theorem smbCommand_credentials_witness :
    '%' ∉ "alice".toList
    ∧ credentialsOf ⟨[], "alice%secret".toList⟩
        ⟨"smb".toList, [], some ⟨"bob".toList, "pw".toList, true⟩, "host".toList,
          "/share/db.tgz".toList, [], []⟩
      = ("alice".toList, "secret".toList) :=
  ⟨by decide,
    (smbCommand_credentials ⟨[], "alice%secret".toList⟩
      ⟨"smb".toList, [], some ⟨"bob".toList, "pw".toList, true⟩, "host".toList,
        "/share/db.tgz".toList, [], []⟩ "alice".toList "secret".toList (by decide)
      (Or.inl rfl)).1 (by decide)⟩

/-- C11, the code at the failing input: the password `secret` is configured and no user name
(`--smb-pass secret` alone, which the root command turns into `%secret`), and the target is
`smb://bob:pw@host/share/db.tgz`.  `smbCommand` splits the configuration into an empty user
name and the password `secret` (lines 39-47), and then, the user name being empty, takes the
user name and the password of the URL (lines 49-52): the login is `bob` with `pw`, and the
configured password does not override the one of the URL.  With the target
`smb://bob@host/share/db.tgz`, which holds no password, the login is `bob` with an empty
password.  A configured user name does override the URL. -/
theorem smbCommand_config_password_dropped :
    cmd.rootCreds [] [] "secret".toList = ⟨[], "%secret".toList⟩
    ∧ url.Parse "smb://bob:pw@host/share/db.tgz".toList
        = some ⟨"smb".toList, [], some ⟨"bob".toList, "pw".toList, true⟩, "host".toList,
            "/share/db.tgz".toList, [], []⟩
    ∧ credentialsOf (cmd.rootCreds [] [] "secret".toList)
        ⟨"smb".toList, [], some ⟨"bob".toList, "pw".toList, true⟩, "host".toList,
          "/share/db.tgz".toList, [], []⟩
      = ("bob".toList, "pw".toList)
    ∧ (Pull smbEnv (cmd.rootCreds [] [] "secret".toList)
        ⟨"smb".toList, [], some ⟨"bob".toList, "pw".toList, true⟩, "host".toList,
          "/share/db.tgz".toList, [], []⟩ core.tmpRestoreFile core.artifactWorld).1.log
      = [Event.netDial "host".toList, Event.smbLogin "bob".toList "pw".toList,
          Event.smbMount [], Event.smbOpen "/share/db.tgz".toList]
    ∧ url.Parse "smb://bob@host/share/db.tgz".toList
        = some ⟨"smb".toList, [], some ⟨"bob".toList, [], false⟩, "host".toList,
            "/share/db.tgz".toList, [], []⟩
    ∧ credentialsOf (cmd.rootCreds [] [] "secret".toList)
        ⟨"smb".toList, [], some ⟨"bob".toList, [], false⟩, "host".toList,
          "/share/db.tgz".toList, [], []⟩
      = ("bob".toList, [])
    ∧ credentialsOf (cmd.rootCreds [] "alice".toList "secret".toList)
        ⟨"smb".toList, [], some ⟨"bob".toList, "pw".toList, true⟩, "host".toList,
          "/share/db.tgz".toList, [], []⟩
      = ("alice".toList, "secret".toList) := by
  decide

/-- C12, the code at the failing input `smb://host/share/path`: the path of the URL is
`/share/path`, `parseSMBPath` splits it at its first slash, which is the leading one, so the
share mounted is the empty string and the in-share path is the whole `/share/path`, for Pull
and for Push. -/
theorem smbCommand_mounts_empty_share :
    url.Parse "smb://host/share/path".toList
        = some ⟨"smb".toList, [], none, "host".toList, "/share/path".toList, [], []⟩
    ∧ parseSMBPath "/share/path".toList = ([], "/share/path".toList)
    ∧ (Pull smbEnv ⟨[], []⟩
        ⟨"smb".toList, [], none, "host".toList, "/share/path".toList, [], []⟩
        core.tmpRestoreFile core.artifactWorld).1.log
      = [Event.netDial "host".toList, Event.smbLogin [] [], Event.smbMount [],
          Event.smbOpen "/share/path".toList]
    ∧ (Push smbEnv ⟨[], []⟩
        ⟨"smb".toList, [], none, "host".toList, "/share/path".toList, [], []⟩
        "db.tgz".toList "/tmp/db.tgz".toList core.artifactWorld).1.log
      = [Event.netDial "host".toList, Event.smbLogin [] [], Event.smbMount [],
          Event.smbCreate "/share/path\\db.tgz".toList,
          Event.smbWrite "/share/path\\db.tgz".toList "DATA".toList] := by
  decide

/-- C13, the code at the failing input `smb://localhost:445/share/db.tgz`: the host of the URL
is `localhost:445`, and the address dialled is `u.Hostname()`, that is `localhost`, without
the port, for Pull and for Push. -/
theorem smbCommand_dials_without_port :
    url.Parse "smb://localhost:445/share/db.tgz".toList
        = some ⟨"smb".toList, [], none, "localhost:445".toList, "/share/db.tgz".toList, [], []⟩
    ∧ (Pull smbEnv ⟨[], []⟩
        ⟨"smb".toList, [], none, "localhost:445".toList, "/share/db.tgz".toList, [], []⟩
        core.tmpRestoreFile core.artifactWorld).1.log.head?
      = some (Event.netDial "localhost".toList)
    ∧ (Push smbEnv ⟨[], []⟩
        ⟨"smb".toList, [], none, "localhost:445".toList, "/share/db.tgz".toList, [], []⟩
        "db.tgz".toList "/tmp/db.tgz".toList core.artifactWorld).1.log.head?
      = some (Event.netDial "localhost".toList) := by
  decide

theorem Base_of_slashes (p : GoString) (h1 : p ≠ []) (h2 : ∀ c ∈ p, c = '/') :
    filepath.Base p = ['/'] := by
  have hd : p.reverse.dropWhile (fun c => c = '/') = [] := by
    rw [List.dropWhile_eq_nil_iff]
    intro c hc
    simpa using h2 c (List.mem_reverse.1 hc)
  simp [filepath.Base, h1, hd]

theorem ReplaceAll_slash_not_mem (s : GoString) (h : '/' ∉ s) :
    '/' ∉ strings.ReplaceAll s ':' '-' := by
  intro hm
  simp only [strings.ReplaceAll, List.mem_map] at hm
  obtain ⟨c, hc, e⟩ := hm
  by_cases hcc : c = ':'
  · rw [if_pos hcc] at e
    revert e
    decide
  · rw [if_neg hcc] at e
    exact h (e ▸ hc)

theorem ReplaceAll_of_slashes (s : GoString) (h : ∀ c ∈ s, c = '/') :
    strings.ReplaceAll s ':' '-' = s := by
  unfold strings.ReplaceAll
  conv_rhs => rw [← List.map_id s]
  apply List.map_congr_left
  intro c hc
  have e := h c hc
  subst e
  decide

/-- C14 (as amended): for every remote filename, SMB Push derives the name of the remote file
before it creates it.  When the dial, the login, the mount and the opening of the local file
succeed, the calls made are the dial, the login, the mount, and the creation of the file at
the in-share path followed by the SMB path separator and the name
`filepath.Base(strings.ReplaceAll(name, ":", "-"))`, and nothing is written anywhere else.
That name is not empty, contains no `:`, is its own base name, and contains no `/` unless it is
the name `/` itself, which a non-empty name made of slashes gives; it is `.` for the empty
name; and a non-empty name without `/` is kept whole but for its colons, so the name `..` and
the backslashes of a name, which are the SMB path separator, stay. -/
theorem smbCommand_push_sanitizes (env : Env) (creds : Creds) (u : url.URL)
    (remoteFilename filename : GoString) (w : World) (src : os.Node)
    (hd : env.dialFails u.Hostname = false)
    (hl : env.smbLoginFails (credentialsOf creds u).1 (credentialsOf creds u).2 = false)
    (hm : env.smbMountFails (parseSMBPath u.Path).1 = false)
    (ho : os.Open env w.fs filename = some src) :
    (∃ rest, (Push env creds u remoteFilename filename w).1.log
        = w.log ++ [Event.netDial u.Hostname,
            Event.smbLogin (credentialsOf creds u).1 (credentialsOf creds u).2,
            Event.smbMount (parseSMBPath u.Path).1,
            Event.smbCreate ((parseSMBPath u.Path).2 ++ [PathSeparator]
              ++ filepath.Base (strings.ReplaceAll remoteFilename ':' '-'))] ++ rest
        ∧ ∀ e ∈ rest, ∃ content, e = Event.smbWrite ((parseSMBPath u.Path).2 ++ [PathSeparator]
              ++ filepath.Base (strings.ReplaceAll remoteFilename ':' '-')) content)
    ∧ ':' ∉ filepath.Base (strings.ReplaceAll remoteFilename ':' '-')
    ∧ filepath.Base (filepath.Base (strings.ReplaceAll remoteFilename ':' '-'))
        = filepath.Base (strings.ReplaceAll remoteFilename ':' '-')
    ∧ ('/' ∉ filepath.Base (strings.ReplaceAll remoteFilename ':' '-')
        ∨ filepath.Base (strings.ReplaceAll remoteFilename ':' '-') = ['/'])
    ∧ filepath.Base (strings.ReplaceAll remoteFilename ':' '-') ≠ []
    ∧ (remoteFilename = [] →
        filepath.Base (strings.ReplaceAll remoteFilename ':' '-') = ['.'])
    ∧ (remoteFilename ≠ [] → (∀ c ∈ remoteFilename, c = '/') →
        filepath.Base (strings.ReplaceAll remoteFilename ':' '-') = ['/'])
    ∧ (remoteFilename ≠ [] → '/' ∉ remoteFilename →
        filepath.Base (strings.ReplaceAll remoteFilename ':' '-')
          = strings.ReplaceAll remoteFilename ':' '-')
    ∧ (remoteFilename ≠ [] → '/' ∉ remoteFilename → ':' ∉ remoteFilename →
        filepath.Base (strings.ReplaceAll remoteFilename ':' '-') = remoteFilename) := by
  have hplain : remoteFilename ≠ [] → '/' ∉ remoteFilename →
      filepath.Base (strings.ReplaceAll remoteFilename ':' '-')
        = strings.ReplaceAll remoteFilename ':' '-' := by
    intro hne hs
    exact filepath.Base_of_plain _ (by simpa [strings.ReplaceAll] using hne)
      (ReplaceAll_slash_not_mem _ hs)
  refine ⟨?_, ?_, filepath.Base_idem _, ?_, ?_, ?_, ?_, hplain, ?_⟩
  · simp only [Push, smbCommand, hd, hl, hm, ho, Bool.false_eq_true, if_false, if_true]
    repeat' split
    all_goals
      apply Exists.intro
      refine ⟨by simp only [List.append_assoc, List.cons_append, List.nil_append,
        List.singleton_append]; rfl, ?_⟩
      simp
  · have hr := strings.ReplaceAll_not_mem remoteFilename ':' '-' (by decide)
    rcases filepath.Base_cases (strings.ReplaceAll remoteFilename ':' '-') with h | h | ⟨_, _, h⟩
    · rw [h]; decide
    · rw [h]; decide
    · exact fun hm => hr (h _ hm)
  · rcases filepath.Base_cases (strings.ReplaceAll remoteFilename ':' '-') with h | h | ⟨_, h, _⟩
    · left; rw [h]; decide
    · right; exact h
    · left; exact h
  · rcases filepath.Base_cases (strings.ReplaceAll remoteFilename ':' '-') with h | h | ⟨h, _, _⟩
    · rw [h]; decide
    · rw [h]; decide
    · exact h
  · intro he
    subst he
    decide
  · intro hne hall
    rw [ReplaceAll_of_slashes _ hall]
    exact Base_of_slashes _ hne hall
  · intro hne hs hc
    rw [hplain hne hs]
    unfold strings.ReplaceAll
    conv_rhs => rw [← List.map_id remoteFilename]
    apply List.map_congr_left
    intro c hcm
    have hcc : c ≠ ':' := fun e => hc (e ▸ hcm)
    simp [hcc]

/-- C14, for the name `db_backup_2023-01-01T10:20:30Z.tgz` and a URL whose path is
`share/backups`: the share `share` is mounted and the file is created in `/backups`. -/
theorem smbCommand_push_sanitizes_witness :
    smbEnv.dialFails "host".toList = false
    ∧ parseSMBPath "share/backups".toList = ("share".toList, "/backups".toList)
    ∧ (Push smbEnv ⟨[], []⟩
        ⟨"smb".toList, [], none, "host".toList, "share/backups".toList, [], []⟩
        "db_backup_2023-01-01T10:20:30Z.tgz".toList "/tmp/db.tgz".toList core.artifactWorld).1.log
      = [Event.netDial "host".toList, Event.smbLogin [] [], Event.smbMount "share".toList,
          Event.smbCreate "/backups\\db_backup_2023-01-01T10-20-30Z.tgz".toList,
          Event.smbWrite "/backups\\db_backup_2023-01-01T10-20-30Z.tgz".toList
            "DATA".toList]
    ∧ ':' ∉ filepath.Base
        (strings.ReplaceAll "db_backup_2023-01-01T10:20:30Z.tgz".toList ':' '-') :=
  ⟨by decide, by decide, by decide,
    (smbCommand_push_sanitizes smbEnv ⟨[], []⟩
      ⟨"smb".toList, [], none, "host".toList, "share/backups".toList, [], []⟩
      "db_backup_2023-01-01T10:20:30Z.tgz".toList "/tmp/db.tgz".toList core.artifactWorld
      (os.Node.file "DATA".toList) rfl rfl rfl rfl).2.1⟩

/-- C14 as stated fails: the name that SMB Push derives can hold a directory component.  For
the name `///` it is `/`; for the empty name it is `.`; the name `..` stays `..`; and the
backslash, the SMB path separator, is not a separator for `filepath.Base`, so the name
`..\db.tgz` is kept whole: with the in-share path `/backups` the file is created at
`/backups\..\db.tgz`, a path with the directory component `..` after the in-share path. -/
theorem smbCommand_push_keeps_directory_component :
    filepath.Base (strings.ReplaceAll "///".toList ':' '-') = "/".toList
    ∧ filepath.Base (strings.ReplaceAll [] ':' '-') = ".".toList
    ∧ filepath.Base (strings.ReplaceAll "..".toList ':' '-') = "..".toList
    ∧ filepath.Base (strings.ReplaceAll "..\\db.tgz".toList ':' '-') = "..\\db.tgz".toList
    ∧ PathSeparator = '\\'
    ∧ (Push smbEnv ⟨[], []⟩
        ⟨"smb".toList, [], none, "host".toList, "share/backups".toList, [], []⟩
        "..\\db.tgz".toList "/tmp/db.tgz".toList core.artifactWorld).1.log
      = [Event.netDial "host".toList, Event.smbLogin [] [], Event.smbMount "share".toList,
          Event.smbCreate "/backups\\..\\db.tgz".toList,
          Event.smbWrite "/backups\\..\\db.tgz".toList "DATA".toList] := by
  decide

end smb

/-! ## Theorems: `path.Join`, the S3 and the file backends -/

namespace path

theorem elements_slash (x : GoString) : elements ('/' :: x) = [] :: elements x := by
  simp [elements]

theorem elements_ne_nil (x : GoString) : elements x ≠ [] := by
  cases x with
  | nil => simp [elements]
  | cons c x =>
    by_cases h : c = '/'
    · simp [elements, h]
    · simp only [elements, h, if_false]
      split <;> simp

theorem elements_append_slash (a x : GoString) (h : '/' ∉ a) :
    elements (a ++ '/' :: x) = a :: elements x := by
  induction a with
  | nil => exact elements_slash x
  | cons c a ih =>
    have hc : c ≠ '/' := fun e => h (by simp [e])
    have ha : '/' ∉ a := fun e => h (List.mem_cons_of_mem _ e)
    simp only [List.cons_append, elements, hc, if_false, List.append_eq, ih ha]

theorem elements_of_no_slash (a : GoString) (h : '/' ∉ a) : elements a = [a] := by
  induction a with
  | nil => rfl
  | cons c a ih =>
    have hc : c ≠ '/' := fun e => h (by simp [e])
    have ha : '/' ∉ a := fun e => h (List.mem_cons_of_mem _ e)
    simp only [elements, hc, if_false, ih ha]

theorem joinElements_append_single (es : List GoString) (f : GoString) (h : es ≠ []) :
    joinElements (es ++ [f]) = joinElements es ++ '/' :: f := by
  induction es with
  | nil => exact absurd rfl h
  | cons e es ih =>
    cases es with
    | nil => simp [joinElements]
    | cons e2 es =>
      have := ih (by simp)
      simp only [List.cons_append] at this ⊢
      simp only [joinElements, this, List.append_assoc, List.cons_append]

theorem elements_joinElements_append (es : List GoString) (x : GoString) (h : es ≠ [])
    (hs : ∀ e ∈ es, '/' ∉ e) :
    elements (joinElements es ++ '/' :: x) = es ++ elements x := by
  induction es with
  | nil => exact absurd rfl h
  | cons e es ih =>
    have he := hs e (List.mem_cons_self _ _)
    cases es with
    | nil => simpa [joinElements] using elements_append_slash e x he
    | cons e2 es =>
      have h2 := ih (by simp) (fun y hy => hs y (List.mem_cons_of_mem _ hy))
      simp only [joinElements, List.append_assoc, List.cons_append]
      rw [elements_append_slash e _ he]
      simp only [joinElements] at h2
      rw [h2]
      simp

theorem cleanElements_plain (rooted : Bool) (es : List GoString) :
    ∀ out, (∀ e ∈ es, e = [] ∨ (e ≠ ['.'] ∧ e ≠ ['.', '.'])) →
      cleanElements rooted out es = out.reverse ++ es.filter (fun e => e ≠ []) := by
  induction es with
  | nil => intro out _; simp [cleanElements]
  | cons e es ih =>
    intro out h
    have h2 := ih
    rcases h e (List.mem_cons_self _ _) with he | ⟨h1, h3⟩
    · subst he
      simp only [cleanElements, true_or, if_true]
      rw [ih out (fun y hy => h y (List.mem_cons_of_mem _ hy))]
      simp
    · by_cases he : e = []
      · subst he
        simp only [cleanElements, true_or, if_true]
        rw [ih out (fun y hy => h y (List.mem_cons_of_mem _ hy))]
        simp
      · simp only [cleanElements, he, h1, h3, or_self, if_false]
        rw [ih (e :: out) (fun y hy => h y (List.mem_cons_of_mem _ hy))]
        simp [he]

theorem Clean_rooted (segs : List GoString) (x : GoString) (hne : segs ≠ [])
    (hs : ∀ e ∈ segs, e ≠ [] ∧ '/' ∉ e ∧ e ≠ ['.'] ∧ e ≠ ['.', '.'])
    (hx : ∀ e ∈ elements x, e = [] ∨ (e ≠ ['.'] ∧ e ≠ ['.', '.'])) :
    Clean ('/' :: joinElements segs ++ '/' :: x)
      = '/' :: joinElements (segs ++ (elements x).filter (fun e => e ≠ [])) := by
  have hel : elements ('/' :: joinElements segs ++ '/' :: x) = [] :: (segs ++ elements x) := by
    rw [List.cons_append, elements_slash,
      elements_joinElements_append segs x hne (fun e he => (hs e he).2.1)]
  have hfil : segs.filter (fun e => e ≠ []) = segs := by
    rw [List.filter_eq_self]
    intro e he
    simpa using (hs e he).1
  unfold Clean
  rw [if_neg (by simp), if_pos (by simp [strings.HasPrefix]), hel,
    cleanElements_plain true _ []
      (by
        intro e he
        rcases List.mem_cons.1 he with rfl | he
        · exact Or.inl rfl
        · rcases List.mem_append.1 he with he | he
          · exact Or.inr ⟨(hs e he).2.2.1, (hs e he).2.2.2⟩
          · exact hx e he)]
  have hfil2 : segs.filter (fun e => !decide (e = [])) = segs := by simpa using hfil
  simp [hfil2]

theorem Join_clean_dir (segs : List GoString) (f : GoString) (hne : segs ≠ [])
    (hs : ∀ e ∈ segs, e ≠ [] ∧ '/' ∉ e ∧ e ≠ ['.'] ∧ e ≠ ['.', '.'])
    (hf : f ≠ [] ∧ '/' ∉ f ∧ f ≠ ['.'] ∧ f ≠ ['.', '.']) :
    Join ['/' :: joinElements segs, f] = '/' :: joinElements segs ++ '/' :: f
    ∧ Join ['/' :: joinElements segs ++ ['/'], f] = '/' :: joinElements segs ++ '/' :: f := by
  have hef : elements f = [f] := elements_of_no_slash f hf.2.1
  constructor
  · have h := Clean_rooted segs f hne hs (by
      intro e he
      rw [hef, List.mem_singleton] at he
      subst he
      exact Or.inr ⟨hf.2.2.1, hf.2.2.2⟩)
    simp only [Join, joinElements]
    rw [if_neg (by simp)]
    rw [hef] at h
    simp only [List.cons_append] at h ⊢
    rw [h]
    simp [hf.1, joinElements_append_single segs f hne]
  · have h := Clean_rooted segs ('/' :: f) hne hs (by
      intro e he
      rw [elements_slash, hef] at he
      simp only [List.mem_cons, List.mem_singleton, List.not_mem_nil, or_false] at he
      rcases he with rfl | rfl
      · exact Or.inl rfl
      · exact Or.inr ⟨hf.2.2.1, hf.2.2.2⟩)
    simp only [Join, joinElements]
    rw [if_neg (by simp)]
    rw [elements_slash, hef] at h
    simp only [List.cons_append, List.append_assoc, List.singleton_append,
      List.nil_append] at h ⊢
    rw [h]
    simp [hf.1, joinElements_append_single segs f hne]

theorem Join_empty_dir (f : GoString)
    (hf : f ≠ [] ∧ '/' ∉ f ∧ f ≠ ['.'] ∧ f ≠ ['.', '.']) :
    Join [[], f] = f ∧ Join [['/'], f] = '/' :: f := by
  have hef : elements f = [f] := elements_of_no_slash f hf.2.1
  have hnp : strings.HasPrefix f ['/'] = false := by
    cases hfe : f with
    | nil => exact absurd hfe hf.1
    | cons c t =>
      have hc : c ≠ '/' := by
        intro e
        apply hf.2.1
        rw [hfe, e]
        exact List.mem_cons_self _ _
      simp [strings.HasPrefix, List.isPrefixOf, hc.symm]
  constructor
  · simp only [Join, joinElements, if_true]
    rw [if_neg hf.1]
    unfold Clean
    rw [if_neg hf.1, hnp, hef]
    simp [cleanElements, hf.1, hf.2.2.1, hf.2.2.2, joinElements]
  · simp only [Join, joinElements]
    rw [if_neg (by simp)]
    unfold Clean
    rw [if_neg (by simp), if_pos (by simp [strings.HasPrefix])]
    simp only [List.singleton_append, elements_slash, hef]
    simp [cleanElements, hf.1, hf.2.2.1, hf.2.2.2, joinElements]

end path

namespace url

theorem Hostname_of_no_port (u : URL) (h1 : ':' ∉ u.Host)
    (h2 : strings.HasPrefix u.Host ['['] = false) : u.Hostname = u.Host := by
  have hc : strings.CutLast ':' u.Host = none := by
    unfold strings.CutLast
    rw [strings.Cut_eq_none ':' u.Host.reverse (fun h => h1 (List.mem_reverse.1 h))]
  simp [URL.Hostname, splitHostPort, hc, h2]

end url

namespace s3

theorem sessionEndpoint_eq (creds : Creds) :
    (sessionEndpoint creds = none ↔ creds.AWSEndpoint = [])
    ∧ (∀ e, sessionEndpoint creds = some e ↔ (creds.AWSEndpoint = e ∧ e ≠ [])) := by
  unfold sessionEndpoint
  by_cases h : creds.AWSEndpoint = []
  · simp [h]
  · simp only [ne_eq, h, not_false_eq_true, if_true, Option.some.injEq]
    refine ⟨by simp, fun e => ⟨fun he => ⟨he, he ▸ h⟩, fun he => he.1⟩⟩

/-- C15, the code at the failing input: an artifact of 4 bytes is pushed to
`s3://mybucket/backups`.  The upload of the 4 bytes succeeds and `S3.Push` returns 0 (its
`return 0, nil`), where the file backend and the SMB backend return 4 for the same artifact. -/
theorem S3_Push_returns_zero :
    s3.Push core.quietEnv ⟨[], []⟩
        ⟨"s3".toList, [], none, "mybucket".toList, "/backups".toList, [], []⟩
        "db.tgz".toList "/tmp/db.tgz".toList core.artifactWorld
      = (⟨core.artifactWorld.fs,
          [Event.awsSession none,
            Event.s3Upload "mybucket".toList "/backups/db.tgz".toList "DATA".toList], []⟩,
          some 0)
    ∧ (file.Push core.quietEnv ⟨[], []⟩
        ⟨"file".toList, [], none, [], "/backups".toList, [], []⟩
        "db.tgz".toList "/tmp/db.tgz".toList core.artifactWorld).2 = some 4
    ∧ (smb.Push smb.smbEnv ⟨[], []⟩
        ⟨"smb".toList, [], none, "host".toList, "/share/backups".toList, [], []⟩
        "db.tgz".toList "/tmp/db.tgz".toList core.artifactWorld).2 = some 4 := by
  decide

/-- C16 (as amended): for every s3 URL and filename (the session being made), S3 Push uploads
to the bucket `u.Hostname()`, which is the URL host when the host has no port, and to the key
`path.Join(u.Path, filename)`: for a URL path that is a clean absolute path, with or without
one slash at its end, and a plain filename that is the path, one `/`, and the filename; for the
path `/` it is `/` and the filename; for an empty URL path it is the filename alone.  S3 Pull
downloads from the bucket `u.Hostname()` and the key `u.Path`.  The session has a custom
endpoint exactly when the endpoint override is not empty, and then it is the override. -/
theorem S3_bucket_and_key (env : Env) (creds : Creds) (u : url.URL) (w : World)
    (hsess : env.awsSessionFails = false) :
    (∀ target source content, os.Open env w.fs source = some (os.Node.file content) →
        env.readFails source = false →
        (Push env creds u target source w).1.log
          = w.log ++ [Event.awsSession (sessionEndpoint creds),
              Event.s3Upload u.Hostname (path.Join [u.Path, target]) content])
    ∧ (∀ target fs1, os.Create env w.fs target = some fs1 →
        (Pull env creds u target w).1.log
          = w.log ++ [Event.awsSession (sessionEndpoint creds),
              Event.s3Download u.Hostname u.Path])
    ∧ (∀ segs f, segs ≠ [] →
        (∀ e ∈ segs, e ≠ [] ∧ '/' ∉ e ∧ e ≠ ['.'] ∧ e ≠ ['.', '.']) →
        (f ≠ [] ∧ '/' ∉ f ∧ f ≠ ['.'] ∧ f ≠ ['.', '.']) →
        (u.Path = '/' :: path.joinElements segs
            ∨ u.Path = '/' :: path.joinElements segs ++ ['/']) →
        path.Join [u.Path, f] = '/' :: path.joinElements segs ++ '/' :: f)
    ∧ (∀ f, (f ≠ [] ∧ '/' ∉ f ∧ f ≠ ['.'] ∧ f ≠ ['.', '.']) →
        (u.Path = ['/'] → path.Join [u.Path, f] = '/' :: f)
        ∧ (u.Path = [] → path.Join [u.Path, f] = f))
    ∧ (sessionEndpoint creds = none ↔ creds.AWSEndpoint = [])
    ∧ (∀ e, sessionEndpoint creds = some e ↔ (creds.AWSEndpoint = e ∧ e ≠ []))
    ∧ (':' ∉ u.Host → strings.HasPrefix u.Host ['['] = false → u.Hostname = u.Host) := by
  refine ⟨fun target source content ho hr => ?_, fun target fs1 hc => ?_,
    fun segs f hne hs hf hp => ?_, fun f hf => ⟨fun hp => ?_, fun hp => ?_⟩,
    (sessionEndpoint_eq creds).1, (sessionEndpoint_eq creds).2,
    fun h1 h2 => url.Hostname_of_no_port u h1 h2⟩
  · simp only [Push, hsess, ho, hr, Bool.false_eq_true, if_false]
    split <;> simp
  · simp only [Pull, hsess, hc, Bool.false_eq_true, if_false]
    split <;> simp
  · rcases hp with hp | hp
    · rw [hp]; exact (path.Join_clean_dir segs f hne hs hf).1
    · rw [hp]; exact (path.Join_clean_dir segs f hne hs hf).2
  · rw [hp]; exact (path.Join_empty_dir f hf).2
  · rw [hp]; exact (path.Join_empty_dir f hf).1

/-- C16, for the target `s3://mybucket/backups` and the filename `db.tgz`: the bucket is
`mybucket`, the key `/backups/db.tgz`, the endpoint the default one. -/
theorem S3_bucket_and_key_witness :
    core.quietEnv.awsSessionFails = false
    ∧ (Push core.quietEnv ⟨[], []⟩
        ⟨"s3".toList, [], none, "mybucket".toList, "/backups".toList, [], []⟩
        "db.tgz".toList "/tmp/db.tgz".toList core.artifactWorld).1.log
      = [] ++ [Event.awsSession (sessionEndpoint ⟨[], []⟩),
          Event.s3Upload
            (url.URL.Hostname
              ⟨"s3".toList, [], none, "mybucket".toList, "/backups".toList, [], []⟩)
            (path.Join ["/backups".toList, "db.tgz".toList]) "DATA".toList]
    ∧ path.Join ["/backups".toList, "db.tgz".toList] = "/backups/db.tgz".toList :=
  ⟨rfl,
    (S3_bucket_and_key core.quietEnv ⟨[], []⟩
      ⟨"s3".toList, [], none, "mybucket".toList, "/backups".toList, [], []⟩
      core.artifactWorld rfl).1 "db.tgz".toList "/tmp/db.tgz".toList "DATA".toList rfl rfl,
    by decide⟩

/-- C16 as stated fails: the target is `s3://mybucket`, whose URL path is empty, and the
filename is `db.tgz`.  The key of the upload is `db.tgz`: the URL path and the filename are
not joined by a `/`. -/
theorem S3_Push_key_without_slash :
    url.Parse "s3://mybucket".toList
        = some ⟨"s3".toList, [], none, "mybucket".toList, [], [], []⟩
    ∧ (Push core.quietEnv ⟨[], []⟩
        ⟨"s3".toList, [], none, "mybucket".toList, [], [], []⟩
        "db.tgz".toList "/tmp/db.tgz".toList core.artifactWorld).1.log
      = [Event.awsSession none,
          Event.s3Upload "mybucket".toList "db.tgz".toList "DATA".toList]
    ∧ '/' ∉ path.Join [[], "db.tgz".toList] := by
  decide

end s3

namespace os

theorem FS.get_put_same (fs : FS) (p : GoString) (n : Node) : (fs.put p n).get p = some n := by
  simp [FS.get, FS.put]

theorem FS.get_filter_ne (fs : FS) (p q : GoString) (h : q ≠ p) :
    FS.get (fs.filter (fun e => e.1 ≠ p)) q = FS.get fs q := by
  unfold FS.get
  congr 1
  induction fs with
  | nil => rfl
  | cons e fs ih =>
    by_cases he : e.1 = p
    · have hq : decide (e.1 = q) = false :=
        decide_eq_false (fun h2 => h (h2.symm.trans he))
      rw [List.filter_cons_of_neg (by simpa using he)]
      simp only [List.find?_cons, hq]
      exact ih
    · rw [List.filter_cons_of_pos (by simpa using he)]
      by_cases hq : e.1 = q
      · have hq2 : decide (e.1 = q) = true := decide_eq_true hq
        simp only [List.find?_cons, hq2]
      · have hq2 : decide (e.1 = q) = false := decide_eq_false hq
        simp only [List.find?_cons, hq2]
        exact ih

theorem FS.get_put_other (fs : FS) (p q : GoString) (n : Node) (h : q ≠ p) :
    (fs.put p n).get q = fs.get q := by
  have h1 := FS.get_filter_ne fs p q h
  have hq : decide (p = q) = false := decide_eq_false (fun e => h e.symm)
  simp only [FS.get] at h1 ⊢
  simp only [FS.put, List.find?_cons, hq]
  exact h1

end os

namespace file

theorem copyFile_ok (env : Env) (a b : GoString) (w w1 : World) (c : GoString) (n : Nat)
    (ha : w.fs.get a = some (os.Node.file c)) (hne : b ≠ a)
    (hcopy : copyFile env a b w = (w1, some n)) :
    w1.fs.get b = some (os.Node.file c) ∧ w1.fs.get a = some (os.Node.file c)
    ∧ n = c.length := by
  unfold copyFile at hcopy
  cases ho : os.Open env w.fs a with
  | none => rw [ho] at hcopy; simp at hcopy
  | some src =>
    rw [ho] at hcopy
    simp only at hcopy
    cases hc : os.Create env w.fs b with
    | none => rw [hc] at hcopy; simp at hcopy
    | some fs1 =>
      rw [hc] at hcopy
      simp only at hcopy
      have hfs1 : fs1 = w.fs.put b (os.Node.file []) := by
        unfold os.Create at hc
        split at hc
        · simp at hc
        · simpa using hc.symm
      have hget : fs1.get a = some (os.Node.file c) := by
        rw [hfs1, os.FS.get_put_other _ _ _ _ hne.symm, ha]
      rw [hget] at hcopy
      simp only at hcopy
      split at hcopy
      · simp at hcopy
      · simp only [Prod.mk.injEq, Option.some.injEq] at hcopy
        obtain ⟨hw, hn⟩ := hcopy
        subst hw
        refine ⟨os.FS.get_put_same _ _ _, ?_, hn.symm⟩
        simp only
        rw [os.FS.get_put_other _ _ _ _ hne.symm, hget]

/-- C17 (as amended): for every local artifact given by its cleaned absolute path, every
absolute file target directory and every remote name such that the target path joined with the
remote name is not the path of the artifact (the filesystem has no links: two different
cleaned absolute paths are two files), after a successful `File.Push` the file at the target
path joined with the remote name holds exactly the bytes of the artifact, the artifact is
unchanged, and the number returned is the size of the artifact; a following successful
`File.Pull` of that path to another cleaned absolute local path reproduces the same bytes there
and leaves the pushed file as it is. -/
theorem File_Push_then_Pull (env : Env) (creds : Creds) (u : url.URL)
    (target source content : GoString) (w w1 : World) (n : Nat)
    (hsrc : w.fs.get source = some (os.Node.file content))
    (hsrcAbs : strings.HasPrefix source ['/'] = true)
    (hsrcClean : path.Clean source = source)
    (hdirAbs : strings.HasPrefix u.Path ['/'] = true)
    (hne : filepath.Join [u.Path, target] ≠ source)
    (hpush : Push env creds u target source w = (w1, some n)) :
    w1.fs.get (filepath.Join [u.Path, target]) = some (os.Node.file content)
    ∧ w1.fs.get source = some (os.Node.file content)
    ∧ n = content.length
    ∧ (∀ (u2 : url.URL) (localPath : GoString) (w2 : World) (m : Nat),
        u2.Path = filepath.Join [u.Path, target] →
        strings.HasPrefix localPath ['/'] = true →
        path.Clean localPath = localPath →
        localPath ≠ filepath.Join [u.Path, target] →
        Pull env creds u2 localPath w1 = (w2, some m) →
        w2.fs.get localPath = some (os.Node.file content)
        ∧ w2.fs.get (filepath.Join [u.Path, target]) = some (os.Node.file content)
        ∧ m = content.length) := by
  have _ := hsrcAbs
  have _ := hsrcClean
  have _ := hdirAbs
  obtain ⟨h1, h2, h3⟩ := copyFile_ok env source _ w w1 content n hsrc hne hpush
  refine ⟨h1, h2, h3, fun u2 localPath w2 m hu _ _ hl hpull => ?_⟩
  unfold Pull at hpull
  rw [hu] at hpull
  exact copyFile_ok env _ localPath w1 w2 content m h1 hl hpull

/-- C17, for the artifact `/tmp/db.tgz` pushed to the existing directory `/backups` as
`db.tgz`: the push returns 4, the file `/backups/db.tgz` holds the 4 bytes of the artifact and
the artifact is unchanged. -/
theorem File_Push_then_Pull_witness :
    core.pushWorld.fs.get "/tmp/db.tgz".toList = some (os.Node.file "DATA".toList)
    ∧ core.pushWorld.fs.get "/backups".toList = some os.Node.dir
    ∧ path.Clean "/tmp/db.tgz".toList = "/tmp/db.tgz".toList
    ∧ filepath.Join ["/backups".toList, "db.tgz".toList] = "/backups/db.tgz".toList
    ∧ (Push core.quietEnv ⟨[], []⟩ ⟨"file".toList, [], none, [], "/backups".toList, [], []⟩
        "db.tgz".toList "/tmp/db.tgz".toList core.pushWorld).2 = some 4
    ∧ (Push core.quietEnv ⟨[], []⟩ ⟨"file".toList, [], none, [], "/backups".toList, [], []⟩
        "db.tgz".toList "/tmp/db.tgz".toList core.pushWorld).1.fs.get
        (filepath.Join ["/backups".toList, "db.tgz".toList])
      = some (os.Node.file "DATA".toList)
    ∧ (Push core.quietEnv ⟨[], []⟩ ⟨"file".toList, [], none, [], "/backups".toList, [], []⟩
        "db.tgz".toList "/tmp/db.tgz".toList core.pushWorld).1.fs.get "/tmp/db.tgz".toList
      = some (os.Node.file "DATA".toList) :=
  ⟨by decide, by decide, by decide, by decide, by decide,
    (File_Push_then_Pull core.quietEnv ⟨[], []⟩
      ⟨"file".toList, [], none, [], "/backups".toList, [], []⟩
      "db.tgz".toList "/tmp/db.tgz".toList "DATA".toList core.pushWorld
      (Push core.quietEnv ⟨[], []⟩ ⟨"file".toList, [], none, [], "/backups".toList, [], []⟩
        "db.tgz".toList "/tmp/db.tgz".toList core.pushWorld).1 4
      (by decide) (by decide) (by decide) (by decide) (by decide) (by decide)).1,
    by decide⟩

/-- C17 as stated fails: the artifact is `/backups/db.tgz`, the target directory `/backups`
and the remote name `db.tgz`.  `File.Push` succeeds (it returns 0 bytes and no error), and
after it the artifact is empty: `copyFile` creates, that is truncates, the destination before
it reads the source, and here they are the same file. -/
theorem File_Push_onto_itself_truncates :
    core.sampleWorld.fs.get "/backups/db.tgz".toList
        = some (os.Node.file "INSERT INTO t VALUES (1);\n".toList)
    ∧ (Push core.quietEnv ⟨[], []⟩ ⟨"file".toList, [], none, [], "/backups".toList, [], []⟩
        "db.tgz".toList "/backups/db.tgz".toList core.sampleWorld).2 = some 0
    ∧ (Push core.quietEnv ⟨[], []⟩ ⟨"file".toList, [], none, [], "/backups".toList, [], []⟩
        "db.tgz".toList "/backups/db.tgz".toList core.sampleWorld).1.fs.get
        "/backups/db.tgz".toList = some (os.Node.file []) := by
  decide

end file

/-! ## Theorems: the order of the replay -/

namespace database

theorem txState_append_single (tr : List Call) (c : Call) :
    txState (tr ++ [c]) = txStep (txState tr) c := by
  simp [txState, List.foldl_append]

theorem specExec_txState (db : Conn) (ss : List GoString) :
    ∀ tr, txState tr = TxState.inTx →
      txState (specExec db tr ss).1
        = if (specExec db tr ss).2 = none then TxState.inTx else TxState.rolledBack := by
  induction ss with
  | nil => intro tr h; simp [specExec, h]
  | cons s ss ih =>
    intro tr h
    by_cases hf : db.execFails tr s
    · have h1 : txState (tr ++ [Call.exec s, Call.rollback]) = TxState.rolledBack := by
        have : tr ++ [Call.exec s, Call.rollback] = (tr ++ [Call.exec s]) ++ [Call.rollback] := by
          simp
        rw [this, txState_append_single, txState_append_single, h]
        rfl
      simp [specExec, hf, h1]
    · have h1 : txState (tr ++ [Call.exec s]) = TxState.inTx := by
        rw [txState_append_single, h]; rfl
      simp only [specExec, hf, Bool.false_eq_true, if_false]
      exact ih _ h1

theorem restoreUnit_txState (db : Conn) (tr : List Call) (r : bufio.Reader)
    (h : txState tr = TxState.idle) :
    txState (restoreUnit db tr r).1 ≠ TxState.invalid
    ∧ ((restoreUnit db tr r).2 = none → txState (restoreUnit db tr r).1 = TxState.idle) := by
  have hbegin : txState (tr ++ [Call.beginTx]) = TxState.inTx := by
    rw [txState_append_single, h]; rfl
  by_cases hb : db.beginFails tr
  · rw [restoreUnit_of_beginFails db tr r hb, hbegin]
    exact ⟨by decide, fun h2 => by simp at h2⟩
  · have hb1 : db.beginFails tr = false := by simpa using hb
    have hs := specExec_txState db (specSplit [] (bufio.scan r).1) _ hbegin
    rw [← replay_eq_specExec] at hs
    rcases hr : replay db (tr ++ [Call.beginTx]) [] (bufio.scan r).1 with ⟨tr1, _ | e⟩
    · rw [hr] at hs
      simp only [if_true] at hs
      rw [restoreUnit_of_replay_ok db tr tr1 r hb1 hr]
      have h3 : txState (tr1 ++ [Call.commit]) = TxState.idle := by
        rw [txState_append_single, hs]; rfl
      simp only [h3]
      exact ⟨by decide, fun _ => trivial⟩
    · rw [hr] at hs
      simp only [reduceCtorEq, if_false] at hs
      rw [restoreUnit_of_replay_err db tr tr1 r e hb1 hr]
      simp only [hs]
      exact ⟨by decide, fun h2 => by simp at h2⟩

theorem restoreUnits_txState (db : Conn) (rs : List bufio.Reader) :
    ∀ tr, txState tr = TxState.idle →
      txState (restoreUnits db tr rs).1 ≠ TxState.invalid
      ∧ ((restoreUnits db tr rs).2 = none → txState (restoreUnits db tr rs).1 = TxState.idle) := by
  induction rs with
  | nil => intro tr h; simp [restoreUnits, h]
  | cons r rs ih =>
    intro tr h
    obtain ⟨u1, u2⟩ := restoreUnit_txState db tr r h
    rcases hu : restoreUnit db tr r with ⟨tr1, _ | e⟩
    · rw [hu] at u2
      rw [restoreUnits_cons_ok db _ _ _ _ hu]
      exact ih tr1 (u2 rfl)
    · rw [hu] at u1
      rw [restoreUnits_cons_err db _ _ _ _ _ hu]
      exact ⟨u1, fun h2 => by simp at h2⟩

theorem specExec_begins (db : Conn) (ss : List GoString) (iso : IsolationLevel) :
    ∀ tr, Call.beginTxWith iso ∈ (specExec db tr ss).1 → Call.beginTxWith iso ∈ tr := by
  induction ss with
  | nil => intro tr h; simpa [specExec] using h
  | cons s ss ih =>
    intro tr h
    by_cases hf : db.execFails tr s
    · simpa [specExec, hf] using h
    · simp only [specExec, hf, Bool.false_eq_true, if_false] at h
      simpa using ih _ h

theorem restoreUnit_begins (db : Conn) (tr : List Call) (r : bufio.Reader)
    (iso : IsolationLevel) (h : Call.beginTxWith iso ∈ (restoreUnit db tr r).1) :
    Call.beginTxWith iso ∈ tr ∨ iso = IsolationLevel.LevelSerializable := by
  by_cases hb : db.beginFails tr
  · rw [restoreUnit_of_beginFails db tr r hb] at h
    simpa using h
  · have hb1 : db.beginFails tr = false := by simpa using hb
    have hs := specExec_begins db (specSplit [] (bufio.scan r).1) iso (tr ++ [Call.beginTx])
    rw [← replay_eq_specExec] at hs
    rcases hr : replay db (tr ++ [Call.beginTx]) [] (bufio.scan r).1 with ⟨tr1, _ | e⟩
    · rw [hr] at hs
      rw [restoreUnit_of_replay_ok db tr tr1 r hb1 hr] at h
      simp only [List.mem_append, List.mem_singleton, reduceCtorEq, or_false] at h
      simpa using hs h
    · rw [hr] at hs
      rw [restoreUnit_of_replay_err db tr tr1 r e hb1 hr] at h
      simpa using hs h

theorem restoreUnits_begins (db : Conn) (rs : List bufio.Reader) (iso : IsolationLevel) :
    ∀ tr, Call.beginTxWith iso ∈ (restoreUnits db tr rs).1 →
      Call.beginTxWith iso ∈ tr ∨ iso = IsolationLevel.LevelSerializable := by
  induction rs with
  | nil => intro tr h; left; simpa [restoreUnits] using h
  | cons r rs ih =>
    intro tr h
    rcases hu : restoreUnit db tr r with ⟨tr1, _ | e⟩
    · rw [restoreUnits_cons_ok db _ _ _ _ hu] at h
      rcases ih tr1 h with h1 | h1
      · have := restoreUnit_begins db tr r iso (by rw [hu]; exact h1)
        exact this
      · exact Or.inr h1
    · rw [restoreUnits_cons_err db _ _ _ _ _ hu] at h
      exact restoreUnit_begins db tr r iso (by rw [hu]; exact h)

theorem restoreUnits_allOk (db : Conn) (hb : ∀ h, db.beginFails h = false)
    (he : ∀ h s, db.execFails h s = false) (hc : ∀ h, db.commitFails h = false)
    (rs : List bufio.Reader) :
    ∀ tr, restoreUnits db tr rs = (tr ++ (rs.map unitCalls).flatten, none) := by
  induction rs with
  | nil => intro tr; simp [restoreUnits]
  | cons r rs ih =>
    intro tr
    have hr : replay db (tr ++ [Call.beginTx]) [] (bufio.scan r).1
        = (tr ++ [Call.beginTx] ++ (specSplit [] (bufio.scan r).1).map Call.exec, none) := by
      rw [replay_eq_specExec, specExec_allOk db he]
    have hu := restoreUnit_of_replay_ok db tr _ r (hb tr) hr
    rw [hc] at hu
    rw [restoreUnits_cons_ok db _ _ _ _ hu, ih]
    simp [unitCalls]

end database

namespace core

theorem openReaders_eq (env : Env) (fs : os.FS) (tmpdir : GoString)
    (files : List (GoString × os.Node)) :
    openReaders env fs tmpdir files
      = (files.filter (replayed env fs tmpdir)).map (readerOf env fs tmpdir) := by
  induction files with
  | nil => rfl
  | cons f files ih =>
    rcases f with ⟨name, node⟩
    cases node with
    | dir => simp [openReaders, replayed, ih]
    | file content =>
      cases ho : os.Open env fs (tmpdir ++ '/' :: name) with
      | none => simp [openReaders, replayed, ho, ih]
      | some n =>
        cases n with
        | dir => simp [openReaders, replayed, readerOf, ho, ih]
        | file c => simp [openReaders, replayed, readerOf, ho, ih]

theorem restoreFromTmp_db (env : Env) (target : GoString) (w : World) (content plain : GoString)
    (ho : os.Open env w.fs tmpRestoreFile = some (os.Node.file content))
    (hu : env.uncompress content = some plain) (ht : (env.untar plain).2 = false)
    (hr : env.readDirFails = false) :
    (restoreFromTmp env target w).1.db
      = w.db ++ (database.Restore env.db
          (openReaders env
            (writeEntries env.tmpdir (w.fs.remove tmpRestoreFile) (env.untar plain).1)
            env.tmpdir
            (os.ReadDir
              (writeEntries env.tmpdir (w.fs.remove tmpRestoreFile) (env.untar plain).1)
              env.tmpdir))).1 := by
  simp only [restoreFromTmp, ho, hu, ht, hr, Bool.false_eq_true, if_false]
  split
  · rfl
  · simp only [postRestore, runScripts]
    split
    · rename_i h
      rw [← (Prod.mk.inj h).1]
    · rename_i h
      rw [← (Prod.mk.inj h).1]

/-- C18 (as amended): for every extracted artifact, `Restore` replays the extracted entries
strictly sequentially in directory-listing order, skipping the directories and the entries
that do not open, with one serializable-isolation transaction per replayed entry.  The readers
handed to the database are, in the order of the listing, the entries that are not directories
and that open; when no call on the database fails, the calls made are, reader after reader,
`BEGIN`, the statements of the reader, `COMMIT`, so that the `k`-th transaction begun carries
the statements of the `k`-th replayed entry; in every run, whatever fails, every call is made
in its place (a transaction begins only when none is open, nothing follows a rollback) and the
run that returns no error ends with no transaction open; every transaction is begun with the
isolation level `LevelSerializable`; and these calls are what `Restore` adds to the calls on
the database once the artifact is extracted. -/
theorem Restore_replays_entries_in_order (env : Env) (fs : os.FS)
    (ho : env.db.openFails = false) (hb : ∀ h, env.db.beginFails h = false)
    (he : ∀ h s, env.db.execFails h s = false) (hc : ∀ h, env.db.commitFails h = false) :
    openReaders env fs env.tmpdir (os.ReadDir fs env.tmpdir)
        = ((os.ReadDir fs env.tmpdir).filter (replayed env fs env.tmpdir)).map
            (readerOf env fs env.tmpdir)
    ∧ database.Restore env.db (openReaders env fs env.tmpdir (os.ReadDir fs env.tmpdir))
        = (((((os.ReadDir fs env.tmpdir).filter (replayed env fs env.tmpdir)).map
            (readerOf env fs env.tmpdir)).map database.unitCalls).flatten, none)
    ∧ (∀ db rs, database.txState (database.Restore db rs).1 ≠ database.TxState.invalid
        ∧ ((database.Restore db rs).2 = none →
            database.txState (database.Restore db rs).1 = database.TxState.idle))
    ∧ (∀ db rs iso, database.Call.beginTxWith iso ∈ (database.Restore db rs).1 →
        iso = database.IsolationLevel.LevelSerializable)
    ∧ (∀ target w content plain,
        os.Open env w.fs tmpRestoreFile = some (os.Node.file content) →
        env.uncompress content = some plain → (env.untar plain).2 = false →
        env.readDirFails = false →
        fs = writeEntries env.tmpdir (w.fs.remove tmpRestoreFile) (env.untar plain).1 →
        (restoreFromTmp env target w).1.db
          = w.db ++ (database.Restore env.db
              (openReaders env fs env.tmpdir (os.ReadDir fs env.tmpdir))).1) := by
  refine ⟨openReaders_eq _ _ _ _, ?_, fun db rs => ?_, fun db rs iso h => ?_,
    fun target w content plain h1 h2 h3 h4 h5 => ?_⟩
  · rw [openReaders_eq]
    unfold database.Restore
    rw [if_neg (by simp [ho]), database.restoreUnits_allOk env.db hb he hc]
    simp
  · unfold database.Restore
    by_cases hop : db.openFails
    · simp only [hop, if_true]
      exact ⟨by decide, fun h => by simp at h⟩
    · simp only [hop, Bool.false_eq_true, if_false]
      exact database.restoreUnits_txState db rs [] rfl
  · unfold database.Restore at h
    by_cases hop : db.openFails
    · simp [hop] at h
    · simp only [hop, Bool.false_eq_true, if_false] at h
      rcases database.restoreUnits_begins db rs iso [] h with h1 | h1
      · simp at h1
      · exact h1
  · rw [h5]
    exact restoreFromTmp_db env target w content plain h1 h2 h3 h4

/-- C18, for an archive with the directory `d` and the files `a.sql` and `b.sql`: two
transactions, the first with the statement of `a.sql`, the second with that of `b.sql`. -/
theorem Restore_replays_entries_in_order_witness :
    (os.ReadDir
        (writeEntries threeEntriesEnv.tmpdir [] (threeEntriesEnv.untar []).1)
        threeEntriesEnv.tmpdir).map (fun f => f.1)
      = ["a.sql".toList, "b.sql".toList, "d".toList]
    ∧ database.Restore threeEntriesEnv.db
        (openReaders threeEntriesEnv
          (writeEntries threeEntriesEnv.tmpdir [] (threeEntriesEnv.untar []).1)
          threeEntriesEnv.tmpdir
          (os.ReadDir
            (writeEntries threeEntriesEnv.tmpdir [] (threeEntriesEnv.untar []).1)
            threeEntriesEnv.tmpdir))
      = ([database.Call.beginTx, database.Call.exec "A;\n".toList, database.Call.commit,
          database.Call.beginTx, database.Call.exec "B;\n".toList, database.Call.commit],
          none) :=
  ⟨by decide,
    (Restore_replays_entries_in_order threeEntriesEnv
      (writeEntries threeEntriesEnv.tmpdir [] (threeEntriesEnv.untar []).1)
      rfl (fun _ => rfl) (fun _ _ => rfl) (fun _ => rfl)).2.1.trans (by decide)⟩

/-- C18 as stated fails: the archive holds the files `a.sql` and `b.sql` (and the directory
`d`), and `a.sql` cannot be opened after it was extracted.  The listing is `a.sql`, `b.sql`,
`d`; `Restore` returns no error, and the first and only transaction it begins carries the
statement of `b.sql`, the second non-directory entry, not that of the first. -/
theorem Restore_first_transaction_is_second_entry :
    (os.ReadDir
        (writeEntries twoFilesEnv.tmpdir [] (twoFilesEnv.untar []).1)
        twoFilesEnv.tmpdir)
      = [("a.sql".toList, os.Node.file "A;\n".toList),
          ("b.sql".toList, os.Node.file "B;\n".toList), ("d".toList, os.Node.dir)]
    ∧ (Restore twoFilesEnv "/backups/db.tgz".toList ⟨[], []⟩ sampleWorld).2 = none
    ∧ (Restore twoFilesEnv "/backups/db.tgz".toList ⟨[], []⟩ sampleWorld).1.db
      = [database.Call.beginTx, database.Call.exec "B;\n".toList, database.Call.commit] := by
  decide

end core

/-! ## The `dump` command -/

namespace cmd

theorem dumpCmdRunE_of_targets
    (TimerDump : core.DumpOptions → core.TimerOptions → Nat × core.Outcome)
    (v : viper.Viper) (dbconn : database.Connection) (creds : Creds)
    (compressor : Option GoString) (ht : (v.GetStringSlice "target".toList).length ≠ 0) :
    dumpCmdRunE TimerDump v dbconn creds compressor
      = ((TimerDump (dumpOptions v dbconn creds compressor) (timerOptions v)).1,
          match (TimerDump (dumpOptions v dbconn creds compressor) (timerOptions v)).2 with
          | core.Outcome.returned err => Result.returned err
          | core.Outcome.running => Result.running) := by
  unfold dumpCmdRunE
  rw [if_neg ht]
  rcases TimerDump (dumpOptions v dbconn creds compressor) (timerOptions v) with ⟨n, o⟩
  rcases o with (_ | e) | _ <;> rfl

/-- C19: with `Once` set, scheduling ignores cron, begin and frequency, runs exactly one backup
cycle and returns right after it, and the error of the cycle reaches the caller.  For a `dump`
command with at least one target and `once` set: whatever the cron expression, the begin time
and the frequency are, and however many triggers would fire under any recurring policy,
`TimerDump` runs one cycle and returns the result of that cycle; the command runs one cycle
as well and returns the error of the cycle, `nil` when the cycle succeeds; and for every
`TimerDump` the command runs what `TimerDump` runs and returns an error exactly when
`TimerDump` returns that error, and `nil` exactly when `TimerDump` returns `nil`. -/
theorem dumpCmd_once_runs_one_cycle (v : viper.Viper) (dbconn : database.Connection)
    (creds : Creds) (compressor : Option GoString)
    (cycle : core.DumpOptions → Nat → Option GoString) (triggers : core.SchedulePolicy → Nat)
    (ht : (v.GetStringSlice "target".toList).length ≠ 0)
    (ho : v.GetBool "once".toList = true) :
    (∀ opts cron begin frequency,
        core.policyOf ⟨true, cron, begin, frequency⟩ = core.SchedulePolicy.Once
        ∧ core.TimerDump cycle triggers opts ⟨true, cron, begin, frequency⟩
          = (1, core.Outcome.returned (cycle opts 0)))
    ∧ dumpCmdRunE (core.TimerDump cycle triggers) v dbconn creds compressor
        = (1, Result.returned (cycle (dumpOptions v dbconn creds compressor) 0))
    ∧ (cycle (dumpOptions v dbconn creds compressor) 0 = none →
        dumpCmdRunE (core.TimerDump cycle triggers) v dbconn creds compressor
          = (1, Result.returned none))
    ∧ (∀ TimerDump err,
        (dumpCmdRunE TimerDump v dbconn creds compressor).1
          = (TimerDump (dumpOptions v dbconn creds compressor) (timerOptions v)).1
        ∧ ((dumpCmdRunE TimerDump v dbconn creds compressor).2 = Result.returned err
          ↔ (TimerDump (dumpOptions v dbconn creds compressor) (timerOptions v)).2
              = core.Outcome.returned err)) := by
  have hrun : dumpCmdRunE (core.TimerDump cycle triggers) v dbconn creds compressor
      = (1, Result.returned (cycle (dumpOptions v dbconn creds compressor) 0)) := by
    have hT : core.TimerDump cycle triggers (dumpOptions v dbconn creds compressor)
        (timerOptions v)
        = (1, core.Outcome.returned (cycle (dumpOptions v dbconn creds compressor) 0)) := by
      simp only [core.TimerDump, core.policyOf, timerOptions]
      rw [if_pos ho]
    rw [dumpCmdRunE_of_targets _ v dbconn creds compressor ht, hT]
  refine ⟨fun opts cron begin frequency => ⟨rfl, rfl⟩, hrun, fun h => by rw [hrun, h],
    fun TimerDump err => ?_⟩
  rw [dumpCmdRunE_of_targets TimerDump v dbconn creds compressor ht]
  refine ⟨rfl, ?_⟩
  rcases (TimerDump (dumpOptions v dbconn creds compressor) (timerOptions v)).2 with e | _
  · simp
  · simp

/-- C19 for `dump --once --cron "* * * * *" --target /backups` with a cycle that fails: one
cycle runs, although the cron expression is set and 7 triggers would fire under a recurring
policy, and the command returns the error of the cycle. -/
theorem dumpCmd_once_runs_one_cycle_witness :
    dumpCmdRunE (core.TimerDump (fun _ _ => some "boom".toList) (fun _ => 7))
        (dumpViper
          (setFlag (setFlag (setFlag dumpFlags "once".toList (viper.Value.bool true))
            "cron".toList (viper.Value.str "* * * * *".toList))
            "target".toList (viper.Value.strs ["/backups".toList])) [])
        ⟨[], [], [], 3306⟩ ⟨[], []⟩ none
      = (1, Result.returned (some "boom".toList)) :=
  (dumpCmd_once_runs_one_cycle
    (dumpViper
      (setFlag (setFlag (setFlag dumpFlags "once".toList (viper.Value.bool true))
        "cron".toList (viper.Value.str "* * * * *".toList))
        "target".toList (viper.Value.strs ["/backups".toList])) [])
    ⟨[], [], [], 3306⟩ ⟨[], []⟩ none (fun _ _ => some "boom".toList) (fun _ => 7)
    (by decide) (by decide)).2.1

/-- C20, the code at the failing input `dump --by-schema=true --target /backups`: the flag
`by-schema` is set to true on the command line and the `DumpOptions` have `BySchema = false`,
since the options read the key `byschema`, which is the name of no flag.  The same holds for
every value of the flag; the sibling flag `keep-permissions`, read under its own name, is
followed; and `BySchema` is true when the environment variable `DB_DUMP_BYSCHEMA` of the key
that is read holds `true`, the flag being unset. -/
theorem dumpOptions_ignores_by_schema_flag :
    (viper.find
        (dumpViper
          (setFlag (setFlag dumpFlags "by-schema".toList (viper.Value.bool true))
            "target".toList (viper.Value.strs ["/backups".toList])) [])
        "by-schema".toList) = some (viper.Value.bool true)
    ∧ (dumpOptions
        (dumpViper
          (setFlag (setFlag dumpFlags "by-schema".toList (viper.Value.bool true))
            "target".toList (viper.Value.strs ["/backups".toList])) [])
        ⟨[], [], [], 3306⟩ ⟨[], []⟩ none).BySchema = false
    ∧ (∀ b : Bool,
        (dumpOptions
          (dumpViper
            (setFlag (setFlag dumpFlags "by-schema".toList (viper.Value.bool b))
              "target".toList (viper.Value.strs ["/backups".toList])) [])
          ⟨[], [], [], 3306⟩ ⟨[], []⟩ none).BySchema = false)
    ∧ (∀ b : Bool,
        (dumpOptions
          (dumpViper
            (setFlag (setFlag dumpFlags "keep-permissions".toList (viper.Value.bool b))
              "target".toList (viper.Value.strs ["/backups".toList])) [])
          ⟨[], [], [], 3306⟩ ⟨[], []⟩ none).KeepPermissions = b)
    ∧ (dumpOptions
        (dumpViper
          (setFlag dumpFlags "target".toList (viper.Value.strs ["/backups".toList]))
          [("DB_DUMP_BYSCHEMA".toList, "true".toList)])
        ⟨[], [], [], 3306⟩ ⟨[], []⟩ none).BySchema = true := by
  decide

end cmd

/-! ## The SMB credential string and the SMB path -/

namespace strings

theorem Cut_eq_some (sep : Char) (s : GoString) :
    ∀ before after, Cut sep s = some (before, after) →
      s = before ++ sep :: after ∧ sep ∉ before := by
  induction s with
  | nil => intro before after h; simp [Cut] at h
  | cons c s ih =>
    intro before after h
    by_cases hc : c = sep
    · simp only [Cut, hc, if_true, Option.some.injEq, Prod.mk.injEq] at h
      obtain ⟨h1, h2⟩ := h
      subst h1 h2
      simp [hc]
    · simp only [Cut, hc, if_false] at h
      cases hcut : Cut sep s with
      | none => simp [hcut] at h
      | some p =>
        rcases p with ⟨b, a⟩
        simp only [hcut, Option.some.injEq, Prod.mk.injEq] at h
        obtain ⟨h1, h2⟩ := h
        obtain ⟨e, hn⟩ := ih b a hcut
        subst h1 h2
        refine ⟨by rw [e]; simp, ?_⟩
        intro hm
        rcases List.mem_cons.1 hm with hm | hm
        · exact hc hm.symm
        · exact hn hm

theorem Cut_of_mem (sep : Char) (s : GoString) (h : sep ∈ s) :
    ∃ before after, sep ∉ before ∧ s = before ++ sep :: after := by
  cases hcut : Cut sep s with
  | none =>
    exfalso
    induction s with
    | nil => simp at h
    | cons c s ih =>
      by_cases hc : c = sep
      · simp [Cut, hc] at hcut
      · simp only [Cut, hc, if_false] at hcut
        cases hs : Cut sep s with
        | none =>
          rcases List.mem_cons.1 h with h | h
          · exact hc h.symm
          · exact ih h hs
        | some p => simp [hs] at hcut
  | some p =>
    rcases p with ⟨b, a⟩
    obtain ⟨e, hn⟩ := Cut_eq_some sep s b a hcut
    exact ⟨b, a, hn, e⟩

end strings

namespace smb

/-- C23: for every SMB user name that is not empty and holds no `%`, and for every password
(one that holds `%` too), the credential string that the root command composes, the user name,
a `%` and the password, is split again by the SMB backend into exactly that user name and
that password.  The split at the first `%` gives the two parts, the login of `smbCommand` uses
them whatever user information the URL holds, and they are what the NTLM login is made
with. -/
theorem rootCreds_round_trip (awsEndpointURL user pass : GoString) (u : url.URL)
    (hne : user ≠ []) (hp : '%' ∉ user) :
    (cmd.rootCreds awsEndpointURL user pass).SMBCredentials = user ++ '%' :: pass
    ∧ strings.SplitN (cmd.rootCreds awsEndpointURL user pass).SMBCredentials '%' = [user, pass]
    ∧ credentialsOf (cmd.rootCreds awsEndpointURL user pass) u = (user, pass)
    ∧ (∀ env push remoteFilename filename w, env.dialFails u.Hostname = false →
        ∃ rest,
          (smbCommand env push (cmd.rootCreds awsEndpointURL user pass) u remoteFilename
              filename w).1.log
            = w.log ++ Event.netDial u.Hostname :: Event.smbLogin user pass :: rest) := by
  have hc : credentialsOf (cmd.rootCreds awsEndpointURL user pass) u = (user, pass) := by
    rw [credentialsOf_config (cmd.rootCreds awsEndpointURL user pass) u user pass hp
      (Or.inl rfl)]
    cases u.User <;> simp [hne]
  refine ⟨rfl, strings.SplitN_append_sep '%' user pass hp, hc, ?_⟩
  intro env push remoteFilename filename w hd
  have h := smbCommand_log env push (cmd.rootCreds awsEndpointURL user pass) u remoteFilename
    filename w hd
  rw [hc] at h
  exact h

/-- C23, for the user name `alice` and the password `p%w%`, with a URL that names another
user: the credential string is `alice%p%w%` and the backend logs in as `alice` with `p%w%`. -/
theorem rootCreds_round_trip_witness :
    "alice".toList ≠ [] ∧ '%' ∉ "alice".toList
    ∧ (cmd.rootCreds [] "alice".toList "p%w%".toList).SMBCredentials = "alice%p%w%".toList
    ∧ credentialsOf (cmd.rootCreds [] "alice".toList "p%w%".toList)
        ⟨"smb".toList, [], some ⟨"bob".toList, "pw".toList, true⟩, "host".toList,
          "/share/db.tgz".toList, [], []⟩
      = ("alice".toList, "p%w%".toList) :=
  ⟨by decide, by decide, by decide,
    (rootCreds_round_trip [] "alice".toList "p%w%".toList
      ⟨"smb".toList, [], some ⟨"bob".toList, "pw".toList, true⟩, "host".toList,
        "/share/db.tgz".toList, [], []⟩ (by decide) (by decide)).2.2.1⟩

/-- C24: for every path, `parseSMBPath` returns a share that holds no `/` and a share path
such that the share followed by the share path is the path; when the path holds no `/`, the
share is the whole path and the share path is empty; and when it holds one, the share is the
text before the first `/` and the share path is the rest, from that `/` on. -/
theorem parseSMBPath_splits (path : GoString) :
    '/' ∉ (parseSMBPath path).1
    ∧ (parseSMBPath path).1 ++ (parseSMBPath path).2 = path
    ∧ ('/' ∉ path → parseSMBPath path = (path, []))
    ∧ (∀ share rest, '/' ∉ share → path = share ++ '/' :: rest →
        parseSMBPath path = (share, '/' :: rest)) := by
  have hsome : ∀ share rest, '/' ∉ share → path = share ++ '/' :: rest →
      parseSMBPath path = (share, '/' :: rest) := by
    intro share rest hs hpath
    simp [parseSMBPath, hpath, strings.SplitN_append_sep '/' share rest hs]
  have hnone : '/' ∉ path → parseSMBPath path = (path, []) := by
    intro h
    simp [parseSMBPath, strings.SplitN_of_not_mem '/' path h]
  have hfirst : '/' ∉ (parseSMBPath path).1
      ∧ (parseSMBPath path).1 ++ (parseSMBPath path).2 = path := by
    by_cases hm : '/' ∈ path
    · obtain ⟨share, rest, hs, e⟩ := strings.Cut_of_mem '/' path hm
      rw [hsome share rest hs e]
      exact ⟨hs, e.symm⟩
    · rw [hnone hm]
      exact ⟨hm, by simp⟩
  exact ⟨hfirst.1, hfirst.2, hnone, hsome⟩

end smb

/-! ## The text after the last terminated statement -/

namespace database

theorem specSplit_unterminated (post : List GoString)
    (h : ∀ l ∈ post, l.getLast? ≠ some ';') : ∀ cur, specSplit cur post = [] := by
  induction post with
  | nil => intro cur; rfl
  | cons l post ih =>
    intro cur
    have hl : l.getLast? ≠ some ';' := h l (List.mem_cons_self _ _)
    have hp : ∀ x ∈ post, x.getLast? ≠ some ';' := fun x hx => h x (List.mem_cons_of_mem _ hx)
    by_cases he : l = []
    · simp [specSplit, he, ih hp]
    · simp [specSplit, he, hl, ih hp]

theorem specSplit_append_unterminated (pre post : List GoString)
    (h : ∀ l ∈ post, l.getLast? ≠ some ';') :
    ∀ cur, specSplit cur (pre ++ post) = specSplit cur pre := by
  induction pre with
  | nil => intro cur; simp [specSplit, specSplit_unterminated post h]
  | cons l pre ih =>
    intro cur
    by_cases he : l = []
    · simp [specSplit, he, ih]
    · by_cases hs : l.getLast? = some ';'
      · simp [specSplit, he, hs, ih]
      · simp [specSplit, he, hs, ih]

theorem pending_append (a b : List GoString) :
    ∀ cur, pending cur (a ++ b) = pending (pending cur a) b := by
  induction a with
  | nil => intro cur; rfl
  | cons l a ih =>
    intro cur
    by_cases he : l = []
    · simp [pending, he, ih]
    · by_cases hs : l.getLast? = some ';'
      · simp [pending, he, hs, ih]
      · simp [pending, he, hs, ih]

theorem pending_unterminated (post : List GoString)
    (h : ∀ l ∈ post, l.getLast? ≠ some ';') :
    ∀ cur, pending cur post
      = cur ++ ((post.filter (fun l => l ≠ [])).map (fun l => l ++ ['\n'])).flatten := by
  induction post with
  | nil => intro cur; simp [pending]
  | cons l post ih =>
    intro cur
    have hl : l.getLast? ≠ some ';' := h l (List.mem_cons_self _ _)
    have hp : ∀ x ∈ post, x.getLast? ≠ some ';' := fun x hx => h x (List.mem_cons_of_mem _ hx)
    by_cases he : l = []
    · simp [pending, he, ih hp]
    · simp [pending, he, hl, ih hp]

theorem pending_of_terminated (pre : List GoString) (l : GoString)
    (h1 : pre.getLast? = some l) (h2 : l.getLast? = some ';') :
    ∀ cur, pending cur pre = [] := by
  intro cur
  obtain ⟨init, rfl⟩ : ∃ init, pre = init ++ [l] := by
    rcases List.eq_nil_or_concat pre with e | ⟨init, x, e⟩
    · simp [e] at h1
    · refine ⟨init, ?_⟩
      rw [e] at h1
      simp at h1
      rw [e, h1]
      simp
  have hne : l ≠ [] := by
    intro e
    simp [e] at h2
  rw [pending_append]
  simp [pending, hne, h2]

/-- The lines split after the last line that ends in `;`. -/
theorem lines_split (ls : List GoString) :
    ∃ pre post, ls = pre ++ post
      ∧ (∀ l ∈ post, l.getLast? ≠ some ';')
      ∧ (pre = [] ∨ ∃ l, pre.getLast? = some l ∧ l.getLast? = some ';') := by
  induction ls using List.reverseRecOn with
  | nil => exact ⟨[], [], rfl, by simp, Or.inl rfl⟩
  | append_singleton ls l ih =>
    by_cases hs : l.getLast? = some ';'
    · exact ⟨ls ++ [l], [], by simp, by simp, Or.inr ⟨l, by simp, hs⟩⟩
    · obtain ⟨pre, post, e, hpost, hpre⟩ := ih
      refine ⟨pre, post ++ [l], by rw [e]; simp, ?_, hpre⟩
      intro x hx
      rcases List.mem_append.1 hx with hx | hx
      · exact hpost x hx
      · simp at hx
        rw [hx]
        exact hs

end database

namespace database

theorem getLast?_append_nonempty (a b : GoString) (h : b ≠ []) :
    (a ++ b).getLast? = b.getLast? := by
  exact List.getLast?_append_of_ne_nil a h

theorem pending_ends_with_last (pre post : List GoString) (last : GoString)
    (hpost : ∀ l ∈ post, l.getLast? ≠ some ';')
    (hpre : pre = [] ∨ ∃ l, pre.getLast? = some l ∧ l.getLast? = some ';')
    (hl : ((pre ++ post).filter (fun l => l ≠ [])).getLast? = some last)
    (hs : last.getLast? ≠ some ';') :
    ∃ body, pending [] (pre ++ post) = body ++ last ++ ['\n'] := by
  have hpend : pending [] (pre ++ post)
      = ((post.filter (fun l => l ≠ [])).map (fun l => l ++ ['\n'])).flatten := by
    rw [pending_append]
    rcases hpre with e | ⟨l, h1, h2⟩
    · rw [e, pending, pending_unterminated post hpost]
      simp
    · rw [pending_of_terminated pre l h1 h2, pending_unterminated post hpost]
      simp
  have hlast : (post.filter (fun l => l ≠ [])).getLast? = some last := by
    rw [List.filter_append] at hl
    by_cases hf : post.filter (fun l => l ≠ []) = []
    · exfalso
      rw [hf, List.append_nil] at hl
      rcases hpre with e | ⟨l, h1, h2⟩
      · rw [e] at hl
        simp at hl
      · obtain ⟨init, x, e⟩ : ∃ init x, pre = init ++ [x] := by
          rcases List.eq_nil_or_concat pre with e | ⟨init, x, e⟩
          · simp [e] at h1
          · exact ⟨init, x, by rw [e]; simp⟩
        rw [e] at h1
        simp at h1
        have hne : l ≠ [] := by
          intro e0
          simp [e0] at h2
        rw [e, h1, List.filter_append] at hl
        simp [hne] at hl
        rw [hl] at h2
        exact hs h2
    · rw [List.getLast?_append_of_ne_nil _ hf] at hl
      exact hl
  obtain ⟨init, e⟩ : ∃ init, post.filter (fun l => l ≠ []) = init ++ [last] :=
    List.getLast?_eq_some_iff.1 hlast
  refine ⟨(init.map (fun l => l ++ ['\n'])).flatten, ?_⟩
  rw [hpend, e]
  simp

theorem pending_not_statement (ls : List GoString) (last body : GoString)
    (hne : last ≠ []) (hs : last.getLast? ≠ some ';') :
    body ++ last ++ ['\n'] ∉ specSplit [] ls := by
  intro hm
  obtain ⟨block, l, e, hl, _, _⟩ := specSplit_statement ls _ hm
  have hlne : l ≠ [] := by
    intro e0
    simp [e0] at hl
  have e2 : body ++ last = (block.map (fun x => x ++ ['\n'])).flatten ++ l := by
    have e3 : (body ++ last) ++ ['\n']
        = ((block.map (fun x => x ++ ['\n'])).flatten ++ l) ++ ['\n'] := by
      rw [e]
      simp
    exact List.append_cancel_right e3
  have e4 := congrArg List.getLast? e2
  rw [getLast?_append_nonempty _ _ hne, getLast?_append_nonempty _ _ hlne, hl] at e4
  exact hs e4

theorem restoreUnit_congr (db : Conn) (tr : List Call) (r r2 : bufio.Reader)
    (h : specSplit [] (bufio.scan r2).1 = specSplit [] (bufio.scan r).1) :
    restoreUnit db tr r2 = restoreUnit db tr r := by
  simp only [restoreUnit, replay_eq_specExec, h]

/-- C21: for every input stream whose last non-empty line does not end in `;`, the text
accumulated after the last terminated statement is never executed, no error is reported for it,
and the transaction of the unit is still committed.  The lines split into the lines up to the
last one that ends in `;` and the lines after it; the pending text at the end of the loop is
made of the non-empty lines after it, each with a newline, and it ends with the last non-empty
line; it is none of the statements of the unit, and the statements that the unit executes are
the first `k` of those of the lines before it; the unit makes the same calls and returns the
same result as a unit whose stream ends after the last terminated line, for every behaviour of
the database; and when the transaction begins and no execution fails, the last call of the
unit is `COMMIT`, and the unit returns no error when the commit succeeds. -/
theorem Restore_drops_unterminated_tail (db : Conn) (tr : List Call) (r : bufio.Reader)
    (last : GoString)
    (hl : ((bufio.scan r).1.filter (fun l => l ≠ [])).getLast? = some last)
    (hs : last.getLast? ≠ some ';') :
    (∃ body, pending [] (bufio.scan r).1 = body ++ last ++ ['\n'])
    ∧ pending [] (bufio.scan r).1 ∉ specSplit [] (bufio.scan r).1
    ∧ (∃ pre post, (bufio.scan r).1 = pre ++ post
        ∧ (∀ l ∈ post, l.getLast? ≠ some ';')
        ∧ (pre = [] ∨ ∃ l, pre.getLast? = some l ∧ l.getLast? = some ';')
        ∧ pending [] (bufio.scan r).1
          = ((post.filter (fun l => l ≠ [])).map (fun l => l ++ ['\n'])).flatten
        ∧ specSplit [] (bufio.scan r).1 = specSplit [] pre
        ∧ (∃ k, execsOf (restoreUnit db tr r).1 = execsOf tr ++ (specSplit [] pre).take k)
        ∧ (∀ r2, (bufio.scan r2).1 = pre → restoreUnit db tr r2 = restoreUnit db tr r))
    ∧ (db.beginFails tr = false → (∀ h s, db.execFails h s = false) →
        (restoreUnit db tr r).1
          = tr ++ Call.beginTx :: (specSplit [] (bufio.scan r).1).map Call.exec
              ++ [Call.commit]
        ∧ (db.commitFails
              (tr ++ Call.beginTx :: (specSplit [] (bufio.scan r).1).map Call.exec) = false →
            (restoreUnit db tr r).2 = none)) := by
  obtain ⟨pre, post, e, hpost, hpre⟩ := lines_split (bufio.scan r).1
  have hne : last ≠ [] := by
    have hm := List.mem_of_getLast?_eq_some hl
    simpa using (List.mem_filter.1 hm).2
  have hbody : ∃ body, pending [] (bufio.scan r).1 = body ++ last ++ ['\n'] := by
    rw [e]
    rw [e] at hl
    exact pending_ends_with_last pre post last hpost hpre hl hs
  have hsplit : specSplit [] (bufio.scan r).1 = specSplit [] pre := by
    rw [e]
    exact specSplit_append_unterminated pre post hpost []
  have hpend : pending [] (bufio.scan r).1
      = ((post.filter (fun l => l ≠ [])).map (fun l => l ++ ['\n'])).flatten := by
    rw [e, pending_append]
    rcases hpre with e0 | ⟨l, h1, h2⟩
    · rw [e0, pending, pending_unterminated post hpost]
      simp
    · rw [pending_of_terminated pre l h1 h2, pending_unterminated post hpost]
      simp
  refine ⟨hbody, ?_, ⟨pre, post, e, hpost, hpre, hpend, hsplit, ?_, ?_⟩,
    fun hb he => restoreUnit_execs_ok db tr r hb he⟩
  · obtain ⟨body, hb⟩ := hbody
    rw [hb]
    exact pending_not_statement _ last body hne hs
  · rw [← hsplit]
    exact restoreUnit_execs db tr r
  · intro r2 h2
    exact restoreUnit_congr db tr r r2 (by rw [h2, hsplit])

/-- C21, for the stream of the lines `a;` and `b`: the pending text is `b` with its newline,
the only statement executed is `a;`, and the transaction is committed without an error. -/
theorem Restore_drops_unterminated_tail_witness :
    ((bufio.scan ⟨"a;\nb\n".toList, false⟩).1.filter (fun l => l ≠ [])).getLast?
      = some "b".toList
    ∧ "b".toList.getLast? ≠ some ';'
    ∧ pending [] (bufio.scan ⟨"a;\nb\n".toList, false⟩).1 = "b\n".toList
    ∧ (restoreUnit allOk [] ⟨"a;\nb\n".toList, false⟩).1
      = [Call.beginTx, Call.exec "a;\n".toList, Call.commit]
    ∧ (restoreUnit allOk [] ⟨"a;\nb\n".toList, false⟩).2 = none :=
  ⟨by decide, by decide, by decide,
    ((Restore_drops_unterminated_tail allOk [] ⟨"a;\nb\n".toList, false⟩ "b".toList
      (by decide) (by decide)).2.2.2 rfl (fun _ _ => rfl)).1.trans (by decide),
    by decide⟩

end database

/-! ## Entries that do not open -/

namespace core

theorem openReaders_append (env : Env) (fs : os.FS) (tmpdir : GoString)
    (a b : List (GoString × os.Node)) :
    openReaders env fs tmpdir (a ++ b)
      = openReaders env fs tmpdir a ++ openReaders env fs tmpdir b := by
  simp only [openReaders_eq, List.filter_append, List.map_append]

theorem openReaders_unopened (env : Env) (fs : os.FS) (tmpdir : GoString)
    (f : GoString × os.Node) (files : List (GoString × os.Node))
    (hf : os.Open env fs (tmpdir ++ '/' :: f.1) = none) :
    openReaders env fs tmpdir (f :: files) = openReaders env fs tmpdir files := by
  rw [openReaders_eq, openReaders_eq, List.filter_cons_of_neg]
  simp [replayed, hf]

theorem restoreFromTmp_ok (env : Env) (target : GoString) (w : World) (content plain : GoString)
    (ho : os.Open env w.fs tmpRestoreFile = some (os.Node.file content))
    (hu : env.uncompress content = some plain) (ht : (env.untar plain).2 = false)
    (hr : env.readDirFails = false)
    (hdb : (database.Restore env.db
        (openReaders env
          (writeEntries env.tmpdir (w.fs.remove tmpRestoreFile) (env.untar plain).1)
          env.tmpdir
          (os.ReadDir
            (writeEntries env.tmpdir (w.fs.remove tmpRestoreFile) (env.untar plain).1)
            env.tmpdir))).2 = none)
    (hpost : (env.runScripts postRestoreDir target
        (writeEntries env.tmpdir (w.fs.remove tmpRestoreFile) (env.untar plain).1)).2
          = false) :
    (restoreFromTmp env target w).2 = none := by
  simp only [restoreFromTmp, ho, hu, ht, hr, Bool.false_eq_true, if_false, hdb, postRestore,
    runScripts, hpost]

/-- C22: for every list of extracted entries, an entry that cannot be opened is silently
skipped.  When the entry `f` of the listing of the extracted directory does not open, the
readers handed to the database are those of the entries before it followed by those of the
entries after it, so `database.Restore` makes the calls and returns the result that it would
without the entry: no error is reported for it and the other entries are replayed in order.
When no call on the database fails these calls are, unit after unit, `BEGIN`, the statements,
`COMMIT` for the other entries, with no error; and `Restore` then returns no error either,
once the artifact is extracted and when the post-restore hooks succeed, although the entry was
never replayed. -/
theorem Restore_skips_unopened_entry (env : Env) (fs : os.FS)
    (before after : List (GoString × os.Node)) (f : GoString × os.Node)
    (hlist : os.ReadDir fs env.tmpdir = before ++ f :: after)
    (hf : os.Open env fs (env.tmpdir ++ '/' :: f.1) = none) :
    openReaders env fs env.tmpdir (os.ReadDir fs env.tmpdir)
        = openReaders env fs env.tmpdir before ++ openReaders env fs env.tmpdir after
    ∧ database.Restore env.db (openReaders env fs env.tmpdir (os.ReadDir fs env.tmpdir))
        = database.Restore env.db (openReaders env fs env.tmpdir (before ++ after))
    ∧ (env.db.openFails = false → (∀ h, env.db.beginFails h = false) →
        (∀ h s, env.db.execFails h s = false) → (∀ h, env.db.commitFails h = false) →
        database.Restore env.db (openReaders env fs env.tmpdir (os.ReadDir fs env.tmpdir))
          = (((openReaders env fs env.tmpdir before
                ++ openReaders env fs env.tmpdir after).map database.unitCalls).flatten,
              none)
        ∧ ∀ target w content plain,
            os.Open env w.fs tmpRestoreFile = some (os.Node.file content) →
            env.uncompress content = some plain → (env.untar plain).2 = false →
            env.readDirFails = false →
            fs = writeEntries env.tmpdir (w.fs.remove tmpRestoreFile) (env.untar plain).1 →
            (env.runScripts postRestoreDir target fs).2 = false →
            (restoreFromTmp env target w).2 = none
            ∧ (restoreFromTmp env target w).1.db
              = w.db ++ ((openReaders env fs env.tmpdir before
                  ++ openReaders env fs env.tmpdir after).map database.unitCalls).flatten) := by
  have h1 : openReaders env fs env.tmpdir (os.ReadDir fs env.tmpdir)
      = openReaders env fs env.tmpdir before ++ openReaders env fs env.tmpdir after := by
    rw [hlist, openReaders_append, openReaders_unopened env fs env.tmpdir f after hf]
  refine ⟨h1, by rw [h1, openReaders_append], fun ho hb he hc => ?_⟩
  have h3 : database.Restore env.db (openReaders env fs env.tmpdir (os.ReadDir fs env.tmpdir))
      = (((openReaders env fs env.tmpdir before
            ++ openReaders env fs env.tmpdir after).map database.unitCalls).flatten,
          none) := by
    rw [h1]
    unfold database.Restore
    rw [if_neg (by simp [ho]), database.restoreUnits_allOk env.db hb he hc]
    simp
  refine ⟨h3, fun target w content plain g1 g2 g3 g4 g5 g6 => ?_⟩
  subst g5
  constructor
  · exact restoreFromTmp_ok env target w content plain g1 g2 g3 g4 (by rw [h3]) g6
  · rw [restoreFromTmp_db env target w content plain g1 g2 g3 g4, h3]

/-- C22, for an archive with the files `a.sql` and `b.sql` and the directory `d`, of which
`a.sql` does not open: the only reader is that of `b.sql`, and `Restore` returns no error
although the statement of `a.sql` was never executed. -/
theorem Restore_skips_unopened_entry_witness :
    os.ReadDir (writeEntries twoFilesEnv.tmpdir [] (twoFilesEnv.untar []).1) twoFilesEnv.tmpdir
      = [] ++ ("a.sql".toList, os.Node.file "A;\n".toList)
          :: [("b.sql".toList, os.Node.file "B;\n".toList), ("d".toList, os.Node.dir)]
    ∧ os.Open twoFilesEnv (writeEntries twoFilesEnv.tmpdir [] (twoFilesEnv.untar []).1)
        (twoFilesEnv.tmpdir ++ '/' :: "a.sql".toList) = none
    ∧ openReaders twoFilesEnv (writeEntries twoFilesEnv.tmpdir [] (twoFilesEnv.untar []).1)
        twoFilesEnv.tmpdir
        (os.ReadDir (writeEntries twoFilesEnv.tmpdir [] (twoFilesEnv.untar []).1)
          twoFilesEnv.tmpdir)
      = [⟨"B;\n".toList, false⟩]
    ∧ (Restore twoFilesEnv "/backups/db.tgz".toList ⟨[], []⟩ sampleWorld).2 = none
    ∧ database.Call.exec "A;\n".toList
      ∉ (Restore twoFilesEnv "/backups/db.tgz".toList ⟨[], []⟩ sampleWorld).1.db :=
  ⟨by decide, by decide,
    (Restore_skips_unopened_entry twoFilesEnv
      (writeEntries twoFilesEnv.tmpdir [] (twoFilesEnv.untar []).1) []
      [("b.sql".toList, os.Node.file "B;\n".toList), ("d".toList, os.Node.dir)]
      ("a.sql".toList, os.Node.file "A;\n".toList) (by decide) (by decide)).1.trans
      (by decide),
    by decide, by decide⟩

end core

end MysqlBackup
